import Mathlib

/-!
# Amalgamate: a shallow embedding of `Amalgamate.cpp`

The program inlines `#include "..."` files recursively into one output stream.
A `std::string` is modelled as a list of characters, one `Char` per byte (the
character with the byte's value as its code).  The two `std::regex` objects are
kept as data (`localIncludeRegex`, `pragmaOnceRegex`) and run by a small
backtracking matcher for the ECMAScript constructs they use.
-/

set_option maxRecDepth 100000

namespace Amalgamate

/-- A `std::string`: a sequence of bytes. -/
abbrev Str := List Char

/-! ## The regular expressions -/

/-- The class `\s` of `std::regex` in the default "C" locale (`std::isspace`):
space, `\t`, `\n`, `\v`, `\f`, `\r`. -/
def is_space (c : Char) : Bool :=
  c = ' ' || c = '\t' || c = '\n' || c = Char.ofNat 11 || c = Char.ofNat 12 || c = '\r'

/-- The class `\w` of `std::regex` in the "C" locale: letters, digits and `_`. -/
def is_word (c : Char) : Bool :=
  ('a'.toNat ≤ c.toNat && c.toNat ≤ 'z'.toNat) ||
  ('A'.toNat ≤ c.toNat && c.toNat ≤ 'Z'.toNat) ||
  ('0'.toNat ≤ c.toNat && c.toNat ≤ '9'.toNat) || c = '_'

/-- The bracket expression `[^">]`. -/
def not_quote_gt (c : Char) : Bool := !(c = '"' || c = '>')

/-- The regex constructs that occur in the two patterns of the program. -/
inductive Node where
  /-- `^`: the start of the searched string. -/
  | bol
  /-- A literal character. -/
  | chr (c : Char)
  /-- `cls*`, greedy. -/
  | star (cls : Char → Bool)
  /-- `(cls+)`, greedy; the capturing group number 1. -/
  | group_plus (cls : Char → Bool)
  /-- `\b`: a word boundary. -/
  | word_boundary

/-- A run of literal characters. -/
def lits (s : String) : List Node := s.toList.map Node.chr

/-- The pattern `^\s*#\s*include\s*"([^">]+)"`. -/
def localIncludeRegex : List Node :=
  [.bol, .star is_space, .chr '#', .star is_space] ++ lits "include" ++
  [.star is_space, .chr '"', .group_plus not_quote_gt, .chr '"']

/-- The pattern `^\s*#\s*pragma\s*once\b`. -/
def pragmaOnceRegex : List Node :=
  [.bol, .star is_space, .chr '#', .star is_space] ++ lits "pragma" ++
  [.star is_space] ++ lits "once" ++ [.word_boundary]

/-- Whether the character next to the current position (if any) is a word character. -/
def is_word_at (c : Option Char) : Bool :=
  match c with
  | some c => is_word c
  | none => false

/-- Greedy repetition with backtracking: consume characters of `cls` as long as
possible, then run the continuation `k`; when it fails, give one character back
and try again.  `acc` collects the consumed text, `prev` is the character before
the current position (`none` at the start of the string). -/
def match_star (cls : Char → Bool) (k : Str → Option Char → Str → Option Str) :
    Str → Option Char → Str → Option Str
  | acc, prev, [] => k acc prev []
  | acc, prev, c :: cs =>
    if cls c then
      match match_star cls k (acc ++ [c]) (some c) cs with
      | some r => some r
      | none => k acc prev (c :: cs)
    else k acc prev (c :: cs)

/-- Match the nodes in sequence at the current position.  The result is the text
of capturing group 1 of the first match found in backtracking order (`cap`, the
empty string, when the group took no part). -/
def match_nodes : List Node → Str → Option Char → Str → Option Str
  | [], cap, _, _ => some cap
  | .bol :: rest, cap, prev, s =>
    if prev.isNone then match_nodes rest cap prev s else none
  | .chr c :: rest, cap, _, s =>
    match s with
    | d :: ds => if d = c then match_nodes rest cap (some d) ds else none
    | [] => none
  | .star cls :: rest, cap, prev, s =>
    match_star cls (fun _ p t => match_nodes rest cap p t) [] prev s
  | .group_plus cls :: rest, _, _, s =>
    match s with
    | d :: ds =>
      if cls d then match_star cls (fun acc p t => match_nodes rest acc p t) [d] (some d) ds
      else none
    | [] => none
  | .word_boundary :: rest, cap, prev, s =>
    if is_word_at prev != is_word_at s.head? then match_nodes rest cap prev s else none

/-- The search loop of `std::regex_search`: try a match at every start position, left to right. -/
def regex_search_from (re : List Node) : Option Char → Str → Option Str
  | prev, [] => match_nodes re [] prev []
  | prev, c :: cs =>
    match match_nodes re [] prev (c :: cs) with
    | some cap => some cap
    | none => regex_search_from re (some c) cs

/-- The call `std::regex_search(line, match, re)`: `some` of `match[1]` when a match exists. -/
def regex_search (line : Str) (re : List Node) : Option Str :=
  regex_search_from re none line

structure SearchResult where
  successful : Bool
  result : Str
  deriving DecidableEq, Repr

def is_local_include (line : Str) : SearchResult :=
  match regex_search line localIncludeRegex with
  | some m1 => { successful := true, result := m1 }
  | none => { successful := false, result := [] }

def is_pragma_once (line : Str) : SearchResult :=
  { successful := (regex_search line pragmaOnceRegex).isSome, result := [] }

/-! ## The banner formatter -/

/-- Conversion to a 64-bit unsigned integer (`std::size_t`). -/
def to_u64 (x : Int) : Int := x % 2 ^ 64

/-- Narrowing conversion to a 32-bit signed `int`. -/
def to_int32 (x : Int) : Int :=
  if x % 2 ^ 32 < 2 ^ 31 then x % 2 ^ 32 else x % 2 ^ 32 - 2 ^ 32

def total_width : Int := 118

def comment_prefix_width : Int := 2

def content_width : Int := total_width - comment_prefix_width

/-- The value of `int left_padding = (content_width - str.size()) / 2;` where `size` is `str.size()`:
the subtraction and the division are done on 64-bit unsigned integers. -/
def left_padding (size : Nat) : Int :=
  to_int32 (to_u64 (to_u64 content_width - to_u64 size) / 2)

/-- The value of `int right_padding = content_width - str.size() - left_padding;`. -/
def right_padding (size : Nat) : Int :=
  to_int32 (to_u64 (to_u64 (to_u64 content_width - to_u64 size) - to_u64 (left_padding size)))

/-- The constructor `std::string(n, c)` for an `int` argument `n`: the count is converted to `std::size_t`,
so a negative `n` asks for more than `max_size()` characters and the constructor throws
`std::length_error` (`none`). -/
def string_fill (n : Int) (c : Char) : Option Str :=
  if n < 0 then none else some (List.replicate n.toNat c)

/-- The text `generate_header` writes for the label `str`; `none` when one of the
padding strings cannot be built and `std::length_error` is thrown. -/
def header_text (str : Str) : Option Str :=
  match string_fill content_width '-', string_fill (left_padding str.length) '-',
        string_fill (right_padding str.length) '-' with
  | some full, some left, some right =>
    some ("//".toList ++ full ++ "\n".toList ++
          ("//".toList ++ left ++ str ++ right ++ "\n".toList) ++
          ("//".toList ++ full ++ "\n".toList))
  | _, _, _ => none

/-- The call `generate_header(output, str)`: the stream `output` after the call. -/
def generate_header (output : Str) (str : Str) : Option Str :=
  match header_text str with
  | some text => some (output ++ text)
  | none => none

/-! ## The inclusion resolver -/

/-- What a call of `parse_file` writes, as a sequence of emission events. -/
inductive Event where
  /-- The banner of a file and the empty line after it. -/
  | begin_banner (path : Str)
  /-- The banner `"END " + path` and the empty line after it. -/
  | end_banner (path : Str)
  /-- An ordinary line, written with a newline. -/
  | ordinary (line : Str)
  deriving DecidableEq, Repr

/-- The `Parser` object together with the output stream.  `events` is a ghost log
of the emissions; nothing reads it. -/
structure State where
  output : Str
  alreadyIncluded : Finset Str
  events : List Event
  deriving DecidableEq

/-- How a call ends. -/
inductive Outcome (α : Type) where
  /-- The call returned. -/
  | done (a : α)
  /-- `std::length_error` left the call (nothing catches it: the process terminates). -/
  | length_error
  /-- The calls of `parse_file` nest deeper than the bound given. -/
  | depth_exceeded
  deriving DecidableEq

/-- The files that can be opened for reading: the lines `std::getline` yields for each path. -/
abbrev Files := Str → Option (List Str)

/-- The lines read from `std::ifstream(path)` on a file system that is a fixed map and
sets no limit on the streams open at a time: a stream that failed to open yields none.
`open_stream` below drops both assumptions. -/
def open_lines (fs : Files) (path : Str) : List Str := (fs path).getD []

def utf8_bom : Str := [Char.ofNat 0xEF, Char.ofNat 0xBB, Char.ofNat 0xBF]

/-- The body of `if (isFirstLine)`: `line.compare(0, 3, utf8_bom) == 0` compares the first
(at most three) bytes of the line with the BOM, `line.erase(0, 3)` drops them. -/
def remove_bom (line : Str) : Str :=
  if line.take utf8_bom.length = utf8_bom then line.drop utf8_bom.length else line

/-- The `while (std::getline(input, line))` loop of `parse_file`, over the lines still to be
read; `parse_include` is the call made for an include that is not skipped. -/
def parse_loop (parse_include : Str → State → Outcome State) (inputPath : Str) :
    Bool → List Str → State → Outcome State
  | _, [], st => .done st
  | isFirstLine, raw :: rest, st =>
    let line := if isFirstLine then remove_bom raw else raw
    let res := is_local_include line
    if res.successful then
      if res.result ∉ st.alreadyIncluded then
        match parse_include res.result st with
        | .done st1 => parse_loop parse_include inputPath false rest st1
        | .length_error => .length_error
        | .depth_exceeded => .depth_exceeded
      else
        parse_loop parse_include inputPath false rest st
    else if (is_pragma_once line).successful then
      parse_loop parse_include inputPath false rest
        { st with alreadyIncluded := insert inputPath st.alreadyIncluded }
    else
      parse_loop parse_include inputPath false rest
        { st with output := st.output ++ line ++ "\n".toList,
                  events := st.events ++ [.ordinary line] }

/-- The call `parse_file(output, inputPath, input)` with at most `depth` nested calls. -/
def parse_file (fs : Files) : Nat → Str → List Str → State → Outcome State
  | 0, _, _, _ => .depth_exceeded
  | depth + 1, inputPath, input, st =>
    match generate_header st.output inputPath with
    | none => .length_error
    | some out1 =>
      match parse_loop (fun includePath s => parse_file fs depth includePath (open_lines fs includePath) s)
          inputPath true input
          { st with output := out1 ++ "\n".toList,
                    events := st.events ++ [.begin_banner inputPath] } with
      | .done st2 =>
        match generate_header st2.output ("END ".toList ++ inputPath) with
        | none => .length_error
        | some out2 =>
          .done { st2 with output := out2 ++ "\n".toList,
                           events := st2.events ++ [.end_banner inputPath] }
      | .length_error => .length_error
      | .depth_exceeded => .depth_exceeded

/-- The call `parse_include(output, includePath)` with at most `depth` nested calls of
`parse_file`. -/
def parse_include (fs : Files) (depth : Nat) (includePath : Str) (st : State) : Outcome State :=
  parse_file fs depth includePath (open_lines fs includePath) st

/-- The state `main` starts from: an empty output file and an empty set. -/
def initial : State := { output := [], alreadyIncluded := ∅, events := [] }

/-! ## Auxiliary definitions for the proofs -/

/-- The character before the position reached after reading `ws`. -/
def last_or : Option Char → Str → Option Char
  | prev, [] => prev
  | _, c :: cs => last_or (some c) cs

/-- The nodes `re` cannot start a match on a character of `cls`. -/
def Rejects (cls : Char → Bool) (re : List Node) : Prop :=
  ∀ cap p c t, cls c = true → match_nodes re cap p (c :: t) = none

/-- The input after the leading whitespace. -/
def skip_space (s : Str) : Str := s.dropWhile is_space

/-- The input after the literal text `cs`, when it starts with it. -/
def after (cs : Str) (s : Str) : Option Str :=
  if cs.isPrefixOf s = true then some (s.drop cs.length) else none

/-- A (possibly empty) run of whitespace. -/
def all_space (ws : Str) : Prop := ∀ c ∈ ws, is_space c = true

/-- The shape `ws1 # ws2 include ws3 " path " rest` of a line. -/
def IncludeShape (line path : Str) : Prop :=
  ∃ ws1 ws2 ws3 rest : Str, all_space ws1 ∧ all_space ws2 ∧ all_space ws3 ∧
    line = ws1 ++ '#' :: (ws2 ++ ("include".toList ++ (ws3 ++ '"' :: (path ++ '"' :: rest))))

/-- The shape `ws1 # ws2 pragma ws3 once rest` of a line, where `rest` is empty or starts
with a character that is not a word character. -/
def OnceShape (line : Str) : Prop :=
  ∃ ws1 ws2 ws3 rest : Str, all_space ws1 ∧ all_space ws2 ∧ all_space ws3 ∧
    (rest = [] ∨ ∃ c t, rest = c :: t ∧ is_word c = false) ∧
    line = ws1 ++ '#' :: (ws2 ++ ("pragma".toList ++ (ws3 ++ ("once".toList ++ rest))))

/-- The line the loop classifies: the first line of a file loses a leading BOM. -/
def line_read (isFirstLine : Bool) (raw : Str) : Str :=
  if isFirstLine then remove_bom raw else raw

/-- The lines still to be read as the loop classifies them; `isFirstLine` tells whether the
first of them is the first line of the file. -/
def lines_from (isFirstLine : Bool) : List Str → List Str
  | [] => []
  | raw :: rest => line_read isFirstLine raw :: rest

/-- The lines of a file as the loop classifies them. -/
def lines_read (input : List Str) : List Str := lines_from true input

/-- The line is a once-directive. -/
def is_once (line : Str) : Prop := (is_pragma_once line).successful = true

/-- The line is a local include of `target`. -/
def is_include_of (line target : Str) : Prop :=
  (is_local_include line).successful = true ∧ (is_local_include line).result = target

/-- The state after an ordinary line has been written. -/
def State.write_line (st : State) (line : Str) : State :=
  { st with output := st.output ++ line ++ "\n".toList, events := st.events ++ [.ordinary line] }

/-- The state after `alreadyIncluded.emplace(path)`. -/
def State.emplace (st : State) (path : Str) : State :=
  { st with alreadyIncluded := insert path st.alreadyIncluded }

/-- The state after a banner with text `out` following has been written. -/
def State.write_banner (st : State) (out : Str) (e : Event) : State :=
  { st with output := out ++ "\n".toList, events := st.events ++ [e] }

/-- Lines 1 and 3 of a banner, per the spec: the comment leader and 116 fill characters. -/
def banner_fill_line : Str := "//".toList ++ List.replicate 116 '-'

/-- Line 2 of a banner, per the spec: the comment leader, `floor((116 - L) / 2)` fill
characters, the label, and the remaining fill characters. -/
def banner_label_line (label : Str) : Str :=
  "//".toList ++ List.replicate ((116 - label.length) / 2) '-' ++ label ++
    List.replicate (116 - label.length - (116 - label.length) / 2) '-'

/-- The three lines of the banner for a label of at most 116 bytes, per the spec. -/
def banner (label : Str) : Str :=
  banner_fill_line ++ "\n".toList ++ (banner_label_line label ++ "\n".toList) ++
    (banner_fill_line ++ "\n".toList)

/-- The cases of an induction over the calls of a run that returns: `F` relates the states
before and after a call of `parse_file`, `L` those before and after the rest of a loop. -/
structure Steps (fs : Files) (F : Nat → Str → List Str → State → State → Prop)
    (L : Nat → Str → Bool → List Str → State → State → Prop) : Prop where
  nil : ∀ d p b st, L d p b [] st st
  inc : ∀ d p b raw rest st st1 st2,
    (is_local_include (line_read b raw)).successful = true →
    (is_local_include (line_read b raw)).result ∉ st.alreadyIncluded →
    parse_include fs d (is_local_include (line_read b raw)).result st = .done st1 →
    F d (is_local_include (line_read b raw)).result
      (open_lines fs (is_local_include (line_read b raw)).result) st st1 →
    parse_loop (parse_include fs d) p false rest st1 = .done st2 →
    L d p false rest st1 st2 → L d p b (raw :: rest) st st2
  skip : ∀ d p b raw rest st st2,
    (is_local_include (line_read b raw)).successful = true →
    (is_local_include (line_read b raw)).result ∈ st.alreadyIncluded →
    parse_loop (parse_include fs d) p false rest st = .done st2 →
    L d p false rest st st2 → L d p b (raw :: rest) st st2
  once : ∀ d p b raw rest st st2,
    (is_local_include (line_read b raw)).successful = false →
    (is_pragma_once (line_read b raw)).successful = true →
    parse_loop (parse_include fs d) p false rest (st.emplace p) = .done st2 →
    L d p false rest (st.emplace p) st2 → L d p b (raw :: rest) st st2
  ord : ∀ d p b raw rest st st2,
    (is_local_include (line_read b raw)).successful = false →
    (is_pragma_once (line_read b raw)).successful = false →
    parse_loop (parse_include fs d) p false rest (st.write_line (line_read b raw)) = .done st2 →
    L d p false rest (st.write_line (line_read b raw)) st2 → L d p b (raw :: rest) st st2
  file : ∀ d p input st out1 st2 out2,
    generate_header st.output p = some out1 →
    parse_loop (parse_include fs d) p true input (st.write_banner out1 (.begin_banner p))
      = .done st2 →
    L d p true input (st.write_banner out1 (.begin_banner p)) st2 →
    generate_header st2.output ("END ".toList ++ p) = some out2 →
    F (d + 1) p input st (st2.write_banner out2 (.end_banner p))

/-- The state with `o` put in front of the output and `e` in front of the event log. -/
def State.shift (o : Str) (e : List Event) (st : State) : State :=
  { output := o ++ st.output, alreadyIncluded := st.alreadyIncluded, events := e ++ st.events }

/-- The outcome with `f` applied to the state returned. -/
def Outcome.map {α β : Type} (f : α → β) : Outcome α → Outcome β
  | .done a => .done (f a)
  | .length_error => .length_error
  | .depth_exceeded => .depth_exceeded

/-- The state with an empty output and the set `s`. -/
def State.fresh (s : Finset Str) : State := { output := [], alreadyIncluded := s, events := [] }

/-- The complete expansion of the include target `target`, run with the set `s`: it writes
`text` and leaves the set `s'`. -/
def Expansion (fs : Files) (target : Str) (s : Finset Str) (text : Str) (s' : Finset Str) : Prop :=
  ∃ d r, parse_include fs d target (State.fresh s) = .done r ∧ r.output = text ∧
    r.alreadyIncluded = s'

/-- The text the lines of the file `path` contribute one after the other, starting with the
set `s`, and the set they leave: an ordinary line contributes itself and a newline, an include
of a target outside the set the complete expansion of the target, a once-directive or an
include of a target in the set nothing. -/
inductive Contributions (fs : Files) (path : Str) :
    List Str → Finset Str → Str → Finset Str → Prop where
  | nil (s : Finset Str) : Contributions fs path [] s [] s
  | ordinary (line : Str) (rest : List Str) (s : Finset Str) (text : Str) (s' : Finset Str) :
    (is_local_include line).successful = false → (is_pragma_once line).successful = false →
    Contributions fs path rest s text s' →
    Contributions fs path (line :: rest) s (line ++ "\n".toList ++ text) s'
  | expanded (line : Str) (rest : List Str) (target : Str) (s : Finset Str) (t1 : Str)
      (s1 : Finset Str) (text : Str) (s' : Finset Str) :
    is_include_of line target → target ∉ s → Expansion fs target s t1 s1 →
    Contributions fs path rest s1 text s' →
    Contributions fs path (line :: rest) s (t1 ++ text) s'
  | skipped (line : Str) (rest : List Str) (target : Str) (s : Finset Str) (text : Str)
      (s' : Finset Str) :
    is_include_of line target → target ∈ s →
    Contributions fs path rest s text s' →
    Contributions fs path (line :: rest) s text s'
  | once (line : Str) (rest : List Str) (s : Finset Str) (text : Str) (s' : Finset Str) :
    is_once line →
    Contributions fs path rest (insert path s) text s' →
    Contributions fs path (line :: rest) s text s'

/-- The line is ordinary: neither pattern matches it. -/
def is_ordinary (line : Str) : Prop :=
  (is_local_include line).successful = false ∧ (is_pragma_once line).successful = false

/-- The events an expansion of the file `p` with the lines `input` emits itself: its two
banners and its ordinary lines. -/
def OwnEvent (p : Str) (input : List Str) (e : Event) : Prop :=
  e = .begin_banner p ∨ e = .end_banner p ∨
    ∃ l ∈ lines_read input, is_ordinary l ∧ e = .ordinary l

/-- The number of lines that are a local include of `target`. -/
def includes_of (target : Str) (lines : List Str) : Nat :=
  lines.countP fun l =>
    (is_local_include l).successful && decide ((is_local_include l).result = target)

/-- The shape `ws1 # ws2 include ws3 r` of a line: the start of an include directive
followed by `r`. -/
def IncludeHead (line r : Str) : Prop :=
  ∃ ws1 ws2 ws3 : Str, all_space ws1 ∧ all_space ws2 ∧ all_space ws3 ∧
    line = ws1 ++ '#' :: (ws2 ++ ("include".toList ++ (ws3 ++ r)))

/-- A sequence of events in which the banners are nested like brackets: every begin banner
of `p` is closed by an end banner of `p`, and what lies between them is nested itself. -/
inductive Nested : List Event → Prop where
  | nil : Nested []
  | ordinary (l : Str) (rest : List Event) : Nested rest → Nested (.ordinary l :: rest)
  | expansion (p : Str) (inner rest : List Event) : Nested inner → Nested rest →
    Nested (.begin_banner p :: (inner ++ .end_banner p :: rest))

/-- The event is a begin banner. -/
def Event.is_begin : Event → Bool
  | .begin_banner _ => true
  | _ => false

/-- The event is an end banner. -/
def Event.is_end : Event → Bool
  | .end_banner _ => true
  | _ => false

/-- The text an event stands for in the output of a run that returns. -/
def event_text : Event → Str
  | .begin_banner p => (header_text p).getD [] ++ "\n".toList
  | .end_banner p => (header_text ("END ".toList ++ p)).getD [] ++ "\n".toList
  | .ordinary l => l ++ "\n".toList

/-- The text a sequence of events stands for. -/
def render (evs : List Event) : Str := (evs.map event_text).flatten

/-- The file `a` has a line that is a local include of `b`: an edge of the include graph. -/
def Includes (fs : Files) (a b : Str) : Prop :=
  ∃ l ∈ lines_read (open_lines fs a), is_include_of l b

/-- The lines `std::getline` yields from a stream with the content `text`, `acc` being the
part of the current line already read: a line ends at `'\n'`; at the end of the stream the
characters read so far, if any, are a last line. -/
def get_lines_from : Str → Str → List Str
  | acc, [] => if acc = [] then [] else [acc]
  | acc, c :: cs => if c = '\n' then acc :: get_lines_from [] cs else get_lines_from (acc ++ [c]) cs

/-- The lines `std::getline` yields from a file with the content `text`. -/
def get_lines (text : Str) : List Str := get_lines_from [] text

/-- The lines an event stands for in the output when its label fits in 116 bytes. -/
def event_lines : Event → List Str
  | .begin_banner p => [banner_fill_line, banner_label_line p, banner_fill_line, []]
  | .end_banner p =>
    [banner_fill_line, banner_label_line ("END ".toList ++ p), banner_fill_line, []]
  | .ordinary l => [l]

/-- The lines a sequence of events stands for. -/
def output_lines : List Event → List Str
  | [] => []
  | e :: es => event_lines e ++ output_lines es

/-- The label of the banner event fits in 116 bytes. -/
def Event.fits : Event → Prop
  | .begin_banner p => p.length ≤ 116
  | .end_banner p => ("END ".toList ++ p).length ≤ 116
  | .ordinary _ => True

/-- The event holds no newline, and its line, if it is an ordinary line, matches neither
pattern. -/
def Event.clean : Event → Prop
  | .begin_banner p => '\n' ∉ p
  | .end_banner p => '\n' ∉ p
  | .ordinary l => is_ordinary l ∧ '\n' ∉ l


/-- The file system and the stream library as a run meets them. -/
structure Env where
  /-- The lines of the files other than the output file. -/
  files : Files
  /-- The paths that name the file the output stream writes (`ArgonMaster.hpp` in `main`). -/
  is_output : Str → Bool
  /-- The number of bytes of the output written so far that have reached the file; the bytes
  after them are still in the buffer of the output stream. -/
  visible : Str → Nat

/-- An input stream `std::ifstream`. -/
inductive Stream where
  /-- A stream that failed to open, or one that has met the end of its file. -/
  | closed
  /-- A stream on an ordinary file: the lines still to be read. -/
  | lines (rest : List Str)
  /-- A stream on the output file that has read the first `pos` bytes. -/
  | live (pos : Nat)
  deriving DecidableEq

/-- The call `std::getline(input, line)` when the output written so far is `output`: the line
read and the stream after the call, or `none` when the call fails.  On the output file the
call sees the bytes that have reached the file: it reads up to the next `'\n'`, or, when there
is none, reads the bytes that are left as a last line and meets the end of the file. -/
def getline (env : Env) (output : Str) : Stream → Option (Str × Stream)
  | .closed => none
  | .lines [] => none
  | .lines (l :: rest) => some (l, .lines rest)
  | .live pos =>
    let avail := (output.take (env.visible output)).drop pos
    if avail = [] then none
    else if '\n' ∈ avail then
      some (avail.takeWhile (· ≠ '\n'), .live (pos + (avail.takeWhile (· ≠ '\n')).length + 1))
    else some (avail, .closed)

/-- The stream `std::ifstream(path)` when `free` more descriptors can be opened: the open
fails when none is free or when the file does not exist. -/
def open_stream (env : Env) (free : Nat) (path : Str) : Stream :=
  if free = 0 then .closed
  else if env.is_output path = true then .live 0
  else match env.files path with
    | none => .closed
    | some ls => .lines ls

/-- How a call ends, or that it has not ended. -/
inductive Result where
  /-- The call returned. -/
  | done (st : State)
  /-- `std::length_error` left the call (nothing catches it: the process terminates). -/
  | length_error
  /-- The calls of `parse_file` nest deeper than the bound given. -/
  | depth_exceeded
  /-- A loop on the output file is still reading after the number of lines given. -/
  | still_reading
  deriving DecidableEq

/-- The outcome of a run on a fixed file map as a result. -/
def Result.of : Outcome State → Result
  | .done st => .done st
  | .length_error => .length_error
  | .depth_exceeded => .depth_exceeded

/-- The number of calls of `std::getline` granted to a loop: a stream on an ordinary file
fails after its last line, a stream on the output file is granted `steps` calls. -/
def budget (steps : Nat) : Stream → Nat
  | .closed => 1
  | .lines rest => rest.length + 1
  | .live _ => steps

/-- The `while (std::getline(input, line))` loop of `parse_file` on the stream `input`, with
at most `n` calls of `std::getline`; `parse_include` is the call made for an include that is
not skipped. -/
def parse_loop_os (env : Env) (parse_include : Str → State → Result) (inputPath : Str) :
    Nat → Bool → Stream → State → Result
  | 0, _, _, _ => .still_reading
  | n + 1, isFirstLine, input, st =>
    match getline env st.output input with
    | none => .done st
    | some (raw, next) =>
      let line := if isFirstLine then remove_bom raw else raw
      let res := is_local_include line
      if res.successful then
        if res.result ∉ st.alreadyIncluded then
          match parse_include res.result st with
          | .done st1 => parse_loop_os env parse_include inputPath n false next st1
          | .length_error => .length_error
          | .depth_exceeded => .depth_exceeded
          | .still_reading => .still_reading
        else
          parse_loop_os env parse_include inputPath n false next st
      else if (is_pragma_once line).successful then
        parse_loop_os env parse_include inputPath n false next
          { st with alreadyIncluded := insert inputPath st.alreadyIncluded }
      else
        parse_loop_os env parse_include inputPath n false next
          { st with output := st.output ++ line ++ "\n".toList,
                    events := st.events ++ [.ordinary line] }

/-- The call `parse_file(output, inputPath, input)` with at most `depth` nested calls, while
`free` more descriptors can be opened and a loop on the output file is granted `steps` lines.
An include opens its stream with the descriptors that are free and keeps it open during the
nested call. -/
def parse_file_os (env : Env) (steps : Nat) : Nat → Nat → Str → Stream → State → Result
  | 0, _, _, _, _ => .depth_exceeded
  | depth + 1, free, inputPath, input, st =>
    match generate_header st.output inputPath with
    | none => .length_error
    | some out1 =>
      match parse_loop_os env
          (fun includePath s =>
            parse_file_os env steps depth (free - 1) includePath
              (open_stream env free includePath) s)
          inputPath (budget steps input) true input
          { st with output := out1 ++ "\n".toList,
                    events := st.events ++ [.begin_banner inputPath] } with
      | .done st2 =>
        match generate_header st2.output ("END ".toList ++ inputPath) with
        | none => .length_error
        | some out2 =>
          .done { st2 with output := out2 ++ "\n".toList,
                           events := st2.events ++ [.end_banner inputPath] }
      | .length_error => .length_error
      | .depth_exceeded => .depth_exceeded
      | .still_reading => .still_reading

/-- The call `parse_include(output, includePath)` with at most `depth` nested calls of
`parse_file`, while `free` more descriptors can be opened.  The call of `parse_file` in `main`
has the same shape: `main` opens the stream on the root file itself. -/
def parse_include_os (env : Env) (steps depth free : Nat) (includePath : Str) (st : State) :
    Result :=
  parse_file_os env steps depth (free - 1) includePath (open_stream env free includePath) st

/-- The cases of an induction over the calls of a run on the live file system that returns:
`F` relates the states before and after a call of `parse_file`, `L` those before and after the
rest of a loop. -/
structure StepsOs (env : Env) (steps : Nat)
    (F : Nat → Nat → Str → Stream → State → State → Prop)
    (L : Nat → Nat → Str → Bool → Stream → State → State → Prop) : Prop where
  nil : ∀ d f p b input st, getline env st.output input = none → L d f p b input st st
  inc : ∀ d f p n b input raw next st st1 st2,
    getline env st.output input = some (raw, next) →
    (is_local_include (line_read b raw)).successful = true →
    (is_local_include (line_read b raw)).result ∉ st.alreadyIncluded →
    parse_include_os env steps d f (is_local_include (line_read b raw)).result st = .done st1 →
    F d (f - 1) (is_local_include (line_read b raw)).result
      (open_stream env f (is_local_include (line_read b raw)).result) st st1 →
    parse_loop_os env (parse_include_os env steps d f) p n false next st1 = .done st2 →
    L d f p false next st1 st2 → L d f p b input st st2
  skip : ∀ d f p n b input raw next st st2,
    getline env st.output input = some (raw, next) →
    (is_local_include (line_read b raw)).successful = true →
    (is_local_include (line_read b raw)).result ∈ st.alreadyIncluded →
    parse_loop_os env (parse_include_os env steps d f) p n false next st = .done st2 →
    L d f p false next st st2 → L d f p b input st st2
  once : ∀ d f p n b input raw next st st2,
    getline env st.output input = some (raw, next) →
    (is_local_include (line_read b raw)).successful = false →
    (is_pragma_once (line_read b raw)).successful = true →
    parse_loop_os env (parse_include_os env steps d f) p n false next (st.emplace p)
      = .done st2 →
    L d f p false next (st.emplace p) st2 → L d f p b input st st2
  ord : ∀ d f p n b input raw next st st2,
    getline env st.output input = some (raw, next) →
    (is_local_include (line_read b raw)).successful = false →
    (is_pragma_once (line_read b raw)).successful = false →
    parse_loop_os env (parse_include_os env steps d f) p n false next
      (st.write_line (line_read b raw)) = .done st2 →
    L d f p false next (st.write_line (line_read b raw)) st2 → L d f p b input st st2
  file : ∀ d f p input st out1 st2 out2,
    generate_header st.output p = some out1 →
    parse_loop_os env (parse_include_os env steps d f) p (budget steps input) true input
      (st.write_banner out1 (.begin_banner p)) = .done st2 →
    L d f p true input (st.write_banner out1 (.begin_banner p)) st2 →
    generate_header st2.output ("END ".toList ++ p) = some out2 →
    F (d + 1) f p input st (st2.write_banner out2 (.end_banner p))

/-- The lines go on to a file of `cycle`: one of them is a local include of a file of `cycle`,
and no line before it is a once-directive. -/
def ClosesCycle (cycle : List Str) (lines : List Str) : Prop :=
  ∃ pre inc post q, lines = pre ++ inc :: post ∧ (∀ x ∈ pre, ¬ is_once x) ∧ q ∈ cycle ∧
    is_include_of inc q

/-- The text of the lines `ls`, each ended by a newline. -/
def text_of (ls : List Str) : Str := (ls.map (· ++ "\n".toList)).flatten

/-- A line that the loop writes back as it is and that `std::getline` reads back whole: it
matches neither pattern, holds no newline, has at most 118 bytes and does not start with the
BOM. -/
def GoodLine (l : Str) : Prop :=
  is_ordinary l ∧ '\n' ∉ l ∧ l.length ≤ 118 ∧ ¬ utf8_bom <+: l
/-! ## Example inputs -/

/-- The files of the inlining example: `B` holds the line `body`. -/
def files_ab : Files := fun p => if p = "B".toList then some ["body".toList] else none

/-- The root file `A` of the inlining example. -/
def lines_a : List Str := ["#include \"B\"".toList, "tail".toList]

/-- The state after the inlining example has run. -/
def state_ab : State :=
  { output := banner "A".toList ++ "\n".toList ++ (banner "B".toList ++ "\n".toList ++
      "body\n".toList ++ (banner "END B".toList ++ "\n".toList)) ++ "tail\n".toList ++
      (banner "END A".toList ++ "\n".toList),
    alreadyIncluded := ∅,
    events := [.begin_banner "A".toList, .begin_banner "B".toList, .ordinary "body".toList,
      .end_banner "B".toList, .ordinary "tail".toList, .end_banner "A".toList] }

/-- A state in which `B` is in the set. -/
def state_seen_b : State := { output := [], alreadyIncluded := {"B".toList}, events := [] }

/-- A path of 113 bytes: the label `"END " + path` has 117. -/
def long_path : Str := List.replicate 113 'a'

/-- The files of the re-inclusion example: `A` includes `B` twice, `B` holds the line `body`
and no once-directive. -/
def files_twice : Files := fun p =>
  if p = "A".toList then some ["#include \"B\"".toList, "#include \"B\"".toList]
  else if p = "B".toList then some ["body".toList]
  else none

/-- The state after the re-inclusion example has run. -/
def state_twice : State :=
  { output := banner "A".toList ++ "\n".toList ++
      (banner "B".toList ++ "\n".toList ++ "body\n".toList ++
        (banner "END B".toList ++ "\n".toList)) ++
      (banner "B".toList ++ "\n".toList ++ "body\n".toList ++
        (banner "END B".toList ++ "\n".toList)) ++
      (banner "END A".toList ++ "\n".toList),
    alreadyIncluded := ∅,
    events := [.begin_banner "A".toList,
      .begin_banner "B".toList, .ordinary "body".toList, .end_banner "B".toList,
      .begin_banner "B".toList, .ordinary "body".toList, .end_banner "B".toList,
      .end_banner "A".toList] }

/-- The files of the once example: `A` includes `B` twice, `B` starts with a
once-directive. -/
def files_guard : Files := fun p =>
  if p = "A".toList then some ["#include \"B\"".toList, "#include \"B\"".toList]
  else if p = "B".toList then some ["#pragma once".toList, "body".toList]
  else none

/-- The state after the once example has run. -/
def state_guard : State :=
  { output := banner "A".toList ++ "\n".toList ++
      (banner "B".toList ++ "\n".toList ++ "body\n".toList ++
        (banner "END B".toList ++ "\n".toList)) ++
      (banner "END A".toList ++ "\n".toList),
    alreadyIncluded := {"B".toList},
    events := [.begin_banner "A".toList,
      .begin_banner "B".toList, .ordinary "body".toList, .end_banner "B".toList,
      .end_banner "A".toList] }

/-- The state after the file `B` of the once example has been expanded on its own. -/
def state_guard_b : State :=
  { output := banner "B".toList ++ "\n".toList ++ "body\n".toList ++
      (banner "END B".toList ++ "\n".toList),
    alreadyIncluded := {"B".toList},
    events := [.begin_banner "B".toList, .ordinary "body".toList, .end_banner "B".toList] }

/-- The line `#include "PATH"` for the 113-byte path `long_path`. -/
def long_include : Str := "#include \"".toList ++ long_path ++ "\"".toList

/-- The files of the protected cycle: `F` includes `G`; `G` starts with a once-directive and
includes `F`. -/
def files_loop : Files := fun p =>
  if p = "F".toList then some ["#include \"G\"".toList]
  else if p = "G".toList then some ["#pragma once".toList, "#include \"F\"".toList]
  else none

/-- The state after the expansion of `F` in the protected cycle has returned. -/
def state_loop : State :=
  { output := banner "F".toList ++ "\n".toList ++
      (banner "G".toList ++ "\n".toList ++
        (banner "F".toList ++ "\n".toList ++ (banner "END F".toList ++ "\n".toList)) ++
        (banner "END G".toList ++ "\n".toList)) ++
      (banner "END F".toList ++ "\n".toList),
    alreadyIncluded := {"G".toList},
    events := [.begin_banner "F".toList, .begin_banner "G".toList, .begin_banner "F".toList,
      .end_banner "F".toList, .end_banner "G".toList, .end_banner "F".toList] }

/-- The file `F` that includes itself after an ordinary line. -/
def files_self : Files := fun p =>
  if p = "F".toList then some ["int x;".toList, "#include \"F\"".toList] else none


/-- The name of the file `main` writes. -/
def output_name : Str := "ArgonMaster.hpp".toList

/-- The name of the file `main` reads. -/
def input_name : Str := "Masterfile.hpp".toList

/-- A line of 100 bytes. -/
def wide_line : Str := List.replicate 100 'x'

/-- The line `#include "ArgonMaster.hpp"`. -/
def include_output : Str := "#include \"ArgonMaster.hpp\"".toList

/-- The files of the example that reads its own output: `Masterfile.hpp` holds 100 lines of
100 bytes and then includes `ArgonMaster.hpp`; there is no other file. -/
def files_big : Files := fun p =>
  if p = input_name then some (List.replicate 100 wide_line ++ [include_output]) else none

/-- The files of the cycle with a late once-directive: `F` includes `G`; `G` includes `F` and
has a once-directive after that. -/
def files_late : Files := fun p =>
  if p = "F".toList then some ["#include \"G\"".toList]
  else if p = "G".toList then some ["#include \"F\"".toList, "#pragma once".toList]
  else none

/-- An environment with the files `fs` in which `ArgonMaster.hpp` is the output file and
every byte written has reached the file. -/
def env_plain (fs : Files) : Env :=
  { files := fs, is_output := fun p => decide (p = output_name), visible := fun out => out.length }
/-! ## Facts about the matcher -/

theorem last_or_nil (prev : Option Char) : last_or prev [] = prev := rfl

theorem last_or_cons (prev : Option Char) (c : Char) (ws : Str) :
    last_or prev (c :: ws) = last_or (some c) ws := rfl

/-- A continuation that rejects every input starting with a character of `cls` makes the
greedy repetition deterministic: it stops at the end of the longest run of `cls`. -/
theorem match_star_eq (cls : Char → Bool) (k : Str → Option Char → Str → Option Str)
    (hk : ∀ acc p c t, cls c = true → k acc p (c :: t) = none) :
    ∀ (s acc : Str) (prev : Option Char),
      match_star cls k acc prev s =
        k (acc ++ s.takeWhile cls) (last_or prev (s.takeWhile cls)) (s.dropWhile cls)
  | [], acc, prev => by simp [match_star, last_or_nil]
  | c :: cs, acc, prev => by
    by_cases hc : cls c = true
    · have ih := match_star_eq cls k hk cs (acc ++ [c]) (some c)
      simp only [match_star, hc, if_true, List.takeWhile_cons, List.dropWhile_cons, last_or_cons]
      rw [ih]
      simp only [List.append_assoc, List.singleton_append]
      cases hres : k (acc ++ c :: List.takeWhile cls cs) (last_or (some c) (List.takeWhile cls cs))
          (List.dropWhile cls cs) with
      | some r => rfl
      | none => simp [hk acc prev c cs hc]
    · simp [match_star, hc, last_or_nil]

/-- A run of literal characters matches exactly when it is a prefix of the input. -/
theorem match_nodes_chrs (rest : List Node) :
    ∀ (cs : Str) (cap : Str) (prev : Option Char) (s : Str),
      match_nodes (cs.map Node.chr ++ rest) cap prev s =
        if cs.isPrefixOf s = true then match_nodes rest cap (last_or prev cs) (s.drop cs.length)
        else none
  | [], cap, prev, s => by simp [last_or_nil]
  | c :: cs, cap, prev, [] => by simp [match_nodes]
  | c :: cs, cap, prev, d :: ds => by
    have ih := match_nodes_chrs rest cs cap (some d) ds
    by_cases hd : d = c
    · subst hd
      simp [match_nodes, ih, last_or_cons]
    · have : ¬ c = d := fun h => hd h.symm
      simp [match_nodes, hd, this]

/-- A pattern anchored with `^` matches at no position after the first. -/
theorem regex_search_from_bol (re : List Node) (c : Char) :
    ∀ s : Str, regex_search_from (.bol :: re) (some c) s = none
  | [] => by simp [regex_search_from, match_nodes]
  | d :: ds => by simp [regex_search_from, match_nodes, regex_search_from_bol re d ds]

theorem regex_search_bol (re : List Node) (s : Str) :
    regex_search s (.bol :: re) = match_nodes re [] none s := by
  cases s with
  | nil => simp [regex_search, regex_search_from, match_nodes]
  | cons c cs =>
    simp only [regex_search, regex_search_from, match_nodes, Option.isNone_none, if_true]
    cases match_nodes re [] none (c :: cs) with
    | some r => rfl
    | none => simp [regex_search_from_bol]

theorem rejects_chr (cls : Char → Bool) (c : Char) (rest : List Node) (hc : cls c = false) :
    Rejects cls (.chr c :: rest) := by
  intro cap p d t hd
  have : d ≠ c := by
    intro h
    rw [h, hc] at hd
    exact Bool.noConfusion hd
  simp [match_nodes, this]

theorem rejects_chrs (cls : Char → Bool) (c : Char) (cs : Str) (rest : List Node)
    (hc : cls c = false) : Rejects cls ((c :: cs).map Node.chr ++ rest) :=
  rejects_chr cls c _ hc

theorem match_nodes_star (cls : Char → Bool) (rest : List Node) (h : Rejects cls rest)
    (cap : Str) (prev : Option Char) (s : Str) :
    match_nodes (.star cls :: rest) cap prev s =
      match_nodes rest cap (last_or prev (s.takeWhile cls)) (s.dropWhile cls) := by
  simp only [match_nodes]
  rw [match_star_eq cls _ (fun _ p c t hc => h cap p c t hc)]

theorem match_nodes_group_plus (cls : Char → Bool) (rest : List Node)
    (h : Rejects cls rest)
    (cap : Str) (prev : Option Char) (s : Str) :
    match_nodes (.group_plus cls :: rest) cap prev s =
      if s.takeWhile cls = [] then none
      else match_nodes rest (s.takeWhile cls) (last_or prev (s.takeWhile cls)) (s.dropWhile cls) := by
  cases s with
  | nil => simp [match_nodes]
  | cons d ds =>
    by_cases hd : cls d = true
    · simp only [match_nodes, hd, if_true, List.takeWhile_cons, List.dropWhile_cons]
      rw [match_star_eq cls _ (fun acc p c t hc => h acc p c t hc)]
      simp [last_or_cons]
    · simp [match_nodes, hd]

/-- The node `cls*` followed by literal text whose first character is outside `cls`. -/
theorem match_nodes_star_chrs (cls : Char → Bool) (c : Char) (cs : Str) (rest : List Node)
    (hc : cls c = false) (cap : Str) (prev : Option Char) (s : Str) :
    match_nodes (.star cls :: ((c :: cs).map Node.chr ++ rest)) cap prev s =
      (after (c :: cs) (s.dropWhile cls)).bind fun r =>
        match_nodes rest cap (last_or (some c) cs) r := by
  rw [match_nodes_star cls _ (rejects_chrs cls c cs rest hc), match_nodes_chrs]
  unfold after
  split <;> simp [last_or_cons]

/-- The node `(cls+)` followed by literal text whose first character is outside `cls`. -/
theorem match_nodes_group_chrs (cls : Char → Bool) (c : Char) (cs : Str) (rest : List Node)
    (hc : cls c = false) (cap : Str) (prev : Option Char) (s : Str) :
    match_nodes (.group_plus cls :: ((c :: cs).map Node.chr ++ rest)) cap prev s =
      if s.takeWhile cls = [] then none
      else (after (c :: cs) (s.dropWhile cls)).bind fun r =>
        match_nodes rest (s.takeWhile cls) (last_or (some c) cs) r := by
  rw [match_nodes_group_plus cls _ (rejects_chrs cls c cs rest hc), match_nodes_chrs]
  unfold after
  split
  · rfl
  · split <;> simp [last_or_cons]

/-- The include pattern in closed form. -/
theorem regex_search_localInclude (line : Str) :
    regex_search line localIncludeRegex =
      (after ['#'] (skip_space line)).bind fun r1 =>
      (after ['i', 'n', 'c', 'l', 'u', 'd', 'e'] (skip_space r1)).bind fun r2 =>
      (after ['"'] (skip_space r2)).bind fun r3 =>
        if r3.takeWhile not_quote_gt = [] then none
        else (after ['"'] (r3.dropWhile not_quote_gt)).bind fun _ =>
          some (r3.takeWhile not_quote_gt) := by
  have e : localIncludeRegex =
      .bol :: .star is_space :: (['#'].map Node.chr ++ (.star is_space ::
        (['i', 'n', 'c', 'l', 'u', 'd', 'e'].map Node.chr ++ (.star is_space ::
          (['"'].map Node.chr ++
          (.group_plus not_quote_gt :: (['"'].map Node.chr ++ []))))))) := rfl
  rw [e, regex_search_bol]
  simp only [match_nodes_star_chrs is_space _ _ _ (by decide : is_space '#' = false),
    match_nodes_star_chrs is_space _ _ _ (by decide : is_space 'i' = false),
    match_nodes_star_chrs is_space _ _ _ (by decide : is_space '"' = false),
    match_nodes_group_chrs not_quote_gt _ _ _ (by decide : not_quote_gt '"' = false),
    skip_space]
  simp only [match_nodes]

/-- The once pattern in closed form. -/
theorem regex_search_pragmaOnce (line : Str) :
    regex_search line pragmaOnceRegex =
      (after ['#'] (skip_space line)).bind fun r1 =>
      (after ['p', 'r', 'a', 'g', 'm', 'a'] (skip_space r1)).bind fun r2 =>
      (after ['o', 'n', 'c', 'e'] (skip_space r2)).bind fun r3 =>
        if is_word_at r3.head? = false then some [] else none := by
  have e : pragmaOnceRegex =
      .bol :: .star is_space :: (['#'].map Node.chr ++ (.star is_space ::
        (['p', 'r', 'a', 'g', 'm', 'a'].map Node.chr ++ (.star is_space ::
          (['o', 'n', 'c', 'e'].map Node.chr ++ [.word_boundary]))))) := rfl
  rw [e, regex_search_bol]
  simp only [match_nodes_star_chrs is_space _ _ _ (by decide : is_space '#' = false),
    match_nodes_star_chrs is_space _ _ _ (by decide : is_space 'p' = false),
    match_nodes_star_chrs is_space _ _ _ (by decide : is_space 'o' = false),
    skip_space, last_or]
  have hw : is_word_at (some 'e') = true := by decide
  simp [match_nodes, hw]

theorem after_eq_some (cs s r : Str) : after cs s = some r ↔ s = cs ++ r := by
  unfold after
  constructor
  · intro h
    split at h
    · next hp =>
      have hp' := List.isPrefixOf_iff_prefix.mp hp
      obtain ⟨t, ht⟩ := hp'
      subst ht
      simp at h
      rw [h]
    · exact Option.noConfusion h
  · intro h
    subst h
    have : cs.isPrefixOf (cs ++ r) = true := List.isPrefixOf_iff_prefix.mpr (List.prefix_append cs r)
    simp [this]

theorem run_then (p : Char → Bool) (c : Char) (r : Str) (hc : p c = false) :
    ∀ ws : Str, (∀ x ∈ ws, p x = true) →
      (ws ++ c :: r).dropWhile p = c :: r ∧ (ws ++ c :: r).takeWhile p = ws
  | [], _ => by simp [List.dropWhile, List.takeWhile, hc]
  | w :: ws, h => by
    have hw : p w = true := h w (List.mem_cons_self _ _)
    have ih := run_then p c r hc ws (fun x hx => h x (List.mem_cons_of_mem _ hx))
    simp [List.dropWhile, List.takeWhile, hw, ih.1, ih.2]

theorem takeWhile_all (p : Char → Bool) : ∀ s : Str, ∀ x ∈ s.takeWhile p, p x = true
  | [], x, hx => by simp at hx
  | c :: cs, x, hx => by
    by_cases hc : p c = true
    · simp only [List.takeWhile, hc, List.mem_cons] at hx
      rcases hx with rfl | hx
      · exact hc
      · exact takeWhile_all p cs x hx
    · simp [List.takeWhile, hc] at hx

theorem split_run (p : Char → Bool) (s : Str) : s = s.takeWhile p ++ s.dropWhile p :=
  (List.takeWhile_append_dropWhile p s).symm

theorem skip_space_eq (line c r) (h : skip_space line = c :: r) :
    ∃ ws, all_space ws ∧ line = ws ++ c :: r :=
  ⟨line.takeWhile is_space, takeWhile_all is_space line, by
    have := split_run is_space line
    rw [skip_space] at h
    rw [h] at this
    exact this⟩

theorem regex_search_localInclude_iff (line path : Str) :
    regex_search line localIncludeRegex = some path ↔
      path ≠ [] ∧ (∀ c ∈ path, c ≠ '"' ∧ c ≠ '>') ∧ IncludeShape line path := by
  rw [regex_search_localInclude]
  constructor
  · intro h
    simp only [Option.bind_eq_some] at h
    obtain ⟨r1, h1, r2, h2, r3, h3, h4⟩ := h
    rw [after_eq_some] at h1 h2 h3
    split at h4
    · exact Option.noConfusion h4
    · next hne =>
      simp only [Option.bind_eq_some] at h4
      obtain ⟨r4, h5, h6⟩ := h4
      rw [after_eq_some] at h5
      have h6' : List.takeWhile not_quote_gt r3 = path := by simpa using h6
      obtain ⟨ws1, a1, e1⟩ := skip_space_eq line '#' r1 h1
      obtain ⟨ws2, a2, e2⟩ := skip_space_eq r1 'i' _ h2
      obtain ⟨ws3, a3, e3⟩ := skip_space_eq r2 '"' r3 h3
      have e4 := split_run not_quote_gt r3
      rw [h5, h6'] at e4
      refine ⟨h6' ▸ hne, ?_, ws1, ws2, ws3, r4, a1, a2, a3, ?_⟩
      · intro c hc
        have := takeWhile_all not_quote_gt r3 c (h6' ▸ hc)
        simp only [not_quote_gt, Bool.not_eq_true', Bool.or_eq_false_iff,
          decide_eq_false_iff_not] at this
        exact this
      · rw [e1, e2, e3, e4]
        rfl
  · rintro ⟨hne, hcs, ws1, ws2, ws3, rest, a1, a2, a3, e⟩
    subst e
    have hq : ∀ x ∈ path, not_quote_gt x = true := by
      intro x hx
      have := hcs x hx
      simp [not_quote_gt, this.1, this.2]
    have s1 := run_then is_space '#' (ws2 ++ ("include".toList ++ (ws3 ++ '"' :: (path ++ '"' :: rest))))
      (by decide) ws1 a1
    have s2 := run_then is_space 'i' ("nclude".toList ++ (ws3 ++ '"' :: (path ++ '"' :: rest)))
      (by decide) ws2 a2
    have s3 := run_then is_space '"' (path ++ '"' :: rest) (by decide) ws3 a3
    have s4 := run_then not_quote_gt '"' rest (by decide) path hq
    have i1 : "include".toList ++ (ws3 ++ '"' :: (path ++ '"' :: rest)) =
        'i' :: ("nclude".toList ++ (ws3 ++ '"' :: (path ++ '"' :: rest))) := rfl
    have a1' : after ['#'] ('#' :: (ws2 ++ ("include".toList ++ (ws3 ++ '"' :: (path ++ '"' :: rest)))))
        = some (ws2 ++ ("include".toList ++ (ws3 ++ '"' :: (path ++ '"' :: rest)))) :=
      (after_eq_some _ _ _).mpr rfl
    have a2' : after ['i', 'n', 'c', 'l', 'u', 'd', 'e']
        ('i' :: ("nclude".toList ++ (ws3 ++ '"' :: (path ++ '"' :: rest))))
        = some (ws3 ++ '"' :: (path ++ '"' :: rest)) :=
      (after_eq_some _ _ _).mpr rfl
    have a3' : after ['"'] ('"' :: (path ++ '"' :: rest)) = some (path ++ '"' :: rest) :=
      (after_eq_some _ _ _).mpr rfl
    have a4' : after ['"'] ('"' :: rest) = some rest := (after_eq_some _ _ _).mpr rfl
    simp only [skip_space]
    rw [s1.1, a1', Option.some_bind, i1, s2.1, a2', Option.some_bind, s3.1, a3', Option.some_bind,
      s4.1, s4.2, a4', if_neg hne, Option.some_bind]

theorem regex_search_pragmaOnce_iff (line : Str) :
    (regex_search line pragmaOnceRegex).isSome = true ↔ OnceShape line := by
  rw [regex_search_pragmaOnce]
  constructor
  · intro h
    rw [Option.isSome_iff_exists] at h
    obtain ⟨m, h⟩ := h
    simp only [Option.bind_eq_some] at h
    obtain ⟨r1, h1, r2, h2, r3, h3, h4⟩ := h
    rw [after_eq_some] at h1 h2 h3
    obtain ⟨ws1, a1, e1⟩ := skip_space_eq line '#' r1 h1
    obtain ⟨ws2, a2, e2⟩ := skip_space_eq r1 'p' _ h2
    obtain ⟨ws3, a3, e3⟩ := skip_space_eq r2 'o' _ h3
    refine ⟨ws1, ws2, ws3, r3, a1, a2, a3, ?_, ?_⟩
    · cases r3 with
      | nil => exact Or.inl rfl
      | cons c t =>
        right
        refine ⟨c, t, rfl, ?_⟩
        by_cases hw : is_word c = true
        · simp [is_word_at, hw] at h4
        · simpa using hw
    · rw [e1, e2, e3]
      rfl
  · rintro ⟨ws1, ws2, ws3, rest, a1, a2, a3, hrest, e⟩
    subst e
    have s1 := run_then is_space '#' (ws2 ++ ("pragma".toList ++ (ws3 ++ ("once".toList ++ rest))))
      (by decide) ws1 a1
    have s2 := run_then is_space 'p' ("ragma".toList ++ (ws3 ++ ("once".toList ++ rest)))
      (by decide) ws2 a2
    have s3 := run_then is_space 'o' ("nce".toList ++ rest) (by decide) ws3 a3
    have i1 : "pragma".toList ++ (ws3 ++ ("once".toList ++ rest)) =
        'p' :: ("ragma".toList ++ (ws3 ++ ("once".toList ++ rest))) := rfl
    have i2 : "once".toList ++ rest = 'o' :: ("nce".toList ++ rest) := rfl
    have a1' : after ['#'] ('#' :: (ws2 ++ ("pragma".toList ++ (ws3 ++ ("once".toList ++ rest)))))
        = some (ws2 ++ ("pragma".toList ++ (ws3 ++ ("once".toList ++ rest)))) :=
      (after_eq_some _ _ _).mpr rfl
    have a2' : after ['p', 'r', 'a', 'g', 'm', 'a']
        ('p' :: ("ragma".toList ++ (ws3 ++ ("once".toList ++ rest))))
        = some (ws3 ++ ("once".toList ++ rest)) :=
      (after_eq_some _ _ _).mpr rfl
    have a3' : after ['o', 'n', 'c', 'e'] ('o' :: ("nce".toList ++ rest)) = some rest :=
      (after_eq_some _ _ _).mpr rfl
    have hw : is_word_at rest.head? = false := by
      rcases hrest with rfl | ⟨c, t, rfl, hc⟩
      · rfl
      · simpa [is_word_at] using hc
    simp only [skip_space]
    rw [s1.1, a1', Option.some_bind, i1, s2.1, a2', Option.some_bind, i2, s3.1, a3',
      Option.some_bind, hw]
    rfl

theorem left_padding_fits (n : Nat) (h : n ≤ 116) : left_padding n = ((116 - n) / 2 : Nat) := by
  simp only [left_padding, to_int32, to_u64, content_width, total_width, comment_prefix_width]
  norm_num
  split <;> omega

theorem right_padding_fits (n : Nat) (h : n ≤ 116) :
    right_padding n = ((116 - n - (116 - n) / 2 : Nat) : Int) := by
  rw [right_padding, left_padding_fits n h]
  simp only [to_int32, to_u64, content_width, total_width, comment_prefix_width]
  norm_num
  split <;> omega

theorem string_fill_nat (n : Nat) (c : Char) : string_fill (n : Int) c = some (List.replicate n c) := by
  simp [string_fill]

theorem content_width_eq : content_width = ((116 : Nat) : Int) := by decide

theorem header_text_fits (str : Str) (h : str.length ≤ 116) :
    header_text str = some (banner str) := by
  unfold header_text
  rw [left_padding_fits _ h, right_padding_fits _ h, content_width_eq]
  simp only [string_fill_nat]
  rfl

theorem padding_below (n : Nat) (h : n < 2 ^ 31) :
    left_padding n = Int.fdiv (116 - (n : Int)) 2 ∧
    right_padding n = 116 - (n : Int) - left_padding n := by
  have h' : (n : Int) < 2147483648 := by
    have : n < 2147483648 := by simpa using h
    exact_mod_cast this
  have hl : left_padding n = (116 - (n : Int)) / 2 := by
    simp only [left_padding, to_int32, to_u64, content_width, total_width, comment_prefix_width]
    norm_num
    split <;> omega
  refine ⟨?_, ?_⟩
  · rw [hl, Int.fdiv_eq_ediv _ (by decide)]
  · rw [right_padding, hl]
    simp only [to_int32, to_u64, content_width, total_width, comment_prefix_width]
    norm_num
    split <;> omega


/-! ## Unfolding the resolver -/

theorem parse_loop_nil (pi : Str → State → Outcome State) (p : Str) (b : Bool) (st : State) :
    parse_loop pi p b [] st = .done st := by
  cases b <;> rfl

theorem parse_loop_cons (pi : Str → State → Outcome State) (p : Str) (b : Bool) (raw : Str)
    (rest : List Str) (st : State) :
    parse_loop pi p b (raw :: rest) st =
      if (is_local_include (line_read b raw)).successful = true then
        if (is_local_include (line_read b raw)).result ∉ st.alreadyIncluded then
          match pi (is_local_include (line_read b raw)).result st with
          | .done st1 => parse_loop pi p false rest st1
          | .length_error => .length_error
          | .depth_exceeded => .depth_exceeded
        else parse_loop pi p false rest st
      else if (is_pragma_once (line_read b raw)).successful = true then
        parse_loop pi p false rest (st.emplace p)
      else parse_loop pi p false rest (st.write_line (line_read b raw)) := by
  cases b <;> rfl

theorem parse_file_zero (fs : Files) (p : Str) (input : List Str) (st : State) :
    parse_file fs 0 p input st = .depth_exceeded := rfl

theorem parse_file_succ (fs : Files) (d : Nat) (p : Str) (input : List Str) (st : State) :
    parse_file fs (d + 1) p input st =
      match generate_header st.output p with
      | none => .length_error
      | some out1 =>
        match parse_loop (parse_include fs d) p true input
            (st.write_banner out1 (.begin_banner p)) with
        | .done st2 =>
          match generate_header st2.output ("END ".toList ++ p) with
          | none => .length_error
          | some out2 => .done (st2.write_banner out2 (.end_banner p))
        | .length_error => .length_error
        | .depth_exceeded => .depth_exceeded := rfl

/-- Induction over the calls of a run that returns: `F` is shown for every call of
`parse_file`, `L` for every tail of every loop. -/
theorem parse_induct (fs : Files)
    {F : Nat → Str → List Str → State → State → Prop}
    {L : Nat → Str → Bool → List Str → State → State → Prop}
    (S : Steps fs F L) :
    (∀ d p input st st', parse_file fs d p input st = .done st' → F d p input st st') ∧
    (∀ d p b lines st st',
      parse_loop (parse_include fs d) p b lines st = .done st' → L d p b lines st st') := by
  have loop : ∀ d, (∀ p input st st', parse_file fs d p input st = .done st' → F d p input st st') →
      ∀ (lines : List Str) (p : Str) (b : Bool) (st st' : State),
        parse_loop (parse_include fs d) p b lines st = .done st' → L d p b lines st st' := by
    intro d ih lines
    induction lines with
    | nil =>
      intro p b st st' h
      rw [parse_loop_nil] at h
      cases h
      exact S.nil d p b st
    | cons raw rest ihl =>
      intro p b st st' h
      have h0 := h
      rw [parse_loop_cons] at h
      by_cases hi : (is_local_include (line_read b raw)).successful = true
      · rw [if_pos hi] at h
        by_cases hm : (is_local_include (line_read b raw)).result ∈ st.alreadyIncluded
        · rw [if_neg (not_not.mpr hm)] at h
          exact S.skip d p b raw rest st st' hi hm h (ihl p false st st' h)
        · rw [if_pos hm] at h
          cases hc : parse_include fs d (is_local_include (line_read b raw)).result st with
          | done st1 =>
            rw [hc] at h
            exact S.inc d p b raw rest st st1 st' hi hm hc (ih _ _ _ _ hc) h
              (ihl p false st1 st' h)
          | length_error => rw [hc] at h; exact Outcome.noConfusion h
          | depth_exceeded => rw [hc] at h; exact Outcome.noConfusion h
      · rw [if_neg hi] at h
        have hi' : (is_local_include (line_read b raw)).successful = false := by
          simpa using hi
        by_cases ho : (is_pragma_once (line_read b raw)).successful = true
        · rw [if_pos ho] at h
          exact S.once d p b raw rest st st' hi' ho h (ihl p false _ st' h)
        · rw [if_neg ho] at h
          have ho' : (is_pragma_once (line_read b raw)).successful = false := by
            simpa using ho
          exact S.ord d p b raw rest st st' hi' ho' h (ihl p false _ st' h)
  have file : ∀ d p input st st', parse_file fs d p input st = .done st' → F d p input st st' := by
    intro d
    induction d with
    | zero =>
      intro p input st st' h
      rw [parse_file_zero] at h
      exact Outcome.noConfusion h
    | succ d ih =>
      intro p input st st' h
      rw [parse_file_succ] at h
      cases hg : generate_header st.output p with
      | none => rw [hg] at h; exact Outcome.noConfusion h
      | some out1 =>
        rw [hg] at h
        simp only at h
        cases hl : parse_loop (parse_include fs d) p true input
            (st.write_banner out1 (.begin_banner p)) with
        | done st2 =>
          rw [hl] at h
          simp only at h
          cases hg2 : generate_header st2.output ("END ".toList ++ p) with
          | none => rw [hg2] at h; exact Outcome.noConfusion h
          | some out2 =>
            rw [hg2] at h
            simp only at h
            cases h
            exact S.file d p input st out1 st2 out2 hg hl (loop d ih input p true _ _ hl) hg2
        | length_error => rw [hl] at h; exact Outcome.noConfusion h
        | depth_exceeded => rw [hl] at h; exact Outcome.noConfusion h
  exact ⟨file, fun d p b lines st st' h => loop d (file d) lines p b st st' h⟩

theorem generate_header_eq (output str : Str) :
    generate_header output str = (header_text str).map (output ++ ·) := by
  unfold generate_header
  cases header_text str <;> rfl

theorem is_local_include_successful (line : Str) :
    (is_local_include line).successful = (regex_search line localIncludeRegex).isSome := by
  unfold is_local_include
  cases regex_search line localIncludeRegex <;> rfl

theorem is_local_include_eq_some (line path : Str)
    (h : regex_search line localIncludeRegex = some path) :
    is_local_include line = { successful := true, result := path } := by
  unfold is_local_include
  rw [h]

theorem is_local_include_eq_none (line : Str)
    (h : regex_search line localIncludeRegex = none) :
    is_local_include line = { successful := false, result := [] } := by
  unfold is_local_include
  rw [h]

theorem is_include_of_iff (line target : Str) :
    is_include_of line target ↔ regex_search line localIncludeRegex = some target := by
  unfold is_include_of is_local_include
  cases regex_search line localIncludeRegex <;> simp

/-- No line matches both patterns. -/
theorem once_not_include (line : Str) (h : (is_pragma_once line).successful = true) :
    (is_local_include line).successful = false := by
  rw [is_local_include_successful]
  have h' : (regex_search line pragmaOnceRegex).isSome = true := h
  rw [regex_search_pragmaOnce] at h'
  rw [regex_search_localInclude]
  cases h1 : after ['#'] (skip_space line) with
  | none => rfl
  | some r1 =>
    rw [h1] at h'
    simp only [Option.some_bind] at h' ⊢
    cases h2 : after ['p', 'r', 'a', 'g', 'm', 'a'] (skip_space r1) with
    | none => rw [h2] at h'; exact Bool.noConfusion h'
    | some r2 =>
      rw [after_eq_some] at h2
      cases h3 : after ['i', 'n', 'c', 'l', 'u', 'd', 'e'] (skip_space r1) with
      | none => rfl
      | some r3 =>
        rw [after_eq_some] at h3
        rw [h2] at h3
        simp at h3

theorem lines_from_cons (b : Bool) (raw : Str) (rest : List Str) :
    lines_from b (raw :: rest) = line_read b raw :: rest := rfl

theorem lines_from_false (lines : List Str) : lines_from false lines = lines := by
  cases lines <;> rfl

/-- The set only grows during a call that returns. -/
theorem mono_steps (fs : Files) :
    Steps fs (fun _ _ _ st st' => st.alreadyIncluded ⊆ st'.alreadyIncluded)
      (fun _ _ _ _ st st' => st.alreadyIncluded ⊆ st'.alreadyIncluded) where
  nil := fun _ _ _ _ => Finset.Subset.refl _
  inc := fun _ _ _ _ _ _ _ _ _ _ _ h1 _ h2 => Finset.Subset.trans h1 h2
  skip := fun _ _ _ _ _ _ _ _ _ _ h2 => h2
  once := fun _ _ _ _ _ _ _ _ _ _ h2 => Finset.Subset.trans (Finset.subset_insert _ _) h2
  ord := fun _ _ _ _ _ _ _ _ _ _ h2 => h2
  file := fun _ _ _ _ _ _ _ _ _ h2 _ => h2

theorem parse_file_mono (fs : Files) (d : Nat) (p : Str) (input : List Str) (st st' : State)
    (h : parse_file fs d p input st = .done st') :
    st.alreadyIncluded ⊆ st'.alreadyIncluded :=
  (parse_induct fs (mono_steps fs)).1 d p input st st' h

theorem parse_loop_mono (fs : Files) (d : Nat) (p : Str) (b : Bool) (lines : List Str)
    (st st' : State) (h : parse_loop (parse_include fs d) p b lines st = .done st') :
    st.alreadyIncluded ⊆ st'.alreadyIncluded :=
  (parse_induct fs (mono_steps fs)).2 d p b lines st st' h


/-! ## What is already in the output has no influence -/

theorem shift_emplace (o : Str) (e : List Event) (st : State) (p : Str) :
    (st.shift o e).emplace p = (st.emplace p).shift o e := rfl

theorem shift_write_line (o : Str) (e : List Event) (st : State) (l : Str) :
    (st.shift o e).write_line l = (st.write_line l).shift o e := by
  simp [State.shift, State.write_line, List.append_assoc]

theorem shift_write_banner (o : Str) (e : List Event) (st : State) (out : Str) (ev : Event) :
    (st.shift o e).write_banner (o ++ out) ev = (st.write_banner out ev).shift o e := by
  simp [State.shift, State.write_banner, List.append_assoc]

theorem generate_header_shift (o out str : Str) :
    generate_header (o ++ out) str = (generate_header out str).map (o ++ ·) := by
  rw [generate_header_eq, generate_header_eq]
  cases header_text str <;> simp [List.append_assoc]

theorem parse_loop_shift (pi : Str → State → Outcome State) (o : Str) (e : List Event)
    (hpi : ∀ t st, pi t (st.shift o e) = (pi t st).map (State.shift o e)) (p : Str) :
    ∀ (lines : List Str) (b : Bool) (st : State),
      parse_loop pi p b lines (st.shift o e) = (parse_loop pi p b lines st).map (State.shift o e)
  | [], b, st => by simp [parse_loop_nil, Outcome.map]
  | raw :: rest, b, st => by
    rw [parse_loop_cons, parse_loop_cons]
    have hs : (st.shift o e).alreadyIncluded = st.alreadyIncluded := rfl
    rw [hs, hpi, shift_emplace, shift_write_line]
    split
    · split
      · cases pi (is_local_include (line_read b raw)).result st with
        | done st1 => exact parse_loop_shift pi o e hpi p rest false st1
        | length_error => rfl
        | depth_exceeded => rfl
      · exact parse_loop_shift pi o e hpi p rest false st
    · split
      · exact parse_loop_shift pi o e hpi p rest false _
      · exact parse_loop_shift pi o e hpi p rest false _

theorem parse_file_shift (fs : Files) (o : Str) (e : List Event) :
    ∀ (d : Nat) (p : Str) (input : List Str) (st : State),
      parse_file fs d p input (st.shift o e) =
        (parse_file fs d p input st).map (State.shift o e)
  | 0, p, input, st => rfl
  | d + 1, p, input, st => by
    have ih : ∀ t st, parse_include fs d t (st.shift o e) =
        (parse_include fs d t st).map (State.shift o e) :=
      fun t st => parse_file_shift fs o e d t (open_lines fs t) st
    rw [parse_file_succ, parse_file_succ]
    have hs : (st.shift o e).output = o ++ st.output := rfl
    rw [hs, generate_header_shift]
    cases hg : generate_header st.output p with
    | none => rfl
    | some out1 =>
      simp only [Option.map_some']
      rw [shift_write_banner, parse_loop_shift (parse_include fs d) o e ih]
      cases hl : parse_loop (parse_include fs d) p true input
          (st.write_banner out1 (.begin_banner p)) with
      | done st2 =>
        simp only [Outcome.map]
        have hs2 : (st2.shift o e).output = o ++ st2.output := rfl
        rw [hs2, generate_header_shift]
        cases hg2 : generate_header st2.output ("END ".toList ++ p) with
        | none => rfl
        | some out2 =>
          simp only [Option.map_some']
          rw [shift_write_banner]
      | length_error => rfl
      | depth_exceeded => rfl


/-! ## The text of an expansion -/

theorem shift_fresh (st : State) : (State.fresh st.alreadyIncluded).shift st.output st.events = st := by
  cases st
  simp [State.shift, State.fresh]

theorem outcome_map_done {α β : Type} (f : α → β) (o : Outcome α) (b : β)
    (h : o.map f = .done b) : ∃ a, o = .done a ∧ b = f a := by
  cases o with
  | done a =>
    simp only [Outcome.map, Outcome.done.injEq] at h
    exact ⟨a, rfl, h.symm⟩
  | length_error => exact Outcome.noConfusion h
  | depth_exceeded => exact Outcome.noConfusion h

/-- A call that returns writes what it writes when started on an empty output. -/
theorem parse_file_unshift (fs : Files) (d : Nat) (p : Str) (input : List Str) (st st' : State)
    (h : parse_file fs d p input st = .done st') :
    ∃ r, parse_file fs d p input (State.fresh st.alreadyIncluded) = .done r ∧
      st' = r.shift st.output st.events := by
  have h' := h
  rw [← shift_fresh st, parse_file_shift] at h'
  exact outcome_map_done _ _ _ h'

theorem contributions_steps (fs : Files) :
    Steps fs
      (fun _ p input st st' => ∃ b e body, header_text p = some b ∧
        header_text ("END ".toList ++ p) = some e ∧
        st'.output = st.output ++ (b ++ "\n".toList ++ body ++ (e ++ "\n".toList)) ∧
        Contributions fs p (lines_read input) st.alreadyIncluded body st'.alreadyIncluded)
      (fun _ p b lines st st' => ∃ body, st'.output = st.output ++ body ∧
        Contributions fs p (lines_from b lines) st.alreadyIncluded body st'.alreadyIncluded) where
  nil := fun _ _ b st => ⟨[], by simp, by cases b <;> exact Contributions.nil _⟩
  inc := by
    intro d p b raw rest st st1 st2 hi hm hc _ _ ⟨body, ho, hb⟩
    rw [lines_from_false] at hb
    obtain ⟨r, hr, e⟩ := parse_file_unshift fs d _ _ st st1 hc
    subst e
    refine ⟨r.output ++ body, ?_, ?_⟩
    · rw [ho]
      simp [State.shift, List.append_assoc]
    · rw [lines_from_cons]
      exact Contributions.expanded _ _ _ _ _ _ _ _ ⟨hi, rfl⟩ hm ⟨d, r, hr, rfl, rfl⟩ hb
  skip := by
    intro d p b raw rest st st2 hi hm _ ⟨body, ho, hb⟩
    rw [lines_from_false] at hb
    refine ⟨body, ho, ?_⟩
    rw [lines_from_cons]
    exact Contributions.skipped _ _ _ _ _ _ ⟨hi, rfl⟩ hm hb
  once := by
    intro d p b raw rest st st2 _ hp _ ⟨body, ho, hb⟩
    rw [lines_from_false] at hb
    refine ⟨body, ho, ?_⟩
    rw [lines_from_cons]
    exact Contributions.once _ _ _ _ _ hp hb
  ord := by
    intro d p b raw rest st st2 hi hp _ ⟨body, ho, hb⟩
    rw [lines_from_false] at hb
    refine ⟨line_read b raw ++ "\n".toList ++ body, ?_, ?_⟩
    · rw [ho]
      simp [State.write_line, List.append_assoc]
    · rw [lines_from_cons]
      exact Contributions.ordinary _ _ _ _ _ hi hp hb
  file := by
    intro d p input st out1 st2 out2 hg _ ⟨body, ho, hb⟩ hg2
    rw [generate_header_eq] at hg hg2
    cases hb1 : header_text p with
    | none => rw [hb1] at hg; exact Option.noConfusion hg
    | some b1 =>
      cases hb2 : header_text ("END ".toList ++ p) with
      | none => rw [hb2] at hg2; exact Option.noConfusion hg2
      | some b2 =>
        rw [hb1] at hg
        rw [hb2] at hg2
        simp only [Option.map_some', Option.some.injEq] at hg hg2
        refine ⟨b1, b2, body, rfl, rfl, ?_, hb⟩
        simp only [State.write_banner] at ho ⊢
        rw [← hg2, ho, ← hg]
        simp [List.append_assoc]


/-! ## Single steps of the loop -/

theorem parse_loop_skip (pi : Str → State → Outcome State) (p : Str) (b : Bool) (raw : Str)
    (rest : List Str) (st : State)
    (hi : (is_local_include (line_read b raw)).successful = true)
    (hm : (is_local_include (line_read b raw)).result ∈ st.alreadyIncluded) :
    parse_loop pi p b (raw :: rest) st = parse_loop pi p false rest st := by
  rw [parse_loop_cons, if_pos hi, if_neg (not_not.mpr hm)]

theorem parse_loop_once (pi : Str → State → Outcome State) (p : Str) (b : Bool) (raw : Str)
    (rest : List Str) (st : State)
    (ho : (is_pragma_once (line_read b raw)).successful = true) :
    parse_loop pi p b (raw :: rest) st = parse_loop pi p false rest (st.emplace p) := by
  have hi := once_not_include _ ho
  rw [parse_loop_cons, if_neg (by simp [hi]), if_pos ho]

theorem parse_loop_ordinary (pi : Str → State → Outcome State) (p : Str) (b : Bool) (raw : Str)
    (rest : List Str) (st : State)
    (hi : (is_local_include (line_read b raw)).successful = false)
    (ho : (is_pragma_once (line_read b raw)).successful = false) :
    parse_loop pi p b (raw :: rest) st =
      parse_loop pi p false rest (st.write_line (line_read b raw)) := by
  rw [parse_loop_cons, if_neg (by simp [hi]), if_neg (by simp [ho])]

theorem parse_loop_include (pi : Str → State → Outcome State) (p : Str) (b : Bool) (raw : Str)
    (rest : List Str) (st : State)
    (hi : (is_local_include (line_read b raw)).successful = true)
    (hm : (is_local_include (line_read b raw)).result ∉ st.alreadyIncluded) :
    parse_loop pi p b (raw :: rest) st =
      match pi (is_local_include (line_read b raw)).result st with
      | .done st1 => parse_loop pi p false rest st1
      | .length_error => .length_error
      | .depth_exceeded => .depth_exceeded := by
  rw [parse_loop_cons, if_pos hi, if_pos hm]

/-- A file with a once-directive line is in the set when its expansion returns. -/
theorem once_steps (fs : Files) :
    Steps fs
      (fun _ p input _ st' => (∃ l ∈ lines_read input, is_once l) → p ∈ st'.alreadyIncluded)
      (fun _ p b lines _ st' => (∃ l ∈ lines_from b lines, is_once l) → p ∈ st'.alreadyIncluded) where
  nil := by
    intro d p b st ⟨l, hl, _⟩
    cases b <;> simp [lines_from] at hl
  inc := by
    intro d p b raw rest st st1 st2 hi _ _ _ _ ih ⟨l, hl, ho⟩
    rw [lines_from_cons, List.mem_cons] at hl
    rcases hl with rfl | hl
    · have := once_not_include _ ho
      rw [hi] at this
      exact Bool.noConfusion this
    · exact ih ⟨l, by rw [lines_from_false]; exact hl, ho⟩
  skip := by
    intro d p b raw rest st st2 hi _ _ ih ⟨l, hl, ho⟩
    rw [lines_from_cons, List.mem_cons] at hl
    rcases hl with rfl | hl
    · have := once_not_include _ ho
      rw [hi] at this
      exact Bool.noConfusion this
    · exact ih ⟨l, by rw [lines_from_false]; exact hl, ho⟩
  once := by
    intro d p b raw rest st st2 _ _ hl _ _
    exact parse_loop_mono fs d p false rest _ _ hl (Finset.mem_insert_self _ _)
  ord := by
    intro d p b raw rest st st2 _ hp _ ih ⟨l, hl, ho⟩
    rw [lines_from_cons, List.mem_cons] at hl
    rcases hl with rfl | hl
    · have ho' : (is_pragma_once (line_read b raw)).successful = true := ho
      rw [hp] at ho'
      exact Bool.noConfusion ho'
    · exact ih ⟨l, by rw [lines_from_false]; exact hl, ho⟩
  file := fun _ _ _ _ _ _ _ _ _ h _ => h

/-- A loop over ordinary lines writes them one after the other and returns. -/
theorem parse_loop_all_ordinary (pi : Str → State → Outcome State) (p : Str) :
    ∀ (lines : List Str) (st : State),
      (∀ l ∈ lines, (is_local_include l).successful = false ∧
        (is_pragma_once l).successful = false) →
      parse_loop pi p false lines st = .done
        { output := st.output ++ (lines.map (· ++ "\n".toList)).flatten,
          alreadyIncluded := st.alreadyIncluded,
          events := st.events ++ lines.map Event.ordinary }
  | [], st, _ => by simp [parse_loop_nil]
  | l :: ls, st, h => by
    have hl := h l (List.mem_cons_self _ _)
    have ih := parse_loop_all_ordinary pi p ls (st.write_line l)
      (fun x hx => h x (List.mem_cons_of_mem _ hx))
    rw [parse_loop_ordinary pi p false l ls st hl.1 hl.2]
    simp only [line_read, Bool.false_eq_true, if_false]
    rw [ih]
    simp [State.write_line, List.append_assoc]

theorem parse_loop_all_ordinary_from (pi : Str → State → Outcome State) (p : Str) (b : Bool)
    (lines : List Str) (st : State)
    (h : ∀ l ∈ lines_from b lines, (is_local_include l).successful = false ∧
      (is_pragma_once l).successful = false) :
    parse_loop pi p b lines st = .done
      { output := st.output ++ ((lines_from b lines).map (· ++ "\n".toList)).flatten,
        alreadyIncluded := st.alreadyIncluded,
        events := st.events ++ (lines_from b lines).map Event.ordinary } := by
  cases lines with
  | nil => simp [parse_loop_nil, lines_from]
  | cons raw rest =>
    rw [lines_from_cons] at h
    have hl := h _ (List.mem_cons_self _ _)
    rw [parse_loop_ordinary pi p b raw rest st hl.1 hl.2,
      parse_loop_all_ordinary pi p rest _ (fun x hx => h x (List.mem_cons_of_mem _ hx))]
    simp [State.write_line, lines_from_cons, List.append_assoc]

theorem remove_bom_unchanged (raw : Str) (h : ¬ utf8_bom <+: raw) : remove_bom raw = raw := by
  unfold remove_bom
  rw [if_neg]
  intro e
  apply h
  rw [List.prefix_iff_eq_take]
  exact e.symm

theorem remove_bom_append (r : Str) : remove_bom (utf8_bom ++ r) = r := by
  unfold remove_bom
  simp


theorem lines_read_of_no_bom (lines : List Str)
    (h : ∀ first rest, lines = first :: rest → ¬ utf8_bom <+: first) : lines_read lines = lines := by
  cases lines with
  | nil => rfl
  | cons first rest =>
    simp only [lines_read, lines_from, line_read, if_true]
    rw [remove_bom_unchanged first (h first rest rfl)]

/-- A file of ordinary lines whose labels fit: the expansion returns at any depth bound
above zero, with the lines between one pair of banners. -/
theorem parse_file_all_ordinary (fs : Files) (d : Nat) (p : Str) (input : List Str) (st : State)
    (hp : p.length ≤ 112)
    (h : ∀ l ∈ lines_read input, (is_local_include l).successful = false ∧
      (is_pragma_once l).successful = false) :
    parse_file fs (d + 1) p input st = .done
      { output := st.output ++ (banner p ++ "\n".toList) ++
          ((lines_read input).map (· ++ "\n".toList)).flatten ++
          (banner ("END ".toList ++ p) ++ "\n".toList),
        alreadyIncluded := st.alreadyIncluded,
        events := st.events ++ [.begin_banner p] ++ (lines_read input).map Event.ordinary ++
          [.end_banner p] } := by
  have h1 : header_text p = some (banner p) := header_text_fits p (by omega)
  have h2 : header_text ("END ".toList ++ p) = some (banner ("END ".toList ++ p)) :=
    header_text_fits _ (by simp; omega)
  rw [parse_file_succ, generate_header_eq, h1]
  simp only [Option.map_some']
  rw [parse_loop_all_ordinary_from _ p true input _ h]
  simp only [generate_header_eq, h2, Option.map_some', State.write_banner, lines_read]
  simp [List.append_assoc]

/-- The loop depends on its first raw line only through the line it classifies. -/
theorem parse_loop_congr (pi : Str → State → Outcome State) (p : Str) (b b' : Bool)
    (raw raw' : Str) (rest : List Str) (st : State) (h : line_read b raw = line_read b' raw') :
    parse_loop pi p b (raw :: rest) st = parse_loop pi p b' (raw' :: rest) st := by
  rw [parse_loop_cons, parse_loop_cons, h]

theorem line_read_bom (r : Str) : line_read true (utf8_bom ++ r) = r := by
  simp [line_read, remove_bom_append]

theorem line_read_no_bom (raw : Str) (h : ¬ utf8_bom <+: raw) : line_read true raw = raw := by
  simp [line_read, remove_bom_unchanged raw h]

theorem line_read_false (raw : Str) : line_read false raw = raw := rfl

/-- A line whose first character is neither whitespace nor `#` matches neither pattern. -/
theorem no_match_of_first (c : Char) (r : Str) (hs : is_space c = false) (hc : c ≠ '#') :
    (is_local_include (c :: r)).successful = false ∧
    (is_pragma_once (c :: r)).successful = false := by
  have hskip : skip_space (c :: r) = c :: r := by
    simp [skip_space, List.dropWhile, hs]
  have ha : after ['#'] (c :: r) = none := by
    cases h : after ['#'] (c :: r) with
    | none => rfl
    | some x =>
      rw [after_eq_some] at h
      simp only [List.singleton_append, List.cons.injEq] at h
      exact absurd h.1 hc
  constructor
  · rw [is_local_include_successful, regex_search_localInclude, hskip, ha]
    rfl
  · show (regex_search (c :: r) pragmaOnceRegex).isSome = false
    rw [regex_search_pragmaOnce, hskip, ha]
    rfl

/-- A line whose first character after the leading whitespace is not `#` matches neither
pattern. -/
theorem no_match_of_first_after_space (ws : Str) (c : Char) (r : Str) (hws : all_space ws)
    (hs : is_space c = false) (hc : c ≠ '#') :
    (is_local_include (ws ++ c :: r)).successful = false ∧
    (is_pragma_once (ws ++ c :: r)).successful = false := by
  have hskip : skip_space (ws ++ c :: r) = c :: r := (run_then is_space c r hs ws hws).1
  have ha : after ['#'] (c :: r) = none := by
    cases h : after ['#'] (c :: r) with
    | none => rfl
    | some x =>
      rw [after_eq_some] at h
      simp only [List.singleton_append, List.cons.injEq] at h
      exact absurd h.1 hc
  constructor
  · rw [is_local_include_successful, regex_search_localInclude, hskip, ha]
    rfl
  · show (regex_search (ws ++ c :: r) pragmaOnceRegex).isSome = false
    rw [regex_search_pragmaOnce, hskip, ha]
    rfl

theorem is_local_include_iff (line path : Str) :
    ((is_local_include line).successful = true ∧ (is_local_include line).result = path) ↔
      (path ≠ [] ∧ (∀ c ∈ path, c ≠ '"' ∧ c ≠ '>') ∧ IncludeShape line path) := by
  rw [← regex_search_localInclude_iff]
  exact is_include_of_iff line path

/-- A line that matches one of the patterns does not start with the BOM, so that it is
classified as it is read also when it is the first line. -/
theorem line_read_of_match (b : Bool) (raw : Str)
    (h : (is_local_include raw).successful = true ∨ (is_pragma_once raw).successful = true) :
    line_read b raw = raw := by
  cases b with
  | false => rfl
  | true =>
    apply line_read_no_bom
    rintro ⟨t, rfl⟩
    have := no_match_of_first (Char.ofNat 0xEF) ([Char.ofNat 0xBB, Char.ofNat 0xBF] ++ t)
      (by decide) (by decide)
    have e : utf8_bom ++ t = Char.ofNat 0xEF :: ([Char.ofNat 0xBB, Char.ofNat 0xBF] ++ t) := rfl
    rw [e] at h
    rcases h with h | h
    · rw [this.1] at h
      exact Bool.noConfusion h
    · rw [this.2] at h
      exact Bool.noConfusion h

/-- A once-directive line of the file as stored is one of the lines as classified. -/
theorem once_line_read (input : List Str) (h : ∃ l ∈ input, is_once l) :
    ∃ l ∈ lines_read input, is_once l := by
  obtain ⟨l, hl, ho⟩ := h
  cases input with
  | nil => simp at hl
  | cons raw rest =>
    rw [List.mem_cons] at hl
    rcases hl with rfl | hl
    · exact ⟨l, by
        show l ∈ line_read true l :: rest
        rw [line_read_of_match true l (Or.inr ho)]
        exact List.mem_cons_self _ _, ho⟩
    · exact ⟨l, List.mem_cons_of_mem _ hl, ho⟩

/-! ## The fields after each write -/

@[simp] theorem write_line_events (st : State) (l : Str) :
    (st.write_line l).events = st.events ++ [.ordinary l] := rfl

@[simp] theorem write_line_seen (st : State) (l : Str) :
    (st.write_line l).alreadyIncluded = st.alreadyIncluded := rfl

@[simp] theorem write_line_output (st : State) (l : Str) :
    (st.write_line l).output = st.output ++ l ++ "\n".toList := rfl

@[simp] theorem emplace_events (st : State) (p : Str) : (st.emplace p).events = st.events := rfl

@[simp] theorem emplace_seen (st : State) (p : Str) :
    (st.emplace p).alreadyIncluded = insert p st.alreadyIncluded := rfl

@[simp] theorem emplace_output (st : State) (p : Str) : (st.emplace p).output = st.output := rfl

@[simp] theorem write_banner_events (st : State) (o : Str) (e : Event) :
    (st.write_banner o e).events = st.events ++ [e] := rfl

@[simp] theorem write_banner_seen (st : State) (o : Str) (e : Event) :
    (st.write_banner o e).alreadyIncluded = st.alreadyIncluded := rfl

@[simp] theorem write_banner_output (st : State) (o : Str) (e : Event) :
    (st.write_banner o e).output = o ++ "\n".toList := rfl

/-! ## The event log -/

/-- The event log only grows. -/
theorem events_steps (fs : Files) :
    Steps fs (fun _ _ _ st st' => ∀ e, st.events.count e ≤ st'.events.count e)
      (fun _ _ _ _ st st' => ∀ e, st.events.count e ≤ st'.events.count e) where
  nil := fun _ _ _ _ _ => Nat.le_refl _
  inc := fun _ _ _ _ _ _ _ _ _ _ _ h1 _ h2 e => Nat.le_trans (h1 e) (h2 e)
  skip := fun _ _ _ _ _ _ _ _ _ _ h2 => h2
  once := fun _ _ _ _ _ _ _ _ _ _ h2 => h2
  ord := by
    intro d p b raw rest st st2 _ _ _ h2 e
    have := h2 e
    simp only [write_line_events, List.count_append] at this
    omega
  file := by
    intro d p input st out1 st2 out2 _ _ h2 _ e
    have := h2 e
    simp only [write_banner_events, List.count_append] at this ⊢
    omega

theorem parse_file_events_le (fs : Files) (d : Nat) (p : Str) (input : List Str) (st st' : State)
    (h : parse_file fs d p input st = .done st') (e : Event) :
    st.events.count e ≤ st'.events.count e :=
  (parse_induct fs (events_steps fs)).1 d p input st st' h e

theorem parse_loop_events_le (fs : Files) (d : Nat) (p : Str) (b : Bool) (lines : List Str)
    (st st' : State) (h : parse_loop (parse_include fs d) p b lines st = .done st') (e : Event) :
    st.events.count e ≤ st'.events.count e :=
  (parse_induct fs (events_steps fs)).2 d p b lines st st' h e

/-- A path enters the set only through a once-directive line of its own file. -/
theorem gained_steps (fs : Files) :
    Steps fs
      (fun _ p input st st' => ∀ q ∈ st'.alreadyIncluded, q ∈ st.alreadyIncluded ∨
        (q = p ∧ ∃ l ∈ lines_read input, is_once l) ∨
        ∃ l ∈ lines_read (open_lines fs q), is_once l)
      (fun _ p b lines st st' => ∀ q ∈ st'.alreadyIncluded, q ∈ st.alreadyIncluded ∨
        (q = p ∧ ∃ l ∈ lines_from b lines, is_once l) ∨
        ∃ l ∈ lines_read (open_lines fs q), is_once l) where
  nil := fun _ _ _ _ q hq => Or.inl hq
  inc := by
    intro d p b raw rest st st1 st2 _ _ _ h1 _ h2 q hq
    rcases h2 q hq with h | ⟨rfl, l, hl, ho⟩ | h
    · rcases h1 q h with h | ⟨hqt, h⟩ | h
      · exact Or.inl h
      · exact Or.inr (Or.inr (hqt ▸ h))
      · exact Or.inr (Or.inr h)
    · rw [lines_from_false] at hl
      exact Or.inr (Or.inl ⟨rfl, l, by rw [lines_from_cons]; exact List.mem_cons_of_mem _ hl, ho⟩)
    · exact Or.inr (Or.inr h)
  skip := by
    intro d p b raw rest st st2 _ _ _ h2 q hq
    rcases h2 q hq with h | ⟨rfl, l, hl, ho⟩ | h
    · exact Or.inl h
    · rw [lines_from_false] at hl
      exact Or.inr (Or.inl ⟨rfl, l, by rw [lines_from_cons]; exact List.mem_cons_of_mem _ hl, ho⟩)
    · exact Or.inr (Or.inr h)
  once := by
    intro d p b raw rest st st2 _ hp _ h2 q hq
    rcases h2 q hq with h | ⟨rfl, l, hl, ho⟩ | h
    · simp only [emplace_seen, Finset.mem_insert] at h
      rcases h with rfl | h
      · exact Or.inr (Or.inl ⟨rfl, _, by rw [lines_from_cons]; exact List.mem_cons_self _ _, hp⟩)
      · exact Or.inl h
    · rw [lines_from_false] at hl
      exact Or.inr (Or.inl ⟨rfl, l, by rw [lines_from_cons]; exact List.mem_cons_of_mem _ hl, ho⟩)
    · exact Or.inr (Or.inr h)
  ord := by
    intro d p b raw rest st st2 _ _ _ h2 q hq
    rcases h2 q hq with h | ⟨rfl, l, hl, ho⟩ | h
    · exact Or.inl h
    · rw [lines_from_false] at hl
      exact Or.inr (Or.inl ⟨rfl, l, by rw [lines_from_cons]; exact List.mem_cons_of_mem _ hl, ho⟩)
    · exact Or.inr (Or.inr h)
  file := fun _ _ _ _ _ _ _ _ _ h2 _ => h2


/-! ## Expansions that are repeated -/

theorem includes_of_cons_pos (B line : Str) (rest : List Str)
    (h : is_include_of line B) : includes_of B (line :: rest) = includes_of B rest + 1 := by
  unfold includes_of
  rw [List.countP_cons_of_pos]
  simp [h.1, h.2]

theorem includes_of_cons_neg (B line : Str) (rest : List Str)
    (h : ¬ is_include_of line B) : includes_of B (line :: rest) = includes_of B rest := by
  unfold includes_of
  rw [List.countP_cons_of_neg]
  simpa [is_include_of] using h

theorem includes_of_twice (B : Str) (pre mid post : List Str) (l1 l2 : Str)
    (h1 : is_include_of l1 B) (h2 : is_include_of l2 B) :
    2 ≤ includes_of B (pre ++ l1 :: (mid ++ l2 :: post)) := by
  have e1 : includes_of B (pre ++ l1 :: (mid ++ l2 :: post)) =
      includes_of B pre + includes_of B (l1 :: (mid ++ l2 :: post)) := by
    unfold includes_of
    rw [List.countP_append]
  have e2 : includes_of B (mid ++ l2 :: post) =
      includes_of B mid + includes_of B (l2 :: post) := by
    unfold includes_of
    rw [List.countP_append]
  rw [e1, includes_of_cons_pos B l1 _ h1, e2, includes_of_cons_pos B l2 _ h2]
  omega

/-- An expansion that returns has emitted its banners and its ordinary lines. -/
theorem own_steps (fs : Files) :
    Steps fs
      (fun _ p input st st' => ∀ e, OwnEvent p input e →
        st.events.count e + 1 ≤ st'.events.count e)
      (fun _ _ b lines st st' => ∀ l ∈ lines_from b lines, is_ordinary l →
        st.events.count (.ordinary l) + 1 ≤ st'.events.count (.ordinary l)) where
  nil := by
    intro d p b st l hl
    cases b <;> simp [lines_from] at hl
  inc := by
    intro d p b raw rest st st1 st2 hi _ hc _ _ ih l hl ho
    rw [lines_from_cons, List.mem_cons] at hl
    rcases hl with rfl | hl
    · rw [ho.1] at hi
      exact Bool.noConfusion hi
    · have := ih l (by rw [lines_from_false]; exact hl) ho
      have := parse_file_events_le fs d _ _ st st1 hc (.ordinary l)
      omega
  skip := by
    intro d p b raw rest st st2 hi _ _ ih l hl ho
    rw [lines_from_cons, List.mem_cons] at hl
    rcases hl with rfl | hl
    · rw [ho.1] at hi
      exact Bool.noConfusion hi
    · exact ih l (by rw [lines_from_false]; exact hl) ho
  once := by
    intro d p b raw rest st st2 _ hp _ ih l hl ho
    rw [lines_from_cons, List.mem_cons] at hl
    rcases hl with rfl | hl
    · rw [ho.2] at hp
      exact Bool.noConfusion hp
    · exact ih l (by rw [lines_from_false]; exact hl) ho
  ord := by
    intro d p b raw rest st st2 _ _ hl2 ih l hl ho
    rw [lines_from_cons, List.mem_cons] at hl
    rcases hl with rfl | hl
    · have := parse_loop_events_le fs d p false rest _ st2 hl2 (.ordinary (line_read b raw))
      simp only [write_line_events, List.count_append, List.count_singleton_self] at this
      exact this
    · have := ih l (by rw [lines_from_false]; exact hl) ho
      simp only [write_line_events, List.count_append] at this
      omega
  file := by
    intro d p input st out1 st2 out2 _ hl2 ih _ e he
    rcases he with rfl | rfl | ⟨l, hl, ho, rfl⟩
    · have := parse_loop_events_le fs d p true input _ st2 hl2 (.begin_banner p)
      simp only [write_banner_events, List.count_append, List.count_singleton_self] at this ⊢
      omega
    · have := parse_loop_events_le fs d p true input _ st2 hl2 (.end_banner p)
      simp only [write_banner_events, List.count_append, List.count_singleton_self] at this ⊢
      omega
    · have := ih l hl ho
      simp only [write_banner_events, List.count_append] at this ⊢
      omega

/-- Every include line of `B` that is read while `B` is outside the set adds an expansion
of `B`. -/
theorem repeat_steps (fs : Files) (B : Str) :
    Steps fs
      (fun _ _ input st st' => ∀ e, OwnEvent B (open_lines fs B) e →
        B ∉ st'.alreadyIncluded →
        st.events.count e + includes_of B (lines_read input) ≤ st'.events.count e)
      (fun _ _ b lines st st' => ∀ e, OwnEvent B (open_lines fs B) e →
        B ∉ st'.alreadyIncluded →
        st.events.count e + includes_of B (lines_from b lines) ≤ st'.events.count e) where
  nil := by
    intro d p b st e _ _
    cases b <;> simp [lines_from, includes_of]
  inc := by
    intro d p b raw rest st st1 st2 hi _ hc _ _ ih e he hB
    have h2 := ih e he hB
    rw [lines_from_false] at h2
    rw [lines_from_cons]
    by_cases ht : (is_local_include (line_read b raw)).result = B
    · rw [includes_of_cons_pos B _ rest ⟨hi, ht⟩]
      rw [ht] at hc
      have := (parse_induct fs (own_steps fs)).1 d B (open_lines fs B) st st1 hc e he
      omega
    · rw [includes_of_cons_neg B _ rest (fun h => ht h.2)]
      have := parse_file_events_le fs d _ _ st st1 hc e
      omega
  skip := by
    intro d p b raw rest st st2 _ hm hl2 ih e he hB
    have h2 := ih e he hB
    rw [lines_from_false] at h2
    rw [lines_from_cons]
    have ht : (is_local_include (line_read b raw)).result ≠ B := by
      intro ht
      rw [ht] at hm
      exact hB (parse_loop_mono fs d p false rest st st2 hl2 hm)
    rw [includes_of_cons_neg B _ rest (fun h => ht h.2)]
    exact h2
  once := by
    intro d p b raw rest st st2 hi _ _ ih e he hB
    have h2 := ih e he hB
    rw [lines_from_false] at h2
    rw [lines_from_cons, includes_of_cons_neg B _ rest (fun h => by
      have h1 := h.1
      rw [hi] at h1
      exact Bool.noConfusion h1)]
    exact h2
  ord := by
    intro d p b raw rest st st2 hi _ _ ih e he hB
    have h2 := ih e he hB
    rw [lines_from_false] at h2
    rw [lines_from_cons, includes_of_cons_neg B _ rest (fun h => by
      have h1 := h.1
      rw [hi] at h1
      exact Bool.noConfusion h1)]
    simp only [write_line_events, List.count_append] at h2
    omega
  file := by
    intro d p input st out1 st2 out2 _ _ ih _ e he hB
    have h2 := ih e he hB
    simp only [write_banner_events, List.count_append] at h2 ⊢
    show _ + includes_of B (lines_from true input) ≤ _
    omega


/-! ## Files protected by a leading once-directive -/

theorem generate_header_fits (output str : Str) (h : str.length ≤ 116) :
    generate_header output str = some (output ++ banner str) := by
  rw [generate_header_eq, header_text_fits str h]
  rfl

theorem parse_include_eq (fs : Files) (d : Nat) (p : Str) (st : State) :
    parse_include fs d p st = parse_file fs d p (open_lines fs p) st := rfl

theorem header_a (o : Str) : generate_header o "A".toList = some (o ++ banner "A".toList) :=
  generate_header_fits o _ (by decide)

theorem header_b (o : Str) : generate_header o "B".toList = some (o ++ banner "B".toList) :=
  generate_header_fits o _ (by decide)

theorem header_end_a (o : Str) :
    generate_header o ("END ".toList ++ "A".toList) = some (o ++ banner "END A".toList) :=
  generate_header_fits o _ (by decide)

theorem header_end_b (o : Str) :
    generate_header o ("END ".toList ++ "B".toList) = some (o ++ banner "END B".toList) :=
  generate_header_fits o _ (by decide)

theorem class_include_b :
    is_local_include "#include \"B\"".toList = { successful := true, result := "B".toList } := by
  rfl

theorem class_once_include :
    is_local_include "#pragma once".toList = { successful := false, result := [] } := by rfl

theorem class_once :
    is_pragma_once "#pragma once".toList = { successful := true, result := [] } := by rfl

theorem class_body_include :
    is_local_include "body".toList = { successful := false, result := [] } := by rfl

theorem class_body_once :
    is_pragma_once "body".toList = { successful := false, result := [] } := by rfl

theorem class_tail_include :
    is_local_include "tail".toList = { successful := false, result := [] } := by rfl

theorem class_tail_once :
    is_pragma_once "tail".toList = { successful := false, result := [] } := by rfl

theorem first_include_b : line_read true "#include \"B\"".toList = "#include \"B\"".toList := by
  rfl

theorem first_once : line_read true "#pragma once".toList = "#pragma once".toList := by rfl

theorem first_body : line_read true "body".toList = "body".toList := by rfl

/-- The inlining example returns `state_ab`. -/
theorem run_ab : parse_file files_ab 2 "A".toList lines_a initial = .done state_ab := by
  have oB : open_lines files_ab "B".toList = ["body".toList] := by rfl
  simp only [lines_a, parse_include_eq, parse_file_succ, parse_loop_cons, parse_loop_nil, oB,
    first_include_b, first_body, line_read_false, class_include_b, class_body_include,
    class_body_once, class_tail_include, class_tail_once, header_a, header_b, header_end_a,
    header_end_b, initial, State.write_banner, State.write_line, State.emplace,
    Finset.not_mem_empty, not_false_eq_true, if_true, if_false, Bool.false_eq_true]
  simp [state_ab, List.append_assoc]

/-- The re-inclusion example returns `state_twice`. -/
theorem run_twice : parse_include files_twice 2 "A".toList initial = .done state_twice := by
  have oA : open_lines files_twice "A".toList =
      ["#include \"B\"".toList, "#include \"B\"".toList] := by rfl
  have oB : open_lines files_twice "B".toList = ["body".toList] := by rfl
  simp only [parse_include_eq, parse_file_succ, parse_loop_cons, parse_loop_nil, oA, oB,
    first_include_b, first_body, line_read_false, class_include_b, class_body_include,
    class_body_once, header_a, header_b, header_end_a, header_end_b, initial,
    State.write_banner, State.write_line, State.emplace,
    Finset.not_mem_empty, not_false_eq_true, if_true, if_false, Bool.false_eq_true]
  simp [state_twice, List.append_assoc]

/-- The once example returns `state_guard`. -/
theorem run_guard : parse_include files_guard 2 "A".toList initial = .done state_guard := by
  have oA : open_lines files_guard "A".toList =
      ["#include \"B\"".toList, "#include \"B\"".toList] := by rfl
  have oB : open_lines files_guard "B".toList = ["#pragma once".toList, "body".toList] := by rfl
  simp only [parse_include_eq, parse_file_succ, parse_loop_cons, parse_loop_nil, oA, oB,
    first_include_b, first_once, line_read_false, class_include_b, class_body_include,
    class_body_once, class_once, class_once_include, header_a, header_b, header_end_a,
    header_end_b, initial, State.write_banner, State.write_line, State.emplace,
    Finset.not_mem_empty, not_false_eq_true, if_true, if_false, Bool.false_eq_true,
    Finset.mem_insert, true_or, not_true_eq_false]
  simp [state_guard, List.append_assoc]

/-- The file `B` of the once example, expanded on its own, returns `state_guard_b`. -/
theorem run_guard_b :
    parse_file files_guard 1 "B".toList ["#pragma once".toList, "body".toList] initial =
      .done state_guard_b := by
  simp only [parse_file_succ, parse_loop_cons, parse_loop_nil,
    first_once, line_read_false, class_body_include,
    class_body_once, class_once, class_once_include, header_b,
    header_end_b, initial, State.write_banner, State.write_line, State.emplace,
    if_true, if_false, Bool.false_eq_true]
  simp [state_guard_b, List.append_assoc]

theorem header_f (o : Str) : generate_header o "F".toList = some (o ++ banner "F".toList) :=
  generate_header_fits o _ (by decide)

theorem header_g (o : Str) : generate_header o "G".toList = some (o ++ banner "G".toList) :=
  generate_header_fits o _ (by decide)

theorem header_end_f (o : Str) :
    generate_header o ("END ".toList ++ "F".toList) = some (o ++ banner "END F".toList) :=
  generate_header_fits o _ (by decide)

theorem header_end_g (o : Str) :
    generate_header o ("END ".toList ++ "G".toList) = some (o ++ banner "END G".toList) :=
  generate_header_fits o _ (by decide)

theorem class_include_f :
    is_local_include "#include \"F\"".toList = { successful := true, result := "F".toList } := by
  rfl

theorem class_include_g :
    is_local_include "#include \"G\"".toList = { successful := true, result := "G".toList } := by
  rfl

theorem first_include_g : line_read true "#include \"G\"".toList = "#include \"G\"".toList := by
  rfl

/-- The expansion of `F` in the protected cycle returns `state_loop`. -/
theorem run_loop : parse_include files_loop 3 "F".toList initial = .done state_loop := by
  have oF : open_lines files_loop "F".toList = ["#include \"G\"".toList] := by rfl
  have oG : open_lines files_loop "G".toList =
      ["#pragma once".toList, "#include \"F\"".toList] := by rfl
  have fg : "F".toList ≠ "G".toList := by decide
  simp only [parse_include_eq, parse_file_succ, parse_loop_cons, parse_loop_nil, oF, oG,
    first_include_g, first_once, line_read_false, class_include_f, class_include_g,
    class_once, class_once_include, header_f, header_g, header_end_f, header_end_g, initial,
    State.write_banner, State.write_line, State.emplace,
    Finset.not_mem_empty, not_false_eq_true, if_true, if_false, Bool.false_eq_true,
    Finset.mem_insert, true_or, or_true, or_false, not_true_eq_false, fg]
  simp [state_loop, List.append_assoc]

/-- The include graph of the re-inclusion example: `A` includes `B` only. -/
theorem edges_twice_a (t : Str) (h : Includes files_twice "A".toList t) : t = "B".toList := by
  obtain ⟨l, hl, hi⟩ := h
  have e : lines_read (open_lines files_twice "A".toList) =
      ["#include \"B\"".toList, "#include \"B\"".toList] := by rfl
  rw [e] at hl
  simp only [List.mem_cons, List.mem_singleton, List.not_mem_nil, or_false, or_self] at hl
  subst hl
  rw [← hi.2, class_include_b]

/-- The include graph of the re-inclusion example: `B` includes nothing. -/
theorem edges_twice_b (t : Str) (h : Includes files_twice "B".toList t) : False := by
  obtain ⟨l, hl, hi⟩ := h
  have e : lines_read (open_lines files_twice "B".toList) = ["body".toList] := by rfl
  rw [e] at hl
  simp only [List.mem_singleton] at hl
  subst hl
  have := hi.1
  rw [class_body_include] at this
  exact Bool.noConfusion this

/-- The include chains of the re-inclusion example that start at `A` have at most 2 files. -/
theorem chains_twice (rest : List Str)
    (h : List.Chain (Includes files_twice) "A".toList rest) : rest.length + 1 ≤ 2 := by
  cases h with
  | nil => decide
  | cons h1 h2 =>
    have := edges_twice_a _ h1
    subst this
    cases h2 with
    | nil => decide
    | cons h3 _ => exact absurd h3 (fun h => edges_twice_b _ h)


theorem first_include_d : line_read true "#include \"D\"".toList = "#include \"D\"".toList := by
  rfl

theorem after_cons_ne (c d : Char) (r : Str) (h : d ≠ c) : after [c] (d :: r) = none := by
  cases ha : after [c] (d :: r) with
  | none => rfl
  | some x =>
    rw [after_eq_some] at ha
    simp only [List.singleton_append, List.cons.injEq] at ha
    exact absurd ha.1 h

theorem after_nil_input (c : Char) : after [c] [] = none := by
  simp [after, List.isPrefixOf]

/-- The two searches on a line that starts like an include directive, where `c` is the
first character after the optional whitespace that follows `include`. -/
theorem search_include_head (line : Str) (c : Char) (rest : Str)
    (h : IncludeHead line (c :: rest)) (hc : is_space c = false) :
    regex_search line localIncludeRegex =
      ((after ['"'] (c :: rest)).bind fun r3 =>
        if r3.takeWhile not_quote_gt = [] then none
        else (after ['"'] (r3.dropWhile not_quote_gt)).bind fun _ =>
          some (r3.takeWhile not_quote_gt)) ∧
    regex_search line pragmaOnceRegex = none := by
  obtain ⟨ws1, ws2, ws3, a1, a2, a3, e⟩ := h
  subst e
  have s1 := run_then is_space '#' (ws2 ++ ("include".toList ++ (ws3 ++ c :: rest)))
    (by decide) ws1 a1
  have s2 := run_then is_space 'i' ("nclude".toList ++ (ws3 ++ c :: rest)) (by decide) ws2 a2
  have s3 := run_then is_space c rest hc ws3 a3
  have i1 : "include".toList ++ (ws3 ++ c :: rest) =
      'i' :: ("nclude".toList ++ (ws3 ++ c :: rest)) := rfl
  have a1' : after ['#'] ('#' :: (ws2 ++ ("include".toList ++ (ws3 ++ c :: rest))))
      = some (ws2 ++ ("include".toList ++ (ws3 ++ c :: rest))) :=
    (after_eq_some _ _ _).mpr rfl
  have a2' : after ['i', 'n', 'c', 'l', 'u', 'd', 'e']
      ('i' :: ("nclude".toList ++ (ws3 ++ c :: rest))) = some (ws3 ++ c :: rest) :=
    (after_eq_some _ _ _).mpr rfl
  have a3' : after ['p', 'r', 'a', 'g', 'm', 'a']
      ('i' :: ("nclude".toList ++ (ws3 ++ c :: rest))) = none := by
    cases ha : after ['p', 'r', 'a', 'g', 'm', 'a']
        ('i' :: ("nclude".toList ++ (ws3 ++ c :: rest))) with
    | none => rfl
    | some x =>
      rw [after_eq_some] at ha
      simp at ha
  constructor
  · rw [regex_search_localInclude]
    simp only [skip_space]
    rw [s1.1, a1', Option.some_bind, i1, s2.1, a2', Option.some_bind, s3.1]
  · rw [regex_search_pragmaOnce]
    simp only [skip_space]
    rw [s1.1, a1', Option.some_bind, i1, s2.1, a3']
    rfl

/-- A line whose first character after the leading whitespace is `#` does not start with the
BOM: it is classified as it is read. -/
theorem line_read_hash (b : Bool) (ws1 r : Str) (h : all_space ws1) :
    line_read b (ws1 ++ '#' :: r) = ws1 ++ '#' :: r := by
  cases b with
  | false => rfl
  | true =>
    apply line_read_no_bom
    rintro ⟨t, e⟩
    cases ws1 with
    | nil =>
      simp only [utf8_bom, List.cons_append, List.nil_append, List.cons.injEq] at e
      exact absurd e.1 (by decide)
    | cons w ws =>
      simp only [utf8_bom, List.cons_append, List.cons.injEq] at e
      have := h w (List.mem_cons_self _ _)
      rw [← e.1] at this
      exact absurd this (by decide)

theorem line_read_include_head (b : Bool) (line r : Str) (h : IncludeHead line r) :
    line_read b line = line := by
  obtain ⟨ws1, ws2, ws3, a1, _, _, e⟩ := h
  subst e
  exact line_read_hash b ws1 _ a1

/-- An include directive with `<` in the place of the opening quote is an ordinary line. -/
theorem angle_ordinary (line rest : Str) (h : IncludeHead line ('<' :: rest)) :
    is_ordinary line := by
  have hs := search_include_head line '<' rest h (by decide)
  constructor
  · rw [is_local_include_successful, hs.1, after_cons_ne '"' '<' rest (by decide)]
    rfl
  · show (regex_search line pragmaOnceRegex).isSome = false
    rw [hs.2]
    rfl

theorem dropWhile_subset (p : Char → Bool) :
    ∀ s : Str, ∀ c ∈ s.dropWhile p, c ∈ s
  | [], c, hc => by simp at hc
  | d :: ds, c, hc => by
    by_cases hd : p d = true
    · simp only [List.dropWhile, hd] at hc
      exact List.mem_cons_of_mem _ (dropWhile_subset p ds c hc)
    · simp only [List.dropWhile, hd] at hc
      exact hc

/-- An include directive whose opening quote is never closed is an ordinary line. -/
theorem unterminated_ordinary (line text : Str) (h : IncludeHead line ('"' :: text))
    (hq : '"' ∉ text) : is_ordinary line := by
  have hs := search_include_head line '"' text h (by decide)
  have ha : after ['"'] ('"' :: text) = some text := (after_eq_some _ _ _).mpr rfl
  have hd : after ['"'] (text.dropWhile not_quote_gt) = none := by
    cases hh : text.dropWhile not_quote_gt with
    | nil => exact after_nil_input _
    | cons d ds =>
      apply after_cons_ne
      intro e
      apply hq
      apply dropWhile_subset not_quote_gt text
      rw [hh, e]
      exact List.mem_cons_self _ _
  constructor
  · rw [is_local_include_successful, hs.1, ha, Option.some_bind, hd]
    split <;> rfl
  · show (regex_search line pragmaOnceRegex).isSome = false
    rw [hs.2]
    rfl

/-- An include directive with an empty pair of quotes is an ordinary line. -/
theorem empty_quotes_ordinary (line rest : Str) (h : IncludeHead line ('"' :: '"' :: rest)) :
    is_ordinary line := by
  have hs := search_include_head line '"' ('"' :: rest) h (by decide)
  have ha : after ['"'] ('"' :: '"' :: rest) = some ('"' :: rest) := (after_eq_some _ _ _).mpr rfl
  have ht : List.takeWhile not_quote_gt ('"' :: rest) = [] := by
    simp [List.takeWhile, not_quote_gt]
  constructor
  · rw [is_local_include_successful, hs.1, ha, Option.some_bind, if_pos ht]
    rfl
  · show (regex_search line pragmaOnceRegex).isSome = false
    rw [hs.2]
    rfl

/-- The step of the loop on a raw line that is ordinary and is classified as it is read. -/
theorem parse_loop_verbatim (pi : Str → State → Outcome State) (p : Str) (b : Bool) (raw : Str)
    (rest : List Str) (st : State) (hr : line_read b raw = raw) (ho : is_ordinary raw) :
    parse_loop pi p b (raw :: rest) st =
      parse_loop pi p false rest
        { output := st.output ++ raw ++ "\n".toList, alreadyIncluded := st.alreadyIncluded,
          events := st.events ++ [.ordinary raw] } := by
  rw [parse_loop_ordinary pi p b raw rest st (by rw [hr]; exact ho.1) (by rw [hr]; exact ho.2), hr]
  rfl

/-! ## The structure of the event log -/

theorem nested_append (a b : List Event) (ha : Nested a) (hb : Nested b) : Nested (a ++ b) := by
  induction ha with
  | nil => exact hb
  | ordinary l rest _ ih => exact Nested.ordinary l _ ih
  | expansion p inner rest hi _ _ ih2 =>
    have e : Event.begin_banner p :: (inner ++ Event.end_banner p :: rest) ++ b =
        Event.begin_banner p :: (inner ++ Event.end_banner p :: (rest ++ b)) := by simp
    rw [e]
    exact Nested.expansion p inner _ hi ih2

theorem nested_counts (evs : List Event) (h : Nested evs) :
    evs.countP Event.is_begin = evs.countP Event.is_end ∧
    ∀ q, evs.count (.begin_banner q) = evs.count (.end_banner q) := by
  induction h with
  | nil => exact ⟨rfl, fun _ => rfl⟩
  | ordinary l rest _ ih =>
    refine ⟨?_, fun q => ?_⟩
    · simpa [List.countP_cons, Event.is_begin, Event.is_end] using ih.1
    · simpa [List.count_cons] using ih.2 q
  | expansion p inner rest _ _ ih1 ih2 =>
    refine ⟨?_, fun q => ?_⟩
    · simp only [List.countP_cons, List.countP_append, Event.is_begin, Event.is_end]
      have := ih1.1
      have := ih2.1
      simp
      omega
    · have h1 := ih1.2 q
      have h2 := ih2.2 q
      simp only [List.count_cons, List.count_append]
      by_cases hq : p = q
      · subst hq
        simp
        omega
      · have hb : ¬ (Event.begin_banner p == Event.begin_banner q) = true := by simpa using hq
        have he : ¬ (Event.end_banner p == Event.end_banner q) = true := by simpa using hq
        simp [hb, he]
        omega

/-- The events of an expansion that returns: its begin banner, a nested sequence, its end
banner. -/
theorem nested_steps (fs : Files) :
    Steps fs
      (fun _ p _ st st' => ∃ inner, st'.events =
        st.events ++ (.begin_banner p :: (inner ++ [.end_banner p])) ∧ Nested inner)
      (fun _ _ _ _ st st' => ∃ evs, st'.events = st.events ++ evs ∧ Nested evs) where
  nil := fun _ _ _ st => ⟨[], by simp, Nested.nil⟩
  inc := by
    intro d p b raw rest st st1 st2 _ _ _ ⟨inner, e1, n1⟩ _ ⟨evs, e2, n2⟩
    refine ⟨.begin_banner (is_local_include (line_read b raw)).result ::
      (inner ++ .end_banner (is_local_include (line_read b raw)).result :: evs), ?_,
      Nested.expansion _ inner evs n1 n2⟩
    rw [e2, e1]
    simp
  skip := fun _ _ _ _ _ _ _ _ _ _ h => h
  once := fun _ _ _ _ _ _ _ _ _ _ h => h
  ord := by
    intro d p b raw rest st st2 _ _ _ ⟨evs, e2, n2⟩
    refine ⟨.ordinary (line_read b raw) :: evs, ?_, Nested.ordinary _ evs n2⟩
    rw [e2]
    simp
  file := by
    intro d p input st out1 st2 out2 _ _ ⟨evs, e2, n2⟩ _
    refine ⟨evs, ?_, n2⟩
    simp only [write_banner_events] at e2 ⊢
    rw [e2]
    simp

theorem render_append (a b : List Event) : render (a ++ b) = render a ++ render b := by
  simp [render]

theorem render_cons (e : Event) (a : List Event) : render (e :: a) = event_text e ++ render a := by
  simp [render]

theorem render_nil : render [] = [] := rfl

/-- The output of a run that returns is the text of its events. -/
theorem render_steps (fs : Files) :
    Steps fs
      (fun _ _ _ st st' => ∃ evs, st'.events = st.events ++ evs ∧
        st'.output = st.output ++ render evs)
      (fun _ _ _ _ st st' => ∃ evs, st'.events = st.events ++ evs ∧
        st'.output = st.output ++ render evs) where
  nil := fun _ _ _ st => ⟨[], by simp, by simp [render_nil]⟩
  inc := by
    intro d p b raw rest st st1 st2 _ _ _ ⟨ev1, e1, o1⟩ _ ⟨ev2, e2, o2⟩
    exact ⟨ev1 ++ ev2, by rw [e2, e1, List.append_assoc],
      by rw [o2, o1, render_append, List.append_assoc]⟩
  skip := fun _ _ _ _ _ _ _ _ _ _ h => h
  once := fun _ _ _ _ _ _ _ _ _ _ h => h
  ord := by
    intro d p b raw rest st st2 _ _ _ ⟨evs, e2, o2⟩
    refine ⟨.ordinary (line_read b raw) :: evs, ?_, ?_⟩
    · rw [e2]
      simp
    · rw [o2, render_cons]
      simp [event_text, List.append_assoc]
  file := by
    intro d p input st out1 st2 out2 hg1 _ ⟨evs, e2, o2⟩ hg2
    rw [generate_header_eq] at hg1 hg2
    cases hb1 : header_text p with
    | none => rw [hb1] at hg1; exact Option.noConfusion hg1
    | some b1 =>
      cases hb2 : header_text ("END ".toList ++ p) with
      | none => rw [hb2] at hg2; exact Option.noConfusion hg2
      | some b2 =>
        rw [hb1] at hg1
        rw [hb2] at hg2
        simp only [Option.map_some', Option.some.injEq] at hg1 hg2
        refine ⟨.begin_banner p :: (evs ++ [.end_banner p]), ?_, ?_⟩
        · simp only [write_banner_events] at e2 ⊢
          rw [e2]
          simp
        · simp only [write_banner_output] at o2 ⊢
          rw [← hg2, o2, ← hg1, render_cons, render_append, render_cons, render_nil]
          simp only [event_text, hb1, hb2, Option.getD_some]
          simp [List.append_assoc]

/-- A path that has entered the set has been expanded. -/
theorem expanded_steps (fs : Files) :
    Steps fs
      (fun _ _ _ st st' => ∀ q ∈ st'.alreadyIncluded, q ∈ st.alreadyIncluded ∨
        st.events.count (.begin_banner q) + 1 ≤ st'.events.count (.begin_banner q))
      (fun _ p _ _ st st' => ∀ q ∈ st'.alreadyIncluded, q ∈ st.alreadyIncluded ∨ q = p ∨
        st.events.count (.begin_banner q) + 1 ≤ st'.events.count (.begin_banner q)) where
  nil := fun _ _ _ _ q hq => Or.inl hq
  inc := by
    intro d p b raw rest st st1 st2 _ _ hc h1 hl2 h2 q hq
    have m1 := parse_file_events_le fs d _ _ st st1 hc (.begin_banner q)
    have m2 := parse_loop_events_le fs d p false rest st1 st2 hl2 (.begin_banner q)
    rcases h2 q hq with h | h | h
    · rcases h1 q h with h | h
      · exact Or.inl h
      · exact Or.inr (Or.inr (by omega))
    · exact Or.inr (Or.inl h)
    · exact Or.inr (Or.inr (by omega))
  skip := fun _ _ _ _ _ _ _ _ _ _ h => h
  once := by
    intro d p b raw rest st st2 _ _ _ h2 q hq
    rcases h2 q hq with h | h | h
    · simp only [emplace_seen, Finset.mem_insert] at h
      rcases h with h | h
      · exact Or.inr (Or.inl h)
      · exact Or.inl h
    · exact Or.inr (Or.inl h)
    · exact Or.inr (Or.inr h)
  ord := by
    intro d p b raw rest st st2 _ _ _ h2 q hq
    rcases h2 q hq with h | h | h
    · exact Or.inl h
    · exact Or.inr (Or.inl h)
    · simp only [write_line_events, List.count_append] at h
      exact Or.inr (Or.inr (by omega))
  file := by
    intro d p input st out1 st2 out2 _ hl2 h2 _ q hq
    have m2 := parse_loop_events_le fs d p true input _ st2 hl2 (.begin_banner q)
    simp only [write_banner_events, write_banner_seen, List.count_append] at m2 h2 hq ⊢
    rcases h2 q hq with h | h | h
    · exact Or.inl h
    · subst h
      simp only [List.count_singleton_self] at m2
      exact Or.inr (by omega)
    · exact Or.inr (by omega)


/-! ## The lines of the output -/

theorem get_lines_from_line (rest : Str) :
    ∀ (l acc : Str), '\n' ∉ l →
      get_lines_from acc (l ++ '\n' :: rest) = (acc ++ l) :: get_lines_from [] rest
  | [], acc, _ => by simp [get_lines_from]
  | c :: cs, acc, h => by
    have hc : c ≠ '\n' := fun e => h (e ▸ List.mem_cons_self _ _)
    have ih := get_lines_from_line rest cs (acc ++ [c])
      (fun hm => h (List.mem_cons_of_mem _ hm))
    have e : get_lines_from acc ((c :: cs) ++ '\n' :: rest) =
        get_lines_from (acc ++ [c]) (cs ++ '\n' :: rest) := by
      show get_lines_from acc (c :: (cs ++ '\n' :: rest)) = _
      rw [get_lines_from, if_neg hc]
    rw [e, ih]
    simp

theorem get_lines_flatten :
    ∀ ls : List Str, (∀ l ∈ ls, '\n' ∉ l) →
      get_lines (ls.map (· ++ "\n".toList)).flatten = ls
  | [], _ => by simp [get_lines, get_lines_from]
  | l :: ls, h => by
    have ih := get_lines_flatten ls (fun x hx => h x (List.mem_cons_of_mem _ hx))
    have e : ((l :: ls).map (· ++ "\n".toList)).flatten =
        l ++ '\n' :: (ls.map (· ++ "\n".toList)).flatten := by
      simp [List.flatten]
    rw [e, get_lines, get_lines_from_line _ l [] (h l (List.mem_cons_self _ _))]
    rw [get_lines] at ih
    rw [ih]
    rfl

theorem event_text_fits (e : Event) (h : e.fits) :
    event_text e = ((event_lines e).map (· ++ "\n".toList)).flatten := by
  cases e with
  | begin_banner p =>
    simp only [event_text, header_text_fits p h, Option.getD_some, event_lines]
    simp [banner, List.flatten, List.append_assoc]
  | end_banner p =>
    simp only [event_text, header_text_fits _ h, Option.getD_some, event_lines]
    simp [banner, List.flatten, List.append_assoc]
  | ordinary l => simp [event_text, event_lines, List.flatten]

theorem render_fits :
    ∀ evs : List Event, (∀ e ∈ evs, e.fits) →
      render evs = ((output_lines evs).map (· ++ "\n".toList)).flatten
  | [], _ => rfl
  | e :: es, h => by
    rw [render_cons, event_text_fits e (h e (List.mem_cons_self _ _)),
      render_fits es (fun x hx => h x (List.mem_cons_of_mem _ hx))]
    simp [output_lines]

theorem fill_line_ok : is_ordinary banner_fill_line ∧ '\n' ∉ banner_fill_line := by
  constructor
  · exact no_match_of_first '/' _ (by decide) (by decide)
  · decide

theorem label_line_ok (p : Str) (h : '\n' ∉ p) :
    is_ordinary (banner_label_line p) ∧ '\n' ∉ banner_label_line p := by
  constructor
  · exact no_match_of_first '/' _ (by decide) (by decide)
  · intro hm
    simp only [banner_label_line, List.mem_append, List.mem_replicate] at hm
    rcases hm with ((hm | ⟨_, hm⟩) | hm) | ⟨_, hm⟩
    · exact absurd hm (by decide)
    · exact absurd hm (by decide)
    · exact h hm
    · exact absurd hm (by decide)

theorem empty_line_ok : is_ordinary [] ∧ '\n' ∉ ([] : Str) := by
  constructor
  · exact ⟨by rfl, by rfl⟩
  · simp

theorem event_lines_ok (e : Event) (h : e.clean) :
    ∀ l ∈ event_lines e, is_ordinary l ∧ '\n' ∉ l := by
  intro l hl
  cases e with
  | begin_banner p =>
    simp only [event_lines, List.mem_cons, List.mem_singleton, List.not_mem_nil, or_false] at hl
    rcases hl with rfl | rfl | rfl | rfl
    · exact fill_line_ok
    · exact label_line_ok p h
    · exact fill_line_ok
    · exact empty_line_ok
  | end_banner p =>
    simp only [event_lines, List.mem_cons, List.mem_singleton, List.not_mem_nil, or_false] at hl
    rcases hl with rfl | rfl | rfl | rfl
    · exact fill_line_ok
    · refine label_line_ok _ ?_
      intro hm
      simp only [List.mem_append] at hm
      rcases hm with hm | hm
      · exact absurd hm (by decide)
      · exact h hm
    · exact fill_line_ok
    · exact empty_line_ok
  | ordinary x =>
    simp only [event_lines, List.mem_singleton] at hl
    subst hl
    exact h

theorem output_lines_ok :
    ∀ evs : List Event, (∀ e ∈ evs, e.clean) →
      ∀ l ∈ output_lines evs, is_ordinary l ∧ '\n' ∉ l
  | [], _, l, hl => by simp [output_lines] at hl
  | e :: es, h, l, hl => by
    simp only [output_lines, List.mem_append] at hl
    rcases hl with hl | hl
    · exact event_lines_ok e (h e (List.mem_cons_self _ _)) l hl
    · exact output_lines_ok es (fun x hx => h x (List.mem_cons_of_mem _ hx)) l hl

theorem remove_bom_subset (raw : Str) : ∀ c ∈ remove_bom raw, c ∈ raw := by
  intro c hc
  unfold remove_bom at hc
  split at hc
  · exact List.mem_of_mem_drop hc
  · exact hc

theorem line_read_subset (b : Bool) (raw : Str) : ∀ c ∈ line_read b raw, c ∈ raw := by
  intro c hc
  cases b with
  | false => exact hc
  | true => exact remove_bom_subset raw c hc

theorem include_target_subset (line : Str) (h : (is_local_include line).successful = true) :
    ∀ c ∈ (is_local_include line).result, c ∈ line := by
  intro c hc
  obtain ⟨_, _, ws1, ws2, ws3, rest, _, _, _, e⟩ :=
    (is_local_include_iff line (is_local_include line).result).mp ⟨h, rfl⟩
  rw [e]
  simp [hc]

/-- The events of a run on files without newlines in their lines and paths are clean. -/
theorem clean_steps (fs : Files) (hfs : ∀ p, ∀ l ∈ open_lines fs p, '\n' ∉ l) :
    Steps fs
      (fun _ p input st st' => '\n' ∉ p → (∀ l ∈ input, '\n' ∉ l) →
        ∃ evs, st'.events = st.events ++ evs ∧ ∀ e ∈ evs, e.clean)
      (fun _ p _ lines st st' => '\n' ∉ p → (∀ l ∈ lines, '\n' ∉ l) →
        ∃ evs, st'.events = st.events ++ evs ∧ ∀ e ∈ evs, e.clean) where
  nil := fun _ _ _ st _ _ => ⟨[], by simp, by simp⟩
  inc := by
    intro d p b raw rest st st1 st2 hi _ _ hF _ ih hp hl
    have hraw := hl raw (List.mem_cons_self _ _)
    have ht : '\n' ∉ (is_local_include (line_read b raw)).result := fun hm =>
      hraw (line_read_subset b raw _ (include_target_subset _ hi _ hm))
    obtain ⟨ev1, e1, c1⟩ := hF ht (hfs _)
    obtain ⟨ev2, e2, c2⟩ := ih hp (fun l hm => hl l (List.mem_cons_of_mem _ hm))
    refine ⟨ev1 ++ ev2, by rw [e2, e1, List.append_assoc], ?_⟩
    intro e he
    rw [List.mem_append] at he
    exact he.elim (c1 e) (c2 e)
  skip := fun _ _ _ _ _ _ _ _ _ _ ih hp hl =>
    ih hp (fun l hm => hl l (List.mem_cons_of_mem _ hm))
  once := fun _ _ _ _ _ _ _ _ _ _ ih hp hl =>
    ih hp (fun l hm => hl l (List.mem_cons_of_mem _ hm))
  ord := by
    intro d p b raw rest st st2 hi ho _ ih hp hl
    have hraw := hl raw (List.mem_cons_self _ _)
    obtain ⟨ev2, e2, c2⟩ := ih hp (fun l hm => hl l (List.mem_cons_of_mem _ hm))
    refine ⟨.ordinary (line_read b raw) :: ev2, by rw [e2]; simp, ?_⟩
    intro e he
    rw [List.mem_cons] at he
    rcases he with rfl | he
    · exact ⟨⟨hi, ho⟩, fun hm => hraw (line_read_subset b raw _ hm)⟩
    · exact c2 e he
  file := by
    intro d p input st out1 st2 out2 _ _ ih _ hp hl
    obtain ⟨evs, e2, c2⟩ := ih hp hl
    refine ⟨.begin_banner p :: (evs ++ [.end_banner p]), ?_, ?_⟩
    · simp only [write_banner_events] at e2 ⊢
      rw [e2]
      simp
    · intro e he
      simp only [List.mem_cons, List.mem_append, List.mem_singleton, List.not_mem_nil,
        or_false] at he
      rcases he with rfl | he | rfl
      · exact hp
      · exact c2 e he
      · exact hp


theorem open_lines_clean (fs : Files)
    (hfs : ∀ p ls, fs p = some ls → ∀ l ∈ ls, '\n' ∉ l) (p : Str) :
    ∀ l ∈ open_lines fs p, '\n' ∉ l := by
  intro l hl
  unfold open_lines at hl
  cases h : fs p with
  | none => simp [h] at hl
  | some ls =>
    rw [h] at hl
    exact hfs p ls h l hl

theorem fill_line_no_bom : ¬ utf8_bom <+: banner_fill_line := by
  rintro ⟨t, e⟩
  have h1 : (utf8_bom ++ t).head? = banner_fill_line.head? := by rw [e]
  have h2 : (utf8_bom ++ t).head? = some (Char.ofNat 0xEF) := rfl
  have h3 : banner_fill_line.head? = some '/' := rfl
  rw [h2, h3] at h1
  exact absurd h1 (by decide)

/-- The output of a run from an empty output, when the labels fit and no line or path holds
a newline: it is made of the lines `output_lines` of its events, each ending with a newline;
`std::getline` reads these lines back; none matches a pattern; the first is a banner line. -/
theorem output_flat (fs : Files) (depth : Nat) (root : Str) (lines : List Str)
    (seen : Finset Str) (st' : State)
    (hrun : parse_file fs depth root lines (State.fresh seen) = .done st')
    (hfit : ∀ e ∈ st'.events, e.fits)
    (hroot : '\n' ∉ root) (hlines : ∀ l ∈ lines, '\n' ∉ l)
    (hfs : ∀ p ls, fs p = some ls → ∀ l ∈ ls, '\n' ∉ l) :
    st'.output = ((get_lines st'.output).map (· ++ "\n".toList)).flatten ∧
    (∀ l ∈ get_lines st'.output, is_ordinary l) ∧
    lines_read (get_lines st'.output) = get_lines st'.output := by
  obtain ⟨ev1, e1, o1⟩ := (parse_induct fs (render_steps fs)).1 depth root lines _ st' hrun
  obtain ⟨ev2, e2, c2⟩ := (parse_induct fs (clean_steps fs (open_lines_clean fs hfs))).1 depth
    root lines _ st' hrun hroot hlines
  obtain ⟨inner, e3, _⟩ := (parse_induct fs (nested_steps fs)).1 depth root lines _ st' hrun
  simp only [State.fresh, List.nil_append] at e1 o1 e2 e3
  subst e1
  have hclean : ∀ e ∈ st'.events, e.clean := by
    rw [e2]
    exact c2
  have hok := output_lines_ok st'.events hclean
  have hout : st'.output = ((output_lines st'.events).map (· ++ "\n".toList)).flatten := by
    rw [o1]
    exact render_fits st'.events hfit
  have hget : get_lines st'.output = output_lines st'.events := by
    rw [hout]
    exact get_lines_flatten _ (fun l hl => (hok l hl).2)
  refine ⟨by rw [hget]; exact hout, ?_, ?_⟩
  · intro l hl
    rw [hget] at hl
    exact (hok l hl).1
  · rw [hget]
    apply lines_read_of_no_bom
    intro first rest hf
    rw [e3] at hf
    simp only [output_lines, event_lines, List.cons_append, List.cons.injEq] at hf
    rw [← hf.1]
    exact fill_line_no_bom

/-! ## Unfolding the run on the live file system -/

theorem parse_loop_os_zero (env : Env) (pi : Str → State → Result) (p : Str) (b : Bool)
    (input : Stream) (st : State) : parse_loop_os env pi p 0 b input st = .still_reading := rfl

theorem parse_loop_os_succ (env : Env) (pi : Str → State → Result) (p : Str) (n : Nat) (b : Bool)
    (input : Stream) (st : State) :
    parse_loop_os env pi p (n + 1) b input st =
      match getline env st.output input with
      | none => .done st
      | some (raw, next) =>
        if (is_local_include (line_read b raw)).successful = true then
          if (is_local_include (line_read b raw)).result ∉ st.alreadyIncluded then
            match pi (is_local_include (line_read b raw)).result st with
            | .done st1 => parse_loop_os env pi p n false next st1
            | .length_error => .length_error
            | .depth_exceeded => .depth_exceeded
            | .still_reading => .still_reading
          else parse_loop_os env pi p n false next st
        else if (is_pragma_once (line_read b raw)).successful = true then
          parse_loop_os env pi p n false next (st.emplace p)
        else parse_loop_os env pi p n false next (st.write_line (line_read b raw)) := rfl

theorem parse_file_os_zero (env : Env) (steps free : Nat) (p : Str) (input : Stream)
    (st : State) : parse_file_os env steps 0 free p input st = .depth_exceeded := rfl

theorem parse_include_os_eq (env : Env) (steps d free : Nat) :
    (fun includePath s => parse_file_os env steps d (free - 1) includePath
      (open_stream env free includePath) s) = parse_include_os env steps d free := rfl

theorem parse_file_os_succ (env : Env) (steps d free : Nat) (p : Str) (input : Stream)
    (st : State) :
    parse_file_os env steps (d + 1) free p input st =
      match generate_header st.output p with
      | none => .length_error
      | some out1 =>
        match parse_loop_os env (parse_include_os env steps d free) p (budget steps input) true
            input (st.write_banner out1 (.begin_banner p)) with
        | .done st2 =>
          match generate_header st2.output ("END ".toList ++ p) with
          | none => .length_error
          | some out2 => .done (st2.write_banner out2 (.end_banner p))
        | .length_error => .length_error
        | .depth_exceeded => .depth_exceeded
        | .still_reading => .still_reading := rfl


/-- Induction over the calls of a run on the live file system that returns. -/
theorem parse_induct_os (env : Env) (steps : Nat)
    {F : Nat → Nat → Str → Stream → State → State → Prop}
    {L : Nat → Nat → Str → Bool → Stream → State → State → Prop}
    (S : StepsOs env steps F L) :
    (∀ d f p input st st', parse_file_os env steps d f p input st = .done st' →
      F d f p input st st') ∧
    (∀ d f p n b input st st',
      parse_loop_os env (parse_include_os env steps d f) p n b input st = .done st' →
      L d f p b input st st') := by
  have loop : ∀ d, (∀ f p input st st', parse_file_os env steps d f p input st = .done st' →
        F d f p input st st') →
      ∀ (n : Nat) (f : Nat) (p : Str) (b : Bool) (input : Stream) (st st' : State),
        parse_loop_os env (parse_include_os env steps d f) p n b input st = .done st' →
        L d f p b input st st' := by
    intro d ih n
    induction n with
    | zero =>
      intro f p b input st st' h
      rw [parse_loop_os_zero] at h
      exact Result.noConfusion h
    | succ n ihl =>
      intro f p b input st st' h
      rw [parse_loop_os_succ] at h
      cases hg : getline env st.output input with
      | none =>
        rw [hg] at h
        cases h
        exact S.nil d f p b input st hg
      | some rn =>
        obtain ⟨raw, next⟩ := rn
        rw [hg] at h
        simp only at h
        by_cases hi : (is_local_include (line_read b raw)).successful = true
        · rw [if_pos hi] at h
          by_cases hm : (is_local_include (line_read b raw)).result ∈ st.alreadyIncluded
          · rw [if_neg (not_not.mpr hm)] at h
            exact S.skip d f p n b input raw next st st' hg hi hm h (ihl f p false next st st' h)
          · rw [if_pos hm] at h
            cases hc : parse_include_os env steps d f
                (is_local_include (line_read b raw)).result st with
            | done st1 =>
              rw [hc] at h
              exact S.inc d f p n b input raw next st st1 st' hg hi hm hc (ih _ _ _ _ _ hc) h
                (ihl f p false next st1 st' h)
            | length_error => rw [hc] at h; exact Result.noConfusion h
            | depth_exceeded => rw [hc] at h; exact Result.noConfusion h
            | still_reading => rw [hc] at h; exact Result.noConfusion h
        · rw [if_neg hi] at h
          have hi' : (is_local_include (line_read b raw)).successful = false := by
            simpa using hi
          by_cases ho : (is_pragma_once (line_read b raw)).successful = true
          · rw [if_pos ho] at h
            exact S.once d f p n b input raw next st st' hg hi' ho h (ihl f p false next _ st' h)
          · rw [if_neg ho] at h
            have ho' : (is_pragma_once (line_read b raw)).successful = false := by
              simpa using ho
            exact S.ord d f p n b input raw next st st' hg hi' ho' h
              (ihl f p false next _ st' h)
  have file : ∀ d f p input st st', parse_file_os env steps d f p input st = .done st' →
      F d f p input st st' := by
    intro d
    induction d with
    | zero =>
      intro f p input st st' h
      rw [parse_file_os_zero] at h
      exact Result.noConfusion h
    | succ d ih =>
      intro f p input st st' h
      rw [parse_file_os_succ] at h
      cases hg : generate_header st.output p with
      | none => rw [hg] at h; exact Result.noConfusion h
      | some out1 =>
        rw [hg] at h
        simp only at h
        cases hl : parse_loop_os env (parse_include_os env steps d f) p (budget steps input) true
            input (st.write_banner out1 (.begin_banner p)) with
        | done st2 =>
          rw [hl] at h
          simp only at h
          cases hg2 : generate_header st2.output ("END ".toList ++ p) with
          | none => rw [hg2] at h; exact Result.noConfusion h
          | some out2 =>
            rw [hg2] at h
            cases h
            exact S.file d f p input st out1 st2 out2 hg hl
              (loop d ih _ f p true input _ st2 hl) hg2
        | length_error => rw [hl] at h; exact Result.noConfusion h
        | depth_exceeded => rw [hl] at h; exact Result.noConfusion h
        | still_reading => rw [hl] at h; exact Result.noConfusion h
  exact ⟨file, fun d f p n b input st st' h => loop d (file d) n f p b input st st' h⟩



/-! ## Streams on ordinary files -/

theorem getline_lines_cons (env : Env) (out : Str) (l : Str) (rest : List Str) :
    getline env out (.lines (l :: rest)) = some (l, .lines rest) := rfl

theorem getline_lines_nil (env : Env) (out : Str) : getline env out (.lines []) = none := rfl

theorem getline_closed (env : Env) (out : Str) : getline env out .closed = none := rfl

theorem parse_loop_os_closed (env : Env) (pi : Str → State → Result) (p : Str) (n : Nat)
    (b : Bool) (st : State) : parse_loop_os env pi p (n + 1) b .closed st = .done st := by
  rw [parse_loop_os_succ, getline_closed]

theorem parse_loop_os_nil (env : Env) (pi : Str → State → Result) (p : Str) (n : Nat)
    (b : Bool) (st : State) : parse_loop_os env pi p (n + 1) b (.lines []) st = .done st := by
  rw [parse_loop_os_succ, getline_lines_nil]

theorem parse_loop_os_cons (env : Env) (pi : Str → State → Result) (p : Str) (n : Nat)
    (b : Bool) (raw : Str) (rest : List Str) (st : State) :
    parse_loop_os env pi p (n + 1) b (.lines (raw :: rest)) st =
      if (is_local_include (line_read b raw)).successful = true then
        if (is_local_include (line_read b raw)).result ∉ st.alreadyIncluded then
          match pi (is_local_include (line_read b raw)).result st with
          | .done st1 => parse_loop_os env pi p n false (.lines rest) st1
          | .length_error => .length_error
          | .depth_exceeded => .depth_exceeded
          | .still_reading => .still_reading
        else parse_loop_os env pi p n false (.lines rest) st
      else if (is_pragma_once (line_read b raw)).successful = true then
        parse_loop_os env pi p n false (.lines rest) (st.emplace p)
      else parse_loop_os env pi p n false (.lines rest) (st.write_line (line_read b raw)) := by
  rw [parse_loop_os_succ, getline_lines_cons]

/-- The stream an include opens on a file that is not the output file, while a descriptor is
free: it yields the lines of the file, none when the file is missing. -/
theorem open_stream_file (env : Env) (free : Nat) (p : Str) (hf : free ≠ 0)
    (hp : env.is_output p = false) :
    open_stream env free p = .lines (open_lines env.files p) ∨
      (open_stream env free p = .closed ∧ open_lines env.files p = []) := by
  unfold open_stream open_lines
  rw [if_neg hf, hp]
  cases env.files p with
  | none => exact Or.inr ⟨by simp, rfl⟩
  | some ls => exact Or.inl (by simp)

theorem open_stream_none (env : Env) (p : Str) : open_stream env 0 p = .closed := by
  simp [open_stream]

/-- The stream an include opens is closed, a stream on the lines of the file, or a stream on
the output file. -/
theorem open_stream_cases (env : Env) (free : Nat) (p : Str) :
    open_stream env free p = .closed ∨ open_stream env free p = .lines (open_lines env.files p) ∨
      (open_stream env free p = .live 0 ∧ env.is_output p = true) := by
  by_cases hf : free = 0
  · subst hf
    exact Or.inl (open_stream_none env p)
  · cases hp : env.is_output p with
    | false =>
      rcases open_stream_file env free p hf hp with h | h
      · exact Or.inr (Or.inl h)
      · exact Or.inl h.1
    | true =>
      refine Or.inr (Or.inr ⟨?_, rfl⟩)
      simp [open_stream, hf, hp]

/-- A loop on an ordinary file agrees with the loop on the fixed file map when the includes
it makes agree. -/
theorem parse_loop_os_lines (env : Env) (pi_os : Str → State → Result)
    (pi : Str → State → Outcome State) (p : Str) :
    ∀ (ls : List Str) (n : Nat) (b : Bool) (st : State), ls.length < n →
      (∀ l ∈ lines_from b ls, ∀ t, is_include_of l t → ∀ s, pi_os t s = Result.of (pi t s)) →
      parse_loop_os env pi_os p n b (.lines ls) st = Result.of (parse_loop pi p b ls st)
  | [], 0, _, _, h, _ => by simp at h
  | [], n + 1, b, st, _, _ => by
    rw [parse_loop_os_nil, parse_loop_nil]
    rfl
  | raw :: rest, 0, _, _, h, _ => by simp at h
  | raw :: rest, n + 1, b, st, h, hpi => by
    have ih : ∀ s, parse_loop_os env pi_os p n false (.lines rest) s =
        Result.of (parse_loop pi p false rest s) := fun s =>
      parse_loop_os_lines env pi_os pi p rest n false s (by simpa using h) (fun l hl => hpi l (by
        rw [lines_from_false] at hl
        rw [lines_from_cons]
        exact List.mem_cons_of_mem _ hl))
    rw [parse_loop_os_cons, parse_loop_cons]
    split
    · next hi =>
      split
      · rw [hpi (line_read b raw) (by rw [lines_from_cons]; exact List.mem_cons_self _ _) _
          ⟨hi, rfl⟩ st]
        cases pi (is_local_include (line_read b raw)).result st with
        | done st1 => exact ih st1
        | length_error => rfl
        | depth_exceeded => rfl
      · exact ih st
    · split
      · exact ih _
      · exact ih _

/-- While the descriptors last and no include chain reaches the output file, the run on the
live file system is the run on the fixed file map. -/
theorem parse_include_os_fixed (env : Env) (steps : Nat) :
    ∀ (depth free : Nat) (p : Str) (st : State), depth ≤ free →
      (∀ rest, List.Chain (Includes env.files) p rest →
        ∀ q ∈ p :: rest, env.is_output q = false) →
      parse_include_os env steps depth free p st =
        Result.of (parse_include env.files depth p st)
  | 0, _, _, _, _, _ => rfl
  | depth + 1, free, p, st, hd, hout => by
    have hp : env.is_output p = false := hout [] List.Chain.nil p (List.mem_cons_self _ _)
    have hsub : ∀ l ∈ lines_from true (open_lines env.files p), ∀ t, is_include_of l t →
        ∀ s, parse_include_os env steps depth (free - 1) t s =
          Result.of (parse_include env.files depth t s) := by
      intro l hl t ht s
      exact parse_include_os_fixed env steps depth (free - 1) t s (by omega) (by
        intro rest hr q hq
        exact hout (t :: rest) (List.Chain.cons ⟨l, hl, ht⟩ hr) q (List.mem_cons_of_mem _ hq))
    have hloop : ∀ s, parse_loop_os env (parse_include_os env steps depth (free - 1)) p
        (budget steps (open_stream env free p)) true (open_stream env free p) s =
        Result.of (parse_loop (parse_include env.files depth) p true (open_lines env.files p) s) := by
      intro s
      rcases open_stream_file env free p (by omega) hp with h | ⟨h, h0⟩
      · rw [h]
        exact parse_loop_os_lines env _ _ p _ _ true s (by simp [budget]) hsub
      · rw [h, h0, parse_loop_nil]
        exact parse_loop_os_closed env _ p 0 true s
    unfold parse_include_os
    rw [parse_include_eq, parse_file_os_succ, parse_file_succ]
    cases generate_header st.output p with
    | none => rfl
    | some out1 =>
      simp only
      rw [hloop]
      cases parse_loop (parse_include env.files depth) p true (open_lines env.files p)
          (st.write_banner out1 (.begin_banner p)) with
      | done st2 =>
        simp only [Result.of]
        cases generate_header st2.output ("END ".toList ++ p) with
        | none => rfl
        | some out2 => rfl
      | length_error => rfl
      | depth_exceeded => rfl



/-! ## Include cycles on the live file system -/

theorem closes_cycle_cons (cycle : List Str) (line : Str) (rest : List Str)
    (h : ClosesCycle cycle (line :: rest)) :
    (∃ q ∈ cycle, is_include_of line q) ∨ (¬ is_once line ∧ ClosesCycle cycle rest) := by
  obtain ⟨pre, inc, post, q, e, hpre, hq, hinc⟩ := h
  cases pre with
  | nil =>
    simp only [List.nil_append, List.cons.injEq] at e
    exact Or.inl ⟨q, hq, e.1 ▸ hinc⟩
  | cons x pre' =>
    simp only [List.cons_append, List.cons.injEq] at e
    exact Or.inr ⟨e.1 ▸ hpre x (List.mem_cons_self _ _), pre', inc, post, q, e.2,
      fun y hy => hpre y (List.mem_cons_of_mem _ hy), hq, hinc⟩

theorem closes_cycle_ne_nil (cycle : List Str) (b : Bool) (h : ClosesCycle cycle (lines_from b [])) :
    False := by
  obtain ⟨pre, inc, post, q, e, _⟩ := h
  cases b <;> cases pre <;> simp [lines_from] at e

/-- The line read from a stream on a file that goes on to a file of `cycle` is an include of a
file of `cycle`, or it is no once-directive and the rest of the file goes on to one. -/
theorem cycle_next (env : Env) (cycle : List Str) (b : Bool) (input : Stream) (raw : Str)
    (next : Stream) (out : Str) (hg : getline env out input = some (raw, next))
    (hs : ∃ ls, input = .lines ls ∧ ClosesCycle cycle (lines_from b ls)) :
    (∃ q ∈ cycle, is_include_of (line_read b raw) q) ∨
      (¬ is_once (line_read b raw) ∧
        ∃ ls, next = .lines ls ∧ ClosesCycle cycle (lines_from false ls)) := by
  obtain ⟨ls, rfl, hc⟩ := hs
  cases ls with
  | nil => exact absurd hc (closes_cycle_ne_nil cycle b)
  | cons x rest =>
    rw [getline_lines_cons] at hg
    simp only [Option.some.injEq, Prod.mk.injEq] at hg
    obtain ⟨rfl, rfl⟩ := hg
    rw [lines_from_cons] at hc
    rcases closes_cycle_cons cycle _ _ hc with h | ⟨h1, h2⟩
    · exact Or.inl h
    · exact Or.inr ⟨h1, rest, rfl, by rw [lines_from_false]; exact h2⟩

/-- A run started with every file of `cycle` outside the set, where every file of `cycle` goes
on to a file of `cycle` before any once-directive of its own, and where the descriptors last
for the depth bound: no call on a file of `cycle` returns, and the files of `cycle` stay
outside the set. -/
theorem cycle_os_steps (env : Env) (steps : Nat) (cycle : List Str)
    (hcyc : ∀ p ∈ cycle, env.is_output p = false ∧
      ClosesCycle cycle (lines_read (open_lines env.files p))) :
    StepsOs env steps
      (fun d f p input st st' => d ≤ f + 1 → (∀ c ∈ cycle, c ∉ st.alreadyIncluded) →
        (p ∈ cycle → ∃ ls, input = .lines ls ∧ ClosesCycle cycle (lines_read ls)) →
        p ∉ cycle ∧ ∀ c ∈ cycle, c ∉ st'.alreadyIncluded)
      (fun d f p b input st st' => d ≤ f → (∀ c ∈ cycle, c ∉ st.alreadyIncluded) →
        (p ∈ cycle → ∃ ls, input = .lines ls ∧ ClosesCycle cycle (lines_from b ls)) →
        p ∉ cycle ∧ ∀ c ∈ cycle, c ∉ st'.alreadyIncluded) where
  nil := by
    intro d f p b input st hg _ hf hs
    refine ⟨?_, hf⟩
    intro hp
    obtain ⟨ls, rfl, hc⟩ := hs hp
    cases ls with
    | nil => exact closes_cycle_ne_nil cycle b hc
    | cons x rest => rw [getline_lines_cons] at hg; exact Option.noConfusion hg
  inc := by
    intro d f p n b input raw next st st1 st2 hg hi _ hc hF _ ih hd hf hs
    have hd0 : d ≠ 0 := by
      rintro rfl
      exact Result.noConfusion hc
    have h1 := hF (by omega) hf (by
      intro ht
      obtain ⟨hout, hcl⟩ := hcyc _ ht
      rcases open_stream_file env f _ (by omega) hout with h | ⟨_, h0⟩
      · exact ⟨_, h, hcl⟩
      · rw [h0] at hcl
        exact absurd hcl (closes_cycle_ne_nil cycle true))
    refine ih hd h1.2 ?_
    intro hp
    rcases cycle_next env cycle b input raw next _ hg (hs hp) with ⟨q, hq, hinc⟩ | ⟨_, h⟩
    · exact absurd (hinc.2 ▸ hq) h1.1
    · exact h
  skip := by
    intro d f p n b input raw next st st2 hg _ hm _ ih hd hf hs
    refine ih hd hf ?_
    intro hp
    rcases cycle_next env cycle b input raw next _ hg (hs hp) with ⟨q, hq, hinc⟩ | ⟨_, h⟩
    · exact absurd (hinc.2 ▸ hm) (hf q hq)
    · exact h
  once := by
    intro d f p n b input raw next st st2 hg hi ho _ ih hd hf hs
    have hpn : p ∉ cycle := by
      intro hp
      rcases cycle_next env cycle b input raw next _ hg (hs hp) with ⟨q, _, hinc⟩ | ⟨h, _⟩
      · have := hinc.1
        rw [hi] at this
        exact Bool.noConfusion this
      · exact h ho
    refine ih hd ?_ (fun hp => absurd hp hpn)
    intro c hc
    simp only [emplace_seen, Finset.mem_insert, not_or]
    exact ⟨fun e => hpn (e ▸ hc), hf c hc⟩
  ord := by
    intro d f p n b input raw next st st2 hg hi _ _ ih hd hf hs
    refine ih hd hf ?_
    intro hp
    rcases cycle_next env cycle b input raw next _ hg (hs hp) with ⟨q, _, hinc⟩ | ⟨_, h⟩
    · have := hinc.1
      rw [hi] at this
      exact Bool.noConfusion this
    · exact h
  file := by
    intro d f p input st out1 st2 out2 _ _ ih _ hd hf hs
    exact ih (by omega) hf hs

/-- A file of such a cycle does not return from its expansion within a depth bound that the
free descriptors cover. -/
theorem cycle_os_never_returns (env : Env) (steps : Nat) (cycle : List Str)
    (hcyc : ∀ p ∈ cycle, env.is_output p = false ∧
      ClosesCycle cycle (lines_read (open_lines env.files p)))
    (F : Str) (hF : F ∈ cycle) (st : State) (hst : ∀ c ∈ cycle, c ∉ st.alreadyIncluded)
    (n k : Nat) (hn : n ≤ k) (st' : State) :
    parse_include_os env steps n k F st ≠ .done st' := by
  intro h
  have hn0 : n ≠ 0 := by
    rintro rfl
    exact Result.noConfusion h
  have := (parse_induct_os env steps (cycle_os_steps env steps cycle hcyc)).1 n (k - 1) F
    (open_stream env k F) st st' h (by omega) hst (by
      intro _
      obtain ⟨hout, hcl⟩ := hcyc F hF
      rcases open_stream_file env k F (by omega) hout with h | ⟨_, h0⟩
      · exact ⟨_, h, hcl⟩
      · rw [h0] at hcl
        exact absurd hcl (closes_cycle_ne_nil cycle true))
  exact this.1 hF



/-! ## Runs that exceed or keep the depth bound, on the live file system -/

/-- A loop on an ordinary file that reads ordinary lines and then an include line of a target
whose expansion does not return ends as that expansion does; `P` is a property of the state
that the ordinary lines keep and under which the target is outside the set. -/
theorem parse_loop_os_stuck (env : Env) (pi : Str → State → Result) (p target : Str)
    (inc : Str) (post : List Str) (r : Result) (P : State → Prop)
    (hinc : is_include_of inc target) (hr : ∀ s, r ≠ .done s)
    (hP : ∀ s l, P s → P (s.write_line l))
    (hpi : ∀ s, P s → target ∉ s.alreadyIncluded ∧ pi target s = r) :
    ∀ (pre lines : List Str) (n : Nat) (b : Bool) (st : State), lines.length < n →
      lines_from b lines = pre ++ inc :: post →
      (∀ l ∈ pre, is_ordinary l) → P st →
      parse_loop_os env pi p n b (.lines lines) st = r
  | _, _, 0, _, _, h, _, _, _ => by simp at h
  | [], [], _ + 1, b, _, _, e, _, _ => by cases b <;> simp [lines_from] at e
  | [], raw :: rest, n + 1, b, st, _, e, _, hn => by
    rw [lines_from_cons] at e
    simp only [List.nil_append, List.cons.injEq] at e
    have hi : is_include_of (line_read b raw) target := e.1 ▸ hinc
    rw [parse_loop_os_cons, if_pos hi.1, if_pos (by rw [hi.2]; exact (hpi st hn).1), hi.2,
      (hpi st hn).2]
    cases r with
    | done s => exact absurd rfl (hr s)
    | length_error => rfl
    | depth_exceeded => rfl
    | still_reading => rfl
  | x :: pre, [], _ + 1, b, _, _, e, _, _ => by cases b <;> simp [lines_from] at e
  | x :: pre, raw :: rest, n + 1, b, st, hlen, e, ho, hn => by
    rw [lines_from_cons] at e
    simp only [List.cons_append, List.cons.injEq] at e
    have hx : is_ordinary (line_read b raw) := e.1 ▸ ho x (List.mem_cons_self _ _)
    rw [parse_loop_os_cons, if_neg (by simp [hx.1]), if_neg (by simp [hx.2])]
    exact parse_loop_os_stuck env pi p target inc post r P hinc hr hP hpi pre rest n false _
      (by simpa using hlen) (by rw [lines_from_false]; exact e.2)
      (fun l hl => ho l (List.mem_cons_of_mem _ hl)) (hP st _ hn)

/-- The files of an include cycle whose paths have at most 116 bytes and that read ordinary
lines only before the include line that goes on along the cycle exceed every depth bound
that the free descriptors cover. -/
theorem cycle_os_exceeds (env : Env) (steps : Nat) (cycle : List Str)
    (hcyc : ∀ p ∈ cycle, p.length ≤ 116 ∧ env.is_output p = false ∧
      ∃ pre inc post q, lines_read (open_lines env.files p) = pre ++ inc :: post ∧
        (∀ l ∈ pre, is_ordinary l) ∧ q ∈ cycle ∧ is_include_of inc q) :
    ∀ (n k : Nat) (F : Str) (st : State), n ≤ k → F ∈ cycle →
      (∀ c ∈ cycle, c ∉ st.alreadyIncluded) →
      parse_include_os env steps n k F st = .depth_exceeded
  | 0, _, _, _, _, _, _ => rfl
  | n + 1, k, F, st, hk, hF, hst => by
    obtain ⟨hlen, hout, pre, inc, post, q, hlines, hpre, hq, hinc⟩ := hcyc F hF
    have hopen : open_stream env k F = .lines (open_lines env.files F) := by
      rcases open_stream_file env k F (by omega) hout with h | ⟨_, h0⟩
      · exact h
      · rw [h0] at hlines
        cases pre <;> simp [lines_read, lines_from] at hlines
    unfold parse_include_os
    rw [hopen, parse_file_os_succ, generate_header_fits _ _ hlen]
    simp only
    rw [parse_loop_os_stuck env (parse_include_os env steps n (k - 1)) F q inc post
      .depth_exceeded (fun s => ∀ c ∈ cycle, c ∉ s.alreadyIncluded) hinc
      (fun s h => Result.noConfusion h) (fun s l h => h)
      (fun s hs => ⟨hs q hq, cycle_os_exceeds env steps cycle hcyc n (k - 1) q s (by omega) hq hs⟩)
      pre (open_lines env.files F) _ true
      (st.write_banner (st.output ++ banner F) (.begin_banner F)) (by simp [budget])
      hlines hpre hst]

/-- A loop on an ordinary file that reads ordinary lines only, apart from include lines
whose expansion returns and leaves the set as it is, returns. -/
theorem parse_loop_os_returns (env : Env) (pi : Str → State → Result) (p : Str) :
    ∀ (ls : List Str) (n : Nat) (b : Bool) (st : State), ls.length < n →
      (∀ l ∈ lines_from b ls, ∀ t, is_include_of l t → ∀ s, ∃ s', pi t s = .done s') →
      ∃ st', parse_loop_os env pi p n b (.lines ls) st = .done st'
  | _, 0, _, _, h, _ => by simp at h
  | [], n + 1, b, st, _, _ => ⟨st, parse_loop_os_nil env pi p n b st⟩
  | raw :: rest, n + 1, b, st, hlen, h => by
    have ih : ∀ s, ∃ st', parse_loop_os env pi p n false (.lines rest) s = .done st' := fun s =>
      parse_loop_os_returns env pi p rest n false s (by simpa using hlen) (fun l hl => h l (by
        rw [lines_from_false] at hl
        rw [lines_from_cons]
        exact List.mem_cons_of_mem _ hl))
    rw [parse_loop_os_cons]
    split
    · next hi =>
      split
      · obtain ⟨s', hs⟩ := h (line_read b raw)
          (by rw [lines_from_cons]; exact List.mem_cons_self _ _) _ ⟨hi, rfl⟩ st
        rw [hs]
        exact ih s'
      · exact ih st
    · split
      · exact ih _
      · exact ih _

/-- A loop on an ordinary file stays within the depth bound, and is not left reading, when
the includes it makes do so. -/
theorem parse_loop_os_within (env : Env) (pi : Str → State → Result) (p : Str) :
    ∀ (ls : List Str) (n : Nat) (b : Bool) (st : State), ls.length < n →
      (∀ l ∈ lines_from b ls, ∀ t, is_include_of l t →
        ∀ s, pi t s ≠ .depth_exceeded ∧ pi t s ≠ .still_reading) →
      parse_loop_os env pi p n b (.lines ls) st ≠ .depth_exceeded ∧
        parse_loop_os env pi p n b (.lines ls) st ≠ .still_reading
  | _, 0, _, _, h, _ => by simp at h
  | [], n + 1, b, st, _, _ => by
    rw [parse_loop_os_nil]
    exact ⟨fun h => Result.noConfusion h, fun h => Result.noConfusion h⟩
  | raw :: rest, n + 1, b, st, hlen, h => by
    have ih : ∀ s, parse_loop_os env pi p n false (.lines rest) s ≠ .depth_exceeded ∧
        parse_loop_os env pi p n false (.lines rest) s ≠ .still_reading := fun s =>
      parse_loop_os_within env pi p rest n false s (by simpa using hlen) (fun l hl => h l (by
        rw [lines_from_false] at hl
        rw [lines_from_cons]
        exact List.mem_cons_of_mem _ hl))
    rw [parse_loop_os_cons]
    split
    · next hi =>
      split
      · have hpi := h (line_read b raw) (by rw [lines_from_cons]; exact List.mem_cons_self _ _)
          _ ⟨hi, rfl⟩ st
        cases hc : pi (is_local_include (line_read b raw)).result st with
        | done st1 => exact ih st1
        | length_error => exact ⟨fun h => Result.noConfusion h, fun h => Result.noConfusion h⟩
        | depth_exceeded => exact absurd hc hpi.1
        | still_reading => exact absurd hc hpi.2
      · exact ih st
    · split
      · exact ih _
      · exact ih _

/-- A run whose include chains from the root have at most `h` files and do not reach the
output file stays within the depth bound `h` and is not left reading, whatever the number of
free descriptors; it returns when the paths on these chains have at most 112 bytes. -/
theorem parse_include_os_within (env : Env) (steps : Nat) :
    ∀ (h free : Nat) (root : Str) (st : State),
      (∀ rest, List.Chain (Includes env.files) root rest → rest.length + 1 ≤ h) →
      (∀ rest, List.Chain (Includes env.files) root rest →
        ∀ p ∈ root :: rest, env.is_output p = false) →
      parse_include_os env steps h free root st ≠ .depth_exceeded ∧
      parse_include_os env steps h free root st ≠ .still_reading ∧
      ((∀ rest, List.Chain (Includes env.files) root rest → ∀ p ∈ root :: rest, p.length ≤ 112) →
        ∃ st', parse_include_os env steps h free root st = .done st')
  | 0, _, root, st, hc, _ => by
    have := hc [] List.Chain.nil
    omega
  | h + 1, free, root, st, hc, hout => by
    have hroot : env.is_output root = false :=
      hout [] List.Chain.nil root (List.mem_cons_self _ _)
    have sub : ∀ t, Includes env.files root t →
        (∀ rest, List.Chain (Includes env.files) t rest → rest.length + 1 ≤ h) ∧
        (∀ rest, List.Chain (Includes env.files) t rest →
          ∀ p ∈ t :: rest, env.is_output p = false) := by
      intro t ht
      refine ⟨?_, ?_⟩
      · intro rest hr
        have := hc (t :: rest) (List.Chain.cons ht hr)
        simp only [List.length_cons] at this
        omega
      · intro rest hr p hp
        exact hout (t :: rest) (List.Chain.cons ht hr) p (List.mem_cons_of_mem _ hp)
    have edge : ∀ l ∈ lines_from true (open_lines env.files root), ∀ t, is_include_of l t →
        Includes env.files root t := fun l hl t ht => ⟨l, hl, ht⟩
    have hstream : open_stream env free root = .closed ∨
        open_stream env free root = .lines (open_lines env.files root) := by
      rcases open_stream_cases env free root with h | h | ⟨_, h⟩
      · exact Or.inl h
      · exact Or.inr h
      · rw [hroot] at h
        exact Bool.noConfusion h
    have hwithin : ∀ s, parse_loop_os env (parse_include_os env steps h (free - 1)) root
        (budget steps (open_stream env free root)) true (open_stream env free root) s ≠
          .depth_exceeded ∧
        parse_loop_os env (parse_include_os env steps h (free - 1)) root
        (budget steps (open_stream env free root)) true (open_stream env free root) s ≠
          .still_reading := by
      intro s
      rcases hstream with e | e
      · rw [e]
        show parse_loop_os env _ root (0 + 1) true .closed s ≠ _ ∧
          parse_loop_os env _ root (0 + 1) true .closed s ≠ _
        rw [parse_loop_os_closed]
        exact ⟨fun h => Result.noConfusion h, fun h => Result.noConfusion h⟩
      · rw [e]
        exact parse_loop_os_within env _ root _ _ true s (by simp [budget])
          (fun l hl t ht s' =>
            have r := parse_include_os_within env steps h (free - 1) t s'
              (sub t (edge l hl t ht)).1 (sub t (edge l hl t ht)).2
            ⟨r.1, r.2.1⟩)
    refine ⟨?_, ?_, ?_⟩
    · unfold parse_include_os
      rw [parse_file_os_succ]
      split
      · exact fun h => Result.noConfusion h
      · next out1 _ =>
        have := hwithin (st.write_banner out1 (.begin_banner root))
        split
        · split
          · exact fun h => Result.noConfusion h
          · exact fun h => Result.noConfusion h
        · exact fun h => Result.noConfusion h
        · next hd => exact absurd hd this.1
        · exact fun h => Result.noConfusion h
    · unfold parse_include_os
      rw [parse_file_os_succ]
      split
      · exact fun h => Result.noConfusion h
      · next out1 _ =>
        have := hwithin (st.write_banner out1 (.begin_banner root))
        split
        · split
          · exact fun h => Result.noConfusion h
          · exact fun h => Result.noConfusion h
        · exact fun h => Result.noConfusion h
        · exact fun h => Result.noConfusion h
        · next hd => exact absurd hd this.2
    · intro hfit
      have hlen : root.length ≤ 112 := hfit [] List.Chain.nil root (List.mem_cons_self _ _)
      have hl : ∀ s, ∃ s', parse_loop_os env (parse_include_os env steps h (free - 1)) root
          (budget steps (open_stream env free root)) true (open_stream env free root) s =
            .done s' := by
        intro s
        rcases hstream with e | e
        · rw [e]
          exact ⟨s, parse_loop_os_closed env _ root 0 true s⟩
        · rw [e]
          exact parse_loop_os_returns env _ root _ _ true s (by simp [budget])
            (fun l hl t ht s' =>
              (parse_include_os_within env steps h (free - 1) t s'
                (sub t (edge l hl t ht)).1 (sub t (edge l hl t ht)).2).2.2 (by
                  intro rest hr p hp
                  exact hfit (t :: rest) (List.Chain.cons (edge l hl t ht) hr) p
                    (List.mem_cons_of_mem _ hp)))
      unfold parse_include_os
      rw [parse_file_os_succ, generate_header_fits _ _ (by omega)]
      simp only
      obtain ⟨s', hs⟩ := hl (st.write_banner (st.output ++ banner root) (.begin_banner root))
      rw [hs]
      simp only
      rw [generate_header_fits _ _ (by simp; omega)]
      exact ⟨_, rfl⟩



/-! ## Reading the output file while it is written -/

theorem text_of_nil : text_of [] = [] := rfl

theorem text_of_cons (l : Str) (ls : List Str) :
    text_of (l :: ls) = l ++ '\n' :: text_of ls := by
  simp [text_of]

theorem text_of_append (a b : List Str) : text_of (a ++ b) = text_of a ++ text_of b := by
  simp [text_of]

theorem text_of_length_cons (l : Str) (ls : List Str) :
    (text_of (l :: ls)).length = l.length + 1 + (text_of ls).length := by
  rw [text_of_cons]
  simp
  omega

theorem text_of_length_append (a b : List Str) :
    (text_of (a ++ b)).length = (text_of a).length + (text_of b).length := by
  rw [text_of_append, List.length_append]

theorem text_of_length_replicate (l : Str) :
    ∀ m : Nat, (text_of (List.replicate m l)).length = m * (l.length + 1)
  | 0 => by simp [text_of]
  | m + 1 => by
    rw [List.replicate_succ, text_of_length_cons, text_of_length_replicate l m]
    rw [Nat.succ_mul]
    omega

theorem take_while_line (l : Str) (rest : Str) (h : '\n' ∉ l) :
    (l ++ '\n' :: rest).takeWhile (fun c => decide (c ≠ '\n')) = l := by
  induction l with
  | nil => simp [List.takeWhile]
  | cons c cs ih =>
    have hc : c ≠ '\n' := fun e => h (e ▸ List.mem_cons_self _ _)
    have hcs : '\n' ∉ cs := fun hm => h (List.mem_cons_of_mem _ hm)
    have := ih hcs
    rw [List.cons_append, List.takeWhile_cons, if_pos (by simpa using hc), this]

/-- The call of `std::getline` on the output file when the line at the position of the
stream has reached the file with its newline: the call reads that line. -/
theorem getline_live (env : Env) (pre : List Str) (l : Str) (suf : List Str) (hl : '\n' ∉ l)
    (hv : (text_of pre).length + l.length + 1 ≤ env.visible (text_of (pre ++ l :: suf))) :
    getline env (text_of (pre ++ l :: suf)) (.live (text_of pre).length) =
      some (l, .live ((text_of pre).length + l.length + 1)) := by
  obtain ⟨m, hm⟩ : ∃ m, env.visible (text_of (pre ++ l :: suf)) =
      (text_of pre).length + ((l ++ ['\n']).length + m) :=
    ⟨env.visible (text_of (pre ++ l :: suf)) - ((text_of pre).length + l.length + 1), by
      simp
      omega⟩
  have havail : ((text_of (pre ++ l :: suf)).take (env.visible (text_of (pre ++ l :: suf)))).drop
      (text_of pre).length = l ++ '\n' :: (text_of suf).take m := by
    rw [hm, text_of_append, text_of_cons, List.take_append, List.drop_left]
    have e : l ++ '\n' :: text_of suf = (l ++ ['\n']) ++ text_of suf := by simp
    rw [e, List.take_append]
    simp
  unfold getline
  simp only [havail]
  rw [if_neg (by simp), if_pos (by simp), take_while_line l _ hl]

theorem good_line_read (b : Bool) (l : Str) (h : GoodLine l) : line_read b l = l := by
  cases b with
  | false => rfl
  | true => exact line_read_no_bom l h.2.2.2

/-- A loop on the output file never ends once the bytes written after the position of the
stream exceed what the buffer holds by a line: it reads a line, writes it back, and is as far
from the end as before. -/
theorem parse_loop_os_live (env : Env) (pi : Str → State → Result) (p : Str) (B : Nat)
    (hlag : ∀ out, out.length < env.visible out + B) :
    ∀ (n : Nat) (b : Bool) (pre suf : List Str) (st : State),
      st.output = text_of (pre ++ suf) → (∀ l ∈ suf, GoodLine l) →
      B + 118 ≤ (text_of suf).length →
      parse_loop_os env pi p n b (.live (text_of pre).length) st = .still_reading
  | 0, _, _, _, _, _, _, _ => rfl
  | n + 1, b, pre, [], st, _, _, hlen => by
    simp [text_of] at hlen
  | n + 1, b, pre, l :: suf, st, hout, hgood, hlen => by
    have hl : GoodLine l := hgood l (List.mem_cons_self _ _)
    have hv : (text_of pre).length + l.length + 1 ≤ env.visible (text_of (pre ++ l :: suf)) := by
      have h1 := hlag (text_of (pre ++ l :: suf))
      rw [text_of_length_append] at h1
      have h2 := hl.2.2.1
      omega
    rw [parse_loop_os_succ, hout, getline_live env pre l suf hl.2.1 hv]
    simp only
    rw [good_line_read b l hl, if_neg (by simp [hl.1.1]), if_neg (by simp [hl.1.2])]
    have hpos : (text_of pre).length + l.length + 1 = (text_of (pre ++ [l])).length := by
      rw [text_of_length_append, text_of_length_cons]
      simp [text_of]
      omega
    rw [hpos]
    refine parse_loop_os_live env pi p B hlag n false (pre ++ [l]) (suf ++ [l]) _ ?_ ?_ ?_
    · simp [State.write_line, hout, text_of]
    · intro x hx
      rcases List.mem_append.mp hx with h | h
      · exact hgood x (List.mem_cons_of_mem _ h)
      · rw [List.mem_singleton] at h
        exact h ▸ hl
    · rw [text_of_length_append, text_of_length_cons] at *
      simp [text_of] at *
      omega

theorem banner_text (p : Str) :
    banner p ++ "\n".toList =
      text_of [banner_fill_line, banner_label_line p, banner_fill_line, []] := by
  simp [banner, text_of]

theorem fill_line_good : GoodLine banner_fill_line :=
  ⟨fill_line_ok.1, fill_line_ok.2, by decide, fill_line_no_bom⟩

theorem banner_label_line_length (p : Str) (h : p.length ≤ 116) :
    (banner_label_line p).length = 118 := by
  simp [banner_label_line]
  omega

theorem label_line_good (p : Str) (hn : '\n' ∉ p) (h : p.length ≤ 116) :
    GoodLine (banner_label_line p) := by
  refine ⟨(label_line_ok p hn).1, (label_line_ok p hn).2,
    by rw [banner_label_line_length p h], ?_⟩
  rintro ⟨t, e⟩
  have h1 : (utf8_bom ++ t).head? = (banner_label_line p).head? := by rw [e]
  have h2 : (utf8_bom ++ t).head? = some (Char.ofNat 0xEF) := rfl
  have h3 : (banner_label_line p).head? = some '/' := rfl
  rw [h2, h3] at h1
  exact absurd h1 (by decide)

theorem empty_line_good : GoodLine [] :=
  ⟨empty_line_ok.1, empty_line_ok.2, by simp, by
    rintro ⟨t, e⟩
    simp [utf8_bom] at e⟩

theorem banner_lines_good (p : Str) (hn : '\n' ∉ p) (h : p.length ≤ 116) :
    ∀ l ∈ [banner_fill_line, banner_label_line p, banner_fill_line, []], GoodLine l := by
  intro l hl
  simp only [List.mem_cons, List.mem_singleton, List.not_mem_nil, or_false] at hl
  rcases hl with rfl | rfl | rfl | rfl
  · exact fill_line_good
  · exact label_line_good p hn h
  · exact fill_line_good
  · exact empty_line_good

/-- The expansion of the output file never ends once the output holds good lines only and
more bytes than the buffer holds by a line. -/
theorem parse_file_os_live (env : Env) (steps d free : Nat) (p : Str) (B : Nat)
    (hlag : ∀ out, out.length < env.visible out + B) (hn : '\n' ∉ p) (hp : p.length ≤ 116)
    (ls : List Str) (st : State) (hout : st.output = text_of ls) (hgood : ∀ l ∈ ls, GoodLine l)
    (hlen : B + 118 ≤ (text_of ls).length) :
    parse_file_os env steps (d + 1) free p (.live 0) st = .still_reading := by
  rw [parse_file_os_succ, generate_header_fits _ _ hp]
  simp only
  have h := parse_loop_os_live env (parse_include_os env steps d free) p B hlag
    (budget steps (.live 0)) true []
    (ls ++ [banner_fill_line, banner_label_line p, banner_fill_line, []])
    (st.write_banner (st.output ++ banner p) (.begin_banner p))
    (by
      simp only [write_banner_output, List.nil_append]
      rw [text_of_append, List.append_assoc, banner_text, hout])
    (by
      intro l hl
      rcases List.mem_append.mp hl with h | h
      · exact hgood l h
      · exact banner_lines_good p hn hp l h)
    (by
      rw [text_of_length_append]
      omega)
  rw [text_of_nil, List.length_nil] at h
  rw [h]



/-! ## Example runs on the live file system -/

/-- A loop on an ordinary file writes the ordinary lines it starts with one after the
other. -/
theorem parse_loop_os_ordinary (env : Env) (pi : Str → State → Result) (p : Str)
    (rest : List Str) (n : Nat) :
    ∀ (pre : List Str) (st : State),
      (∀ l ∈ pre, is_ordinary l) →
      parse_loop_os env pi p (pre.length + n) false (.lines (pre ++ rest)) st =
        parse_loop_os env pi p n false (.lines rest)
          { output := st.output ++ text_of pre,
            alreadyIncluded := st.alreadyIncluded,
            events := st.events ++ pre.map Event.ordinary }
  | [], st, _ => by simp [text_of]
  | l :: pre, st, h => by
    have hl := h l (List.mem_cons_self _ _)
    have e : (l :: pre).length + n = (pre.length + n) + 1 := by
      simp only [List.length_cons]
      omega
    rw [e, List.cons_append, parse_loop_os_cons, line_read_false, if_neg (by simp [hl.1]),
      if_neg (by simp [hl.2]),
      parse_loop_os_ordinary env pi p rest n pre _ (fun x hx => h x (List.mem_cons_of_mem _ hx))]
    simp [State.write_line, text_of, List.append_assoc]

theorem wide_line_good : GoodLine wide_line := by
  refine ⟨?_, ?_, by decide, ?_⟩
  · exact no_match_of_first 'x' (List.replicate 99 'x') (by decide) (by decide)
  · simp [wide_line, List.mem_replicate]
  · rintro ⟨t, e⟩
    have h1 : (utf8_bom ++ t).head? = wide_line.head? := by rw [e]
    have h2 : (utf8_bom ++ t).head? = some (Char.ofNat 0xEF) := rfl
    have h3 : wide_line.head? = some 'x' := rfl
    rw [h2, h3] at h1
    exact absurd h1 (by decide)

theorem class_include_output :
    is_local_include include_output = { successful := true, result := output_name } := by
  rfl

/-- The root file of `files_big` includes the output file after more bytes than an 8 KiB
buffer holds: when two descriptors are free, the run reads back the lines it writes and is
still reading them after any number of lines. -/
theorem reads_own_output (env : Env) (hfiles : env.files = files_big)
    (hout : env.is_output output_name = true) (hin : env.is_output input_name = false)
    (hlag : ∀ out, out.length < env.visible out + 8192) (steps d free : Nat)
    (hfree : 2 ≤ free) :
    parse_include_os env steps (d + 2) free input_name initial = .still_reading := by
  have hopen : open_stream env free input_name =
      .lines (List.replicate 100 wide_line ++ [include_output]) := by
    unfold open_stream
    rw [if_neg (by omega), hin, hfiles]
    rfl
  have hopen2 : open_stream env (free - 1) output_name = .live 0 := by
    unfold open_stream
    rw [if_neg (by omega), hout]
    rfl
  have hb : budget steps (Stream.lines (List.replicate 100 wide_line ++ [include_output])) =
      (List.replicate 100 wide_line).length + 2 := by
    simp [budget]
  have hfirst : ∀ (pi : Str → State → Result) (n : Nat) (ls : List Str) (st : State),
      parse_loop_os env pi input_name n true (.lines (List.replicate 100 wide_line ++ ls)) st =
      parse_loop_os env pi input_name n false (.lines (List.replicate 100 wide_line ++ ls)) st := by
    intro pi n ls st
    cases n with
    | zero => rfl
    | succ n =>
      have e : List.replicate 100 wide_line ++ ls =
          wide_line :: (List.replicate 99 wide_line ++ ls) := rfl
      rw [e, parse_loop_os_cons, parse_loop_os_cons, good_line_read true _ wide_line_good,
        line_read_false]
  unfold parse_include_os
  rw [hopen, parse_file_os_succ, generate_header_fits _ _ (by decide)]
  simp only
  rw [hb, hfirst, parse_loop_os_ordinary env _ input_name [include_output] 2 _ _
    (fun l hl => by rw [List.eq_of_mem_replicate hl]; exact wide_line_good.1)]
  rw [parse_loop_os_cons, line_read_false, class_include_output]
  simp only [if_true]
  rw [if_pos (by simp [initial, State.write_banner])]
  have hlive : parse_include_os env steps (d + 1) (free - 1) output_name
      { output := (initial.write_banner (initial.output ++ banner input_name)
            (.begin_banner input_name)).output ++ text_of (List.replicate 100 wide_line),
        alreadyIncluded := (initial.write_banner (initial.output ++ banner input_name)
            (.begin_banner input_name)).alreadyIncluded,
        events := (initial.write_banner (initial.output ++ banner input_name)
            (.begin_banner input_name)).events ++
          (List.replicate 100 wide_line).map Event.ordinary } = .still_reading := by
    unfold parse_include_os
    rw [hopen2]
    refine parse_file_os_live env steps d (free - 1 - 1) output_name 8192 hlag (by decide)
      (by decide)
      ([banner_fill_line, banner_label_line input_name, banner_fill_line, []] ++
        List.replicate 100 wide_line) _ ?_ ?_ ?_
    · simp only [write_banner_output, initial, List.nil_append]
      rw [text_of_append, banner_text]
    · intro l hl
      rcases List.mem_append.mp hl with h | h
      · exact banner_lines_good input_name (by decide) (by decide) l h
      · rw [List.eq_of_mem_replicate h]
        exact wide_line_good
    · rw [text_of_length_append, text_of_length_replicate]
      simp [wide_line]
  rw [hlive]

/-- The file `F` of `files_self` includes itself: with `k` free descriptors the expansion
returns at every depth bound above `k`, the stream of the innermost include failing to
open. -/
theorem self_include_os_returns (env : Env) (hfiles : env.files = files_self)
    (hout : env.is_output "F".toList = false) (steps : Nat) :
    ∀ (k n : Nat) (st : State), k < n → "F".toList ∉ st.alreadyIncluded →
      ∃ st', parse_include_os env steps n k "F".toList st = .done st' ∧
        "F".toList ∉ st'.alreadyIncluded
  | _, 0, _, h, _ => by simp at h
  | 0, n + 1, st, _, hs => by
    unfold parse_include_os
    rw [open_stream_none, parse_file_os_succ, header_f]
    simp only
    rw [show budget steps Stream.closed = 0 + 1 from rfl, parse_loop_os_closed]
    simp only
    rw [header_end_f]
    exact ⟨_, rfl, hs⟩
  | k + 1, n + 1, st, h, hs => by
    have hopen : open_stream env (k + 1) "F".toList =
        .lines ["int x;".toList, "#include \"F\"".toList] := by
      unfold open_stream
      rw [if_neg (by omega), hout, hfiles]
      rfl
    obtain ⟨s1, h1, hs1⟩ := self_include_os_returns env hfiles hout steps k n
      ((st.write_banner (st.output ++ banner "F".toList) (.begin_banner "F".toList)).write_line
        "int x;".toList) (by omega) hs
    have ci : is_local_include "int x;".toList = { successful := false, result := [] } := by rfl
    have co : is_pragma_once "int x;".toList = { successful := false, result := [] } := by rfl
    have cf : line_read true "int x;".toList = "int x;".toList := by rfl
    unfold parse_include_os
    rw [hopen, parse_file_os_succ, header_f]
    simp only
    rw [show budget steps (Stream.lines ["int x;".toList, "#include \"F\"".toList]) = 2 + 1
      from rfl, parse_loop_os_cons, cf, ci, co]
    simp only [Bool.false_eq_true, if_false]
    rw [parse_loop_os_cons, line_read_false, class_include_f]
    simp only [if_true]
    rw [if_pos (by simpa using hs)]
    simp only [Nat.add_sub_cancel]
    rw [h1]
    simp only
    rw [parse_loop_os_nil]
    simp only
    rw [header_end_f]
    exact ⟨_, rfl, hs1⟩



/-! ## The include graphs of the examples -/

theorem chain_mem {R : Str → Str → Prop} (S : Str → Prop) (hR : ∀ a b, R a b → S b) :
    ∀ (rest : List Str) (a : Str), S a → List.Chain R a rest → ∀ p ∈ a :: rest, S p
  | [], a, ha, _, p, hp => by
    rw [List.mem_singleton] at hp
    exact hp ▸ ha
  | b :: rest, a, ha, hc, p, hp => by
    rw [List.mem_cons] at hp
    rcases hp with rfl | hp
    · exact ha
    · cases hc with
      | cons h1 h2 => exact chain_mem S hR rest b (hR a b h1) h2 p hp

/-- The include graph of the protected cycle: the targets are `F` and `G`. -/
theorem edges_loop (a b : Str) (h : Includes files_loop a b) :
    b = "F".toList ∨ b = "G".toList := by
  obtain ⟨l, hl, hi⟩ := h
  by_cases ha : a = "F".toList
  · subst ha
    have e : lines_read (open_lines files_loop "F".toList) = ["#include \"G\"".toList] := by rfl
    rw [e, List.mem_singleton] at hl
    subst hl
    rw [← hi.2, class_include_g]
    exact Or.inr rfl
  · by_cases hb : a = "G".toList
    · subst hb
      have e : lines_read (open_lines files_loop "G".toList) =
          ["#pragma once".toList, "#include \"F\"".toList] := by rfl
      rw [e] at hl
      simp only [List.mem_cons, List.mem_singleton, List.not_mem_nil, or_false] at hl
      rcases hl with rfl | rfl
      · have := hi.1
        rw [class_once_include] at this
        exact Bool.noConfusion this
      · rw [← hi.2, class_include_f]
        exact Or.inl rfl
    · have e : open_lines files_loop a = [] := by
        unfold open_lines files_loop
        rw [if_neg ha, if_neg hb]
        rfl
      rw [e] at hl
      simp [lines_read, lines_from] at hl

/-- The protected cycle on the live file system, while three descriptors are free and
neither file is the output file: the run is the run on the fixed file map. -/
theorem run_loop_os (env : Env) (hfiles : env.files = files_loop)
    (hF : env.is_output "F".toList = false) (hG : env.is_output "G".toList = false)
    (steps free : Nat) (hfree : 3 ≤ free) :
    parse_include_os env steps 3 free "F".toList initial = .done state_loop := by
  rw [parse_include_os_fixed env steps 3 free "F".toList initial hfree, hfiles, run_loop]
  · rfl
  · rw [hfiles]
    intro rest hr q hq
    have := chain_mem (fun p => p = "F".toList ∨ p = "G".toList) edges_loop rest "F".toList
      (Or.inl rfl) hr q hq
    rcases this with rfl | rfl
    · exact hF
    · exact hG

/-- The include graph of the example that reads its own output: the root includes the output
file and nothing else does. -/
theorem edges_big (a b : Str) (h : Includes files_big a b) :
    a = input_name ∧ b = output_name := by
  obtain ⟨l, hl, hi⟩ := h
  by_cases ha : a = input_name
  · subst ha
    refine ⟨rfl, ?_⟩
    have e : lines_read (open_lines files_big input_name) =
        List.replicate 100 wide_line ++ [include_output] := by
      have : open_lines files_big input_name =
          wide_line :: (List.replicate 99 wide_line ++ [include_output]) := by rfl
      rw [this]
      show line_read true wide_line :: _ = _
      rw [good_line_read true _ wide_line_good]
      rfl
    rw [e] at hl
    rcases List.mem_append.mp hl with h | h
    · rw [List.eq_of_mem_replicate h] at hi
      have := hi.1
      rw [wide_line_good.1.1] at this
      exact Bool.noConfusion this
    · rw [List.mem_singleton] at h
      subst h
      rw [← hi.2, class_include_output]
  · have e : open_lines files_big a = [] := by
      unfold open_lines files_big
      rw [if_neg ha]
      rfl
    rw [e] at hl
    simp [lines_read, lines_from] at hl

/-- The include chains of that example that start at the root have at most 2 files. -/
theorem chains_big (rest : List Str)
    (h : List.Chain (Includes files_big) input_name rest) : rest.length + 1 ≤ 2 := by
  cases h with
  | nil => decide
  | cons h1 h2 =>
    cases h2 with
    | nil => simp
    | cons h3 _ =>
      have e1 := (edges_big _ _ h1).2
      have e2 := (edges_big _ _ h3).1
      rw [e1] at e2
      exact absurd e2 (by decide)

/-- The files on the include chains of the re-inclusion example are `A` and `B`. -/
theorem chain_files_twice (rest : List Str)
    (h : List.Chain (Includes files_twice) "A".toList rest) :
    ∀ p ∈ "A".toList :: rest, p = "A".toList ∨ p = "B".toList := by
  cases h with
  | nil =>
    intro p hp
    rw [List.mem_singleton] at hp
    exact Or.inl hp
  | cons h1 h2 =>
    have := edges_twice_a _ h1
    subst this
    cases h2 with
    | nil =>
      intro p hp
      simp only [List.mem_cons, List.mem_singleton, List.not_mem_nil, or_false] at hp
      exact hp
    | cons h3 _ => exact absurd h3 (fun h => edges_twice_b _ h)

/-! ## The claims -/

/-- C1: when `parse_file` returns, the text it has appended for `(path, lines)` is the banner
of `path`, an empty line, the contributions of the lines in file order (the first line after
BOM stripping; see `Contributions`: an ordinary line and a newline, the complete expansion of
an include target outside the set as it stands at that moment, nothing for a once-directive or
for an include of a target in the set), the banner of `"END " + path` and an empty line. -/
theorem C1_parse_file_text (fs : Files) (depth : Nat) (path : Str) (lines : List Str)
    (st st' : State) (h : parse_file fs depth path lines st = .done st') :
    ∃ begin_text end_text body,
      header_text path = some begin_text ∧
      header_text ("END ".toList ++ path) = some end_text ∧
      st'.output = st.output ++
        (begin_text ++ "\n".toList ++ body ++ (end_text ++ "\n".toList)) ∧
      Contributions fs path (lines_read lines) st.alreadyIncluded body st'.alreadyIncluded :=
  (parse_induct fs (contributions_steps fs)).1 depth path lines st st' h

/-- C1, the example of the claim: `A = [#include "B", tail]` and `B = [body]` give
begin-banner(A), begin-banner(B), `body`, end-banner(B), `tail`, end-banner(A) (`state_ab`). -/
theorem C1_parse_file_text_witness :
    parse_file files_ab 2 "A".toList lines_a initial = .done state_ab ∧
    ∃ begin_text end_text body,
      header_text "A".toList = some begin_text ∧
      header_text ("END ".toList ++ "A".toList) = some end_text ∧
      state_ab.output = initial.output ++
        (begin_text ++ "\n".toList ++ body ++ (end_text ++ "\n".toList)) ∧
      Contributions files_ab "A".toList (lines_read lines_a) initial.alreadyIncluded body
        state_ab.alreadyIncluded :=
  ⟨run_ab, C1_parse_file_text files_ab 2 "A".toList lines_a initial state_ab run_ab⟩

/-- C3: let no line of the file `B` be a once-directive and let the file `A` have two lines
that are local includes of `B`.  When the expansion of `A`, started with `B` outside the set,
returns, `B` is still outside the set and the begin banner of `B`, its end banner and each
of its ordinary lines have been emitted (at least) twice. -/
theorem C3_file_without_once_expanded_again (fs : Files) (depth : Nat) (A B : Str)
    (st st' : State) (hrun : parse_include fs depth A st = .done st')
    (hseen : B ∉ st.alreadyIncluded)
    (hB : ∀ l ∈ lines_read (open_lines fs B), ¬ is_once l)
    (hA : ∃ pre l1 mid l2 post, lines_read (open_lines fs A) = pre ++ l1 :: (mid ++ l2 :: post) ∧
      is_include_of l1 B ∧ is_include_of l2 B) :
    B ∉ st'.alreadyIncluded ∧
    st.events.count (.begin_banner B) + 2 ≤ st'.events.count (.begin_banner B) ∧
    st.events.count (.end_banner B) + 2 ≤ st'.events.count (.end_banner B) ∧
    ∀ l ∈ lines_read (open_lines fs B), is_ordinary l →
      st.events.count (.ordinary l) + 2 ≤ st'.events.count (.ordinary l) := by
  have hnot : B ∉ st'.alreadyIncluded := by
    intro hin
    rcases (parse_induct fs (gained_steps fs)).1 depth A (open_lines fs A) st st' hrun B hin with
      h | ⟨rfl, l, hl, ho⟩ | ⟨l, hl, ho⟩
    · exact hseen h
    · exact hB l hl ho
    · exact hB l hl ho
  obtain ⟨pre, l1, mid, l2, post, e, h1, h2⟩ := hA
  have htwo : 2 ≤ includes_of B (lines_read (open_lines fs A)) := by
    rw [e]
    exact includes_of_twice B pre mid post l1 l2 h1 h2
  have key := fun ev hev =>
    (parse_induct fs (repeat_steps fs B)).1 depth A (open_lines fs A) st st' hrun ev hev hnot
  refine ⟨hnot, ?_, ?_, ?_⟩
  · have := key (.begin_banner B) (Or.inl rfl)
    omega
  · have := key (.end_banner B) (Or.inr (Or.inl rfl))
    omega
  · intro l hl ho
    have := key (.ordinary l) (Or.inr (Or.inr ⟨l, hl, ho, rfl⟩))
    omega

/-- C3 at `A = [#include "B", #include "B"]` and `B = [body]`: the run returns `state_twice`,
where the banners of `B` and the line `body` occur twice. -/
theorem C3_file_without_once_expanded_again_witness :
    parse_include files_twice 2 "A".toList initial = .done state_twice ∧
    "B".toList ∉ state_twice.alreadyIncluded ∧
    initial.events.count (.begin_banner "B".toList) + 2 ≤
      state_twice.events.count (.begin_banner "B".toList) ∧
    initial.events.count (.end_banner "B".toList) + 2 ≤
      state_twice.events.count (.end_banner "B".toList) ∧
    ∀ l ∈ lines_read (open_lines files_twice "B".toList), is_ordinary l →
      initial.events.count (.ordinary l) + 2 ≤ state_twice.events.count (.ordinary l) :=
  ⟨run_twice, C3_file_without_once_expanded_again files_twice 2 "A".toList "B".toList initial
    state_twice run_twice (by decide) (by unfold is_once; decide)
    ⟨[], "#include \"B\"".toList, [], "#include \"B\"".toList, [], by rfl,
      ⟨by rfl, by rfl⟩, ⟨by rfl, by rfl⟩⟩⟩

/-- C4: a line that is a local include of a target in the set is skipped: the loop goes on
with the next line in the same state (nothing written, the set unchanged), and this for every
`parse_include`, which is not called (no file is opened). -/
theorem C4_include_of_seen_skipped (parse_include_call : Str → State → Outcome State)
    (inputPath : Str) (isFirstLine : Bool) (raw : Str) (rest : List Str) (st : State)
    (target : Str) (hinc : is_include_of (line_read isFirstLine raw) target)
    (hseen : target ∈ st.alreadyIncluded) :
    parse_loop parse_include_call inputPath isFirstLine (raw :: rest) st =
      parse_loop parse_include_call inputPath false rest st :=
  parse_loop_skip _ _ _ _ _ _ hinc.1 (hinc.2 ▸ hseen)

/-- C4 at `#include "B"` with `B` in the set, followed by the line `tail`, with a
`parse_include` that would throw. -/
theorem C4_include_of_seen_skipped_witness :
    parse_loop (fun _ _ => .length_error) "A".toList true lines_a state_seen_b =
      parse_loop (fun _ _ => .length_error) "A".toList false ["tail".toList] state_seen_b ∧
    parse_loop (fun _ _ => .length_error) "A".toList true lines_a state_seen_b =
      .done (state_seen_b.write_line "tail".toList) :=
  ⟨C4_include_of_seen_skipped _ "A".toList true "#include \"B\"".toList ["tail".toList]
    state_seen_b "B".toList ⟨by rfl, by rfl⟩ (by decide), by rfl⟩

/-- C5: a once-directive line inserts the path of the current file into the set and does
nothing else (nothing is written, `parse_include` is not called); and when the expansion of a
file with a once-directive line (among the lines as stored, or as classified after the BOM
removal) returns, the path of that file is in the set. -/
theorem C5_once_directive_records_current_file :
    (∀ (parse_include_call : Str → State → Outcome State) (inputPath : Str) (isFirstLine : Bool)
        (raw : Str) (rest : List Str) (st : State),
      is_once (line_read isFirstLine raw) →
      parse_loop parse_include_call inputPath isFirstLine (raw :: rest) st =
        parse_loop parse_include_call inputPath false rest
          { output := st.output, alreadyIncluded := insert inputPath st.alreadyIncluded,
            events := st.events }) ∧
    (∀ (fs : Files) (depth : Nat) (inputPath : Str) (input : List Str) (st st' : State),
      parse_file fs depth inputPath input st = .done st' →
      ((∃ line ∈ input, is_once line) ∨ (∃ line ∈ lines_read input, is_once line)) →
      inputPath ∈ st'.alreadyIncluded) :=
  ⟨fun pi p b raw rest st ho => parse_loop_once pi p b raw rest st ho,
   fun fs d p input st st' h ho => (parse_induct fs (once_steps fs)).1 d p input st st' h
    (ho.elim (once_line_read input) id)⟩

/-- C5 at the file `B = [#pragma once, body]`: the step at its first line, and its expansion,
which returns `state_guard_b` with `B` in the set. -/
theorem C5_once_directive_records_current_file_witness :
    parse_loop (fun _ _ => .length_error) "B".toList true
        ["#pragma once".toList, "body".toList] initial =
      parse_loop (fun _ _ => .length_error) "B".toList false ["body".toList]
        { output := initial.output, alreadyIncluded := insert "B".toList initial.alreadyIncluded,
          events := initial.events } ∧
    parse_file files_guard 1 "B".toList ["#pragma once".toList, "body".toList] initial =
      .done state_guard_b ∧
    "B".toList ∈ state_guard_b.alreadyIncluded :=
  ⟨C5_once_directive_records_current_file.1 _ "B".toList true "#pragma once".toList
      ["body".toList] initial (by rfl),
   run_guard_b,
   C5_once_directive_records_current_file.2 files_guard 1 "B".toList
      ["#pragma once".toList, "body".toList] initial state_guard_b run_guard_b
      (Or.inl ⟨"#pragma once".toList, by decide, by rfl⟩)⟩

/-- C6 as stated fails for a long path: with a path of 113 bytes the label of the end banner
has 117 bytes, its left padding is negative and `std::string(left_padding, '-')` throws, so
the file of one ordinary line is not wrapped in a pair of banners. -/
theorem C6_long_path_counterexample :
    (is_local_include "int x;".toList).successful = false ∧
    (is_pragma_once "int x;".toList).successful = false ∧
    ¬ utf8_bom <+: "int x;".toList ∧
    left_padding ("END ".toList ++ long_path).length = -1 ∧
    ∀ depth, parse_file files_ab (depth + 1) long_path ["int x;".toList] initial = .length_error :=
  ⟨by rfl, by rfl, by decide, by rfl, fun depth => by rfl⟩

/-- C6, amended: for a path of at most 112 bytes and lines none of which is a local include
or a once-directive, the first not starting with the BOM, `parse_file` returns (at any depth
bound above zero) having written the banner of the path, an empty line, every line verbatim
with a newline, the banner of `"END " + path` and an empty line; the set is unchanged. -/
theorem C6_plain_file_passthrough (fs : Files) (depth : Nat) (path : Str) (lines : List Str)
    (st : State) (hpath : path.length ≤ 112)
    (hlines : ∀ l ∈ lines, (is_local_include l).successful = false ∧
      (is_pragma_once l).successful = false)
    (hbom : ∀ first rest, lines = first :: rest → ¬ utf8_bom <+: first) :
    parse_file fs (depth + 1) path lines st = .done
      { output := st.output ++ (banner path ++ "\n".toList) ++
          (lines.map (· ++ "\n".toList)).flatten ++
          (banner ("END ".toList ++ path) ++ "\n".toList),
        alreadyIncluded := st.alreadyIncluded,
        events := st.events ++ [.begin_banner path] ++ lines.map Event.ordinary ++
          [.end_banner path] } := by
  have e := lines_read_of_no_bom lines hbom
  have h := parse_file_all_ordinary fs depth path lines st hpath (by rw [e]; exact hlines)
  rw [e] at h
  exact h

/-- C6, amended, at the file `P = [int x;, int y;]`. -/
theorem C6_plain_file_passthrough_witness :
    parse_file files_ab 1 "P".toList ["int x;".toList, "int y;".toList] initial = .done
      { output := initial.output ++ (banner "P".toList ++ "\n".toList) ++
          (["int x;".toList, "int y;".toList].map (· ++ "\n".toList)).flatten ++
          (banner ("END ".toList ++ "P".toList) ++ "\n".toList),
        alreadyIncluded := initial.alreadyIncluded,
        events := initial.events ++ [.begin_banner "P".toList] ++
          ["int x;".toList, "int y;".toList].map Event.ordinary ++ [.end_banner "P".toList] } :=
  C6_plain_file_passthrough files_ab 0 "P".toList ["int x;".toList, "int y;".toList] initial
    (by decide)
    (by
      intro l hl
      simp only [List.mem_cons, List.mem_singleton, List.not_mem_nil, or_false] at hl
      rcases hl with rfl | rfl <;> exact ⟨by rfl, by rfl⟩)
    (by
      intro first rest h
      cases h
      decide)

/-- C7: in every file `parse_file` expands, a first line that starts with the bytes EF BB BF
is classified and emitted without exactly these three bytes; a first line that does not start
with them (one shorter than three bytes among them) is left as it is; a later line is used as
read: an ordinary one is written verbatim, and one starting with the BOM is always ordinary.
So a file with a BOM expands like the file without it, and the first line
BOM + `#include "X"` is an include of `X`. -/
theorem C7_bom_removed_from_first_line_only :
    (∀ (parse_include_call : Str → State → Outcome State) (inputPath r : Str) (rest : List Str)
        (st : State),
      parse_loop parse_include_call inputPath true ((utf8_bom ++ r) :: rest) st =
        parse_loop parse_include_call inputPath false (r :: rest) st) ∧
    (∀ (parse_include_call : Str → State → Outcome State) (inputPath raw : Str)
        (rest : List Str) (st : State),
      (¬ utf8_bom <+: raw ∨ raw.length < 3) →
      parse_loop parse_include_call inputPath true (raw :: rest) st =
        parse_loop parse_include_call inputPath false (raw :: rest) st) ∧
    (∀ (parse_include_call : Str → State → Outcome State) (inputPath raw : Str)
        (rest : List Str) (st : State),
      ((is_local_include raw).successful = false ∧ (is_pragma_once raw).successful = false) ∨
        utf8_bom <+: raw →
      parse_loop parse_include_call inputPath false (raw :: rest) st =
        parse_loop parse_include_call inputPath false rest
          { output := st.output ++ raw ++ "\n".toList, alreadyIncluded := st.alreadyIncluded,
            events := st.events ++ [.ordinary raw] }) ∧
    (∀ (fs : Files) (depth : Nat) (inputPath r : Str) (rest : List Str) (st : State),
      ¬ utf8_bom <+: r →
      parse_file fs depth inputPath ((utf8_bom ++ r) :: rest) st =
        parse_file fs depth inputPath (r :: rest) st) ∧
    (∀ (parse_include_call : Str → State → Outcome State) (inputPath : Str) (rest : List Str)
        (st : State),
      "X".toList ∉ st.alreadyIncluded →
      parse_loop parse_include_call inputPath true
          ((utf8_bom ++ "#include \"X\"".toList) :: rest) st =
        match parse_include_call "X".toList st with
        | .done st1 => parse_loop parse_include_call inputPath false rest st1
        | .length_error => .length_error
        | .depth_exceeded => .depth_exceeded) := by
  have nb : ∀ raw : Str, (¬ utf8_bom <+: raw ∨ raw.length < 3) → ¬ utf8_bom <+: raw := by
    intro raw h
    rcases h with h | h
    · exact h
    · intro hp
      have := hp.length_le
      simp [utf8_bom] at this
      omega
  refine ⟨?_, ?_, ?_, ?_, ?_⟩
  · intro pi p r rest st
    exact parse_loop_congr pi p true false _ _ rest st (by rw [line_read_bom, line_read_false])
  · intro pi p raw rest st h
    exact parse_loop_congr pi p true false _ _ rest st
      (by rw [line_read_no_bom raw (nb raw h), line_read_false])
  · intro pi p raw rest st h
    have h' : (is_local_include raw).successful = false ∧
        (is_pragma_once raw).successful = false := by
      rcases h with h | ⟨t, rfl⟩
      · exact h
      · exact no_match_of_first _ _ (by decide) (by decide)
    exact parse_loop_ordinary pi p false raw rest st h'.1 h'.2
  · intro fs depth p r rest st h
    cases depth with
    | zero => rfl
    | succ d =>
      rw [parse_file_succ, parse_file_succ]
      cases generate_header st.output p with
      | none => rfl
      | some out1 =>
        simp only
        rw [parse_loop_congr (parse_include fs d) p true true (utf8_bom ++ r) r rest _
          (by rw [line_read_bom, line_read_no_bom r h])]
  · intro pi p rest st h
    have e : is_local_include (line_read true (utf8_bom ++ "#include \"X\"".toList)) =
        { successful := true, result := "X".toList } := by
      rw [line_read_bom]
      rfl
    rw [parse_loop_include pi p true _ rest st (by rw [e]) (by rw [e]; exact h), e]

/-- C7 at a file whose first line is the BOM followed by `x` (not starting with the BOM). -/
theorem C7_bom_removed_from_first_line_only_witness :
    parse_loop (fun _ _ => .length_error) "A".toList true ["x".toList] initial =
      parse_loop (fun _ _ => .length_error) "A".toList false ["x".toList] initial ∧
    parse_loop (fun _ _ => .length_error) "A".toList false [utf8_bom ++ "x".toList] initial =
      parse_loop (fun _ _ => .length_error) "A".toList false []
        { output := initial.output ++ (utf8_bom ++ "x".toList) ++ "\n".toList,
          alreadyIncluded := initial.alreadyIncluded,
          events := initial.events ++ [.ordinary (utf8_bom ++ "x".toList)] } ∧
    parse_file files_ab 1 "A".toList [utf8_bom ++ "x".toList] initial =
      parse_file files_ab 1 "A".toList ["x".toList] initial ∧
    parse_loop (parse_include files_ab 1) "A".toList true
        [utf8_bom ++ "#include \"X\"".toList] initial =
      match parse_include files_ab 1 "X".toList initial with
      | .done st1 => parse_loop (parse_include files_ab 1) "A".toList false [] st1
      | .length_error => .length_error
      | .depth_exceeded => .depth_exceeded :=
  ⟨C7_bom_removed_from_first_line_only.2.1 _ _ _ _ _ (Or.inr (by decide)),
   C7_bom_removed_from_first_line_only.2.2.1 _ _ _ _ _ (Or.inr ⟨"x".toList, rfl⟩),
   C7_bom_removed_from_first_line_only.2.2.2.1 _ _ _ _ _ _ (by decide),
   C7_bom_removed_from_first_line_only.2.2.2.2 _ _ _ _ (by decide)⟩

/-- C8: for a label of at most 116 bytes `generate_header` writes three lines: the first and
the third are `//` and 116 `-`, the second is `//`, `floor((116 - L) / 2)` characters `-`,
the label and `116 - L - floor((116 - L) / 2)` characters `-`; each has 118 characters. -/
theorem C8_banner_geometry (output label : Str) (h : label.length ≤ 116) :
    generate_header output label = some (output ++
      ("//".toList ++ List.replicate 116 '-' ++ "\n".toList ++
        ("//".toList ++ List.replicate ((116 - label.length) / 2) '-' ++ label ++
          List.replicate (116 - label.length - (116 - label.length) / 2) '-' ++ "\n".toList) ++
        ("//".toList ++ List.replicate 116 '-' ++ "\n".toList))) ∧
    ("//".toList ++ List.replicate 116 '-').length = 118 ∧
    ("//".toList ++ List.replicate ((116 - label.length) / 2) '-' ++ label ++
      List.replicate (116 - label.length - (116 - label.length) / 2) '-').length = 118 := by
  refine ⟨?_, by decide, ?_⟩
  · rw [generate_header_eq, header_text_fits label h]
    rfl
  · have h2 : "//".toList.length = 2 := rfl
    rw [List.length_append, List.length_append, List.length_append, List.length_replicate,
      List.length_replicate, h2]
    omega

/-- C8 at the label `END B` (5 bytes: 55 fill characters before it, 56 after). -/
theorem C8_banner_geometry_witness :
    generate_header [] "END B".toList = some ([] ++
      ("//".toList ++ List.replicate 116 '-' ++ "\n".toList ++
        ("//".toList ++ List.replicate ((116 - "END B".toList.length) / 2) '-' ++ "END B".toList ++
          List.replicate (116 - "END B".toList.length - (116 - "END B".toList.length) / 2) '-' ++
          "\n".toList) ++
        ("//".toList ++ List.replicate 116 '-' ++ "\n".toList))) ∧
    ("//".toList ++ List.replicate 116 '-').length = 118 ∧
    ("//".toList ++ List.replicate ((116 - "END B".toList.length) / 2) '-' ++ "END B".toList ++
      List.replicate (116 - "END B".toList.length - (116 - "END B".toList.length) / 2) '-').length
        = 118 :=
  C8_banner_geometry [] "END B".toList (by decide)

/-- C9 as stated fails: the line `#include "a>b"` has the shape of the claim with the
non-empty path `a>b`, which contains no double quote, and `is_local_include` rejects it,
because the pattern `[^">]+` does not let a path contain `>`. -/
theorem C9_path_with_gt_counterexample :
    IncludeShape "#include \"a>b\"".toList "a>b".toList ∧
    "a>b".toList ≠ [] ∧ '"' ∉ "a>b".toList ∧
    (is_local_include "#include \"a>b\"".toList).successful = false :=
  ⟨⟨[], [], [' '], [], by unfold all_space; decide, by unfold all_space; decide,
    by unfold all_space; decide, by rfl⟩, by decide, by decide, by rfl⟩

/-- C9, amended: `is_local_include` succeeds on a line with result `path` exactly when the line
is optional whitespace, `#`, optional whitespace, `include`, optional whitespace, a double
quote, `path`, a double quote and then anything, where `path` is not empty and contains
neither a double quote nor `>`; the result is the quoted text as written.  In particular
`#include "PATH"` is a local include of `PATH` for every such `PATH`. -/
theorem C9_local_include_shape :
    (∀ line path : Str,
      ((is_local_include line).successful = true ∧ (is_local_include line).result = path) ↔
        (path ≠ [] ∧ (∀ c ∈ path, c ≠ '"' ∧ c ≠ '>') ∧ IncludeShape line path)) ∧
    (∀ path : Str, path ≠ [] → (∀ c ∈ path, c ≠ '"' ∧ c ≠ '>') →
      is_local_include ("#include \"".toList ++ path ++ "\"".toList) =
        { successful := true, result := path }) := by
  refine ⟨is_local_include_iff, ?_⟩
  intro path hne hcs
  have h := (is_local_include_iff ("#include \"".toList ++ path ++ "\"".toList) path).mpr
    ⟨hne, hcs, [], [], [' '], [], by unfold all_space; decide, by unfold all_space; decide,
      by unfold all_space; decide, by simp⟩
  cases hr : is_local_include ("#include \"".toList ++ path ++ "\"".toList) with
  | mk s r =>
    rw [hr] at h
    simp only at h
    rw [h.1, h.2]

/-- C9, amended, at the line `  # include "dir/a.h" // x` and at the path `a.h`. -/
theorem C9_local_include_shape_witness :
    ((is_local_include "  # include \"dir/a.h\" // x".toList).successful = true ∧
      (is_local_include "  # include \"dir/a.h\" // x".toList).result = "dir/a.h".toList) ∧
    is_local_include ("#include \"".toList ++ "a.h".toList ++ "\"".toList) =
      { successful := true, result := "a.h".toList } :=
  ⟨(C9_local_include_shape.1 "  # include \"dir/a.h\" // x".toList "dir/a.h".toList).mpr
    ⟨by decide, by decide, [' ', ' '], [' '], [' '], " // x".toList,
      by unfold all_space; decide, by unfold all_space; decide, by unfold all_space; decide,
      by rfl⟩,
   C9_local_include_shape.2 "a.h".toList (by decide) (by decide)⟩

/-- C10: `is_pragma_once` succeeds on a line exactly when the line is optional whitespace,
`#`, optional whitespace, `pragma`, optional whitespace, `once`, and then the end of the line
or a character that is not a word character followed by anything.  So `#pragma once // guard`
matches, `#pragma onces` and `#pragma once_x` do not, and a line whose first character after
the leading whitespace is not `#` does not. -/
theorem C10_pragma_once_shape :
    (∀ line : Str, (is_pragma_once line).successful = true ↔ OnceShape line) ∧
    (is_pragma_once "#pragma once // guard".toList).successful = true ∧
    (is_pragma_once "#pragma onces".toList).successful = false ∧
    (is_pragma_once "#pragma once_x".toList).successful = false ∧
    (∀ (ws : Str) (c : Char) (rest : Str), all_space ws → is_space c = false → c ≠ '#' →
      (is_pragma_once (ws ++ c :: rest)).successful = false) :=
  ⟨fun line => regex_search_pragmaOnce_iff line, by rfl, by rfl, by rfl,
   fun ws c rest hws hs hc => (no_match_of_first_after_space ws c rest hws hs hc).2⟩

/-- C10 at the line `  #  pragma once;` and at the line ` x#pragma once`. -/
theorem C10_pragma_once_shape_witness :
    (is_pragma_once "  #  pragma once;".toList).successful = true ∧
    (is_pragma_once (" ".toList ++ 'x' :: "#pragma once".toList)).successful = false :=
  ⟨(C10_pragma_once_shape.1 "  #  pragma once;".toList).mpr
    ⟨[' ', ' '], [' ', ' '], [' '], [';'], by unfold all_space; decide,
      by unfold all_space; decide, by unfold all_space; decide,
      Or.inr ⟨';', [], rfl, by decide⟩, by rfl⟩,
   C10_pragma_once_shape.2.2.2.2 " ".toList 'x' "#pragma once".toList
    (by unfold all_space; decide) (by decide) (by decide)⟩

/-- C11: a line of the angle-bracket form (optional whitespace, `#`, optional whitespace,
`include`, optional whitespace, `<`, anything) is rejected by `is_local_include` and by
`is_pragma_once`, and the loop writes it verbatim with a newline and goes on with the next
line: the set is unchanged and `parse_include` is not called, whatever it is. -/
theorem C11_angle_include_passed_through (parse_include_call : Str → State → Outcome State)
    (inputPath : Str) (isFirstLine : Bool) (rest : List Str) (st : State)
    (ws1 ws2 ws3 tail : Str) (h1 : all_space ws1) (h2 : all_space ws2) (h3 : all_space ws3) :
    (is_local_include (ws1 ++ '#' :: (ws2 ++ ("include".toList ++ (ws3 ++ '<' :: tail))))).successful
      = false ∧
    (is_pragma_once (ws1 ++ '#' :: (ws2 ++ ("include".toList ++ (ws3 ++ '<' :: tail))))).successful
      = false ∧
    parse_loop parse_include_call inputPath isFirstLine
        ((ws1 ++ '#' :: (ws2 ++ ("include".toList ++ (ws3 ++ '<' :: tail)))) :: rest) st =
      parse_loop parse_include_call inputPath false rest
        { output := st.output ++
            (ws1 ++ '#' :: (ws2 ++ ("include".toList ++ (ws3 ++ '<' :: tail)))) ++ "\n".toList,
          alreadyIncluded := st.alreadyIncluded,
          events := st.events ++
            [.ordinary (ws1 ++ '#' :: (ws2 ++ ("include".toList ++ (ws3 ++ '<' :: tail))))] } := by
  have hh : IncludeHead (ws1 ++ '#' :: (ws2 ++ ("include".toList ++ (ws3 ++ '<' :: tail))))
      ('<' :: tail) := ⟨ws1, ws2, ws3, h1, h2, h3, rfl⟩
  have ho := angle_ordinary _ tail hh
  exact ⟨ho.1, ho.2, parse_loop_verbatim _ _ _ _ _ _ (line_read_include_head _ _ _ hh) ho⟩

/-- C11 at the line `#include <vector>`, read as the first line of a file. -/
theorem C11_angle_include_passed_through_witness :
    (is_local_include "#include <vector>".toList).successful = false ∧
    (is_pragma_once "#include <vector>".toList).successful = false ∧
    parse_loop (fun _ _ => .length_error) "A".toList true ["#include <vector>".toList] initial =
      parse_loop (fun _ _ => .length_error) "A".toList false []
        { output := initial.output ++ "#include <vector>".toList ++ "\n".toList,
          alreadyIncluded := initial.alreadyIncluded,
          events := initial.events ++ [.ordinary "#include <vector>".toList] } :=
  C11_angle_include_passed_through (fun _ _ => .length_error) "A".toList true [] initial
    [] [] [' '] "vector>".toList (by unfold all_space; decide) (by unfold all_space; decide)
    (by unfold all_space; decide)

/-- C12 as stated fails for a long target: the 113-byte path `long_path` is the target of the
line `#include "PATH"`, it is outside the set and cannot be opened, and `parse_include` on it
is aborted by `std::length_error` (the label of its end banner has 117 bytes) at every depth
bound. -/
theorem C12_long_target_counterexample :
    is_local_include long_include = { successful := true, result := long_path } ∧
    files_ab long_path = none ∧
    long_path ∉ initial.alreadyIncluded ∧
    ∀ depth, parse_include files_ab (depth + 1) long_path initial = .length_error :=
  ⟨by rfl, by rfl, by decide, fun depth => by rfl⟩

/-- C12, amended: for a target of at most 112 bytes that cannot be opened, `parse_include`
returns (at any depth bound above zero) having written the banner of the target, an empty
line, the banner of `"END " + target` and an empty line, with the set unchanged; and the
loop of the including file, at an include line of such a target outside the set, goes on
with its next line in that state. -/
theorem C12_missing_target_empty_expansion (fs : Files) (depth : Nat) (target : Str)
    (st : State) (hmiss : fs target = none) (hlen : target.length ≤ 112) :
    parse_include fs (depth + 1) target st = .done
      { output := st.output ++ (banner target ++ "\n".toList) ++
          (banner ("END ".toList ++ target) ++ "\n".toList),
        alreadyIncluded := st.alreadyIncluded,
        events := st.events ++ [.begin_banner target, .end_banner target] } ∧
    ∀ (inputPath : Str) (isFirstLine : Bool) (raw : Str) (rest : List Str),
      is_include_of (line_read isFirstLine raw) target → target ∉ st.alreadyIncluded →
      parse_loop (parse_include fs (depth + 1)) inputPath isFirstLine (raw :: rest) st =
        parse_loop (parse_include fs (depth + 1)) inputPath false rest
          { output := st.output ++ (banner target ++ "\n".toList) ++
              (banner ("END ".toList ++ target) ++ "\n".toList),
            alreadyIncluded := st.alreadyIncluded,
            events := st.events ++ [.begin_banner target, .end_banner target] } := by
  have ho : open_lines fs target = [] := by simp [open_lines, hmiss]
  have hrun : parse_include fs (depth + 1) target st = .done
      { output := st.output ++ (banner target ++ "\n".toList) ++
          (banner ("END ".toList ++ target) ++ "\n".toList),
        alreadyIncluded := st.alreadyIncluded,
        events := st.events ++ [.begin_banner target, .end_banner target] } := by
    rw [parse_include_eq, ho, parse_file_all_ordinary fs depth target [] st hlen
      (by intro l hl; simp [lines_read, lines_from] at hl)]
    simp [lines_read, lines_from]
  refine ⟨hrun, ?_⟩
  intro p b raw rest hinc hseen
  rw [parse_loop_include _ p b raw rest st hinc.1 (by rw [hinc.2]; exact hseen), hinc.2, hrun]

/-- C12, amended, at the root `[#include "B", tail]` with no file `B`. -/
theorem C12_missing_target_empty_expansion_witness :
    parse_include (fun _ => none) 1 "B".toList initial = .done
      { output := initial.output ++ (banner "B".toList ++ "\n".toList) ++
          (banner ("END ".toList ++ "B".toList) ++ "\n".toList),
        alreadyIncluded := initial.alreadyIncluded,
        events := initial.events ++ [.begin_banner "B".toList, .end_banner "B".toList] } ∧
    parse_loop (parse_include (fun _ => none) 1) "A".toList true lines_a initial =
      parse_loop (parse_include (fun _ => none) 1) "A".toList false ["tail".toList]
        { output := initial.output ++ (banner "B".toList ++ "\n".toList) ++
            (banner ("END ".toList ++ "B".toList) ++ "\n".toList),
          alreadyIncluded := initial.alreadyIncluded,
          events := initial.events ++ [.begin_banner "B".toList, .end_banner "B".toList] } :=
  ⟨(C12_missing_target_empty_expansion (fun _ => none) 0 "B".toList initial rfl (by decide)).1,
   (C12_missing_target_empty_expansion (fun _ => none) 0 "B".toList initial rfl (by decide)).2
      "A".toList true "#include \"B\"".toList ["tail".toList] ⟨by rfl, by rfl⟩ (by decide)⟩

/-- C13: a line that starts like a local include (optional whitespace, `#`, optional
whitespace, `include`, optional whitespace, a double quote) and goes on with text without a
double quote, or with a second double quote at once, is rejected by `is_local_include` and by
`is_pragma_once`; the loop does not fail on it: it writes the line verbatim with a newline
and goes on with the next line, the set unchanged and `parse_include` not called. -/
theorem C13_malformed_include_passed_through
    (parse_include_call : Str → State → Outcome State) (inputPath : Str) (isFirstLine : Bool)
    (line : Str) (rest : List Str) (st : State)
    (h : (∃ text, IncludeHead line ('"' :: text) ∧ '"' ∉ text) ∨
      (∃ tail, IncludeHead line ('"' :: '"' :: tail))) :
    (is_local_include line).successful = false ∧
    (is_pragma_once line).successful = false ∧
    parse_loop parse_include_call inputPath isFirstLine (line :: rest) st =
      parse_loop parse_include_call inputPath false rest
        { output := st.output ++ line ++ "\n".toList,
          alreadyIncluded := st.alreadyIncluded,
          events := st.events ++ [.ordinary line] } := by
  have hb : line_read isFirstLine line = line := by
    rcases h with ⟨text, hh, _⟩ | ⟨tail, hh⟩
    · exact line_read_include_head _ _ _ hh
    · exact line_read_include_head _ _ _ hh
  have ho : is_ordinary line := by
    rcases h with ⟨text, hh, hq⟩ | ⟨tail, hh⟩
    · exact unterminated_ordinary line text hh hq
    · exact empty_quotes_ordinary line tail hh
  exact ⟨ho.1, ho.2, parse_loop_verbatim _ _ _ _ _ _ hb ho⟩

/-- C13 at the lines `#include "a.h` and `#include ""`. -/
theorem C13_malformed_include_passed_through_witness :
    ((is_local_include "#include \"a.h".toList).successful = false ∧
      (is_pragma_once "#include \"a.h".toList).successful = false ∧
      parse_loop (fun _ _ => .length_error) "A".toList false ["#include \"a.h".toList] initial =
        parse_loop (fun _ _ => .length_error) "A".toList false []
          { output := initial.output ++ "#include \"a.h".toList ++ "\n".toList,
            alreadyIncluded := initial.alreadyIncluded,
            events := initial.events ++ [.ordinary "#include \"a.h".toList] }) ∧
    ((is_local_include "#include \"\"".toList).successful = false ∧
      (is_pragma_once "#include \"\"".toList).successful = false ∧
      parse_loop (fun _ _ => .length_error) "A".toList true ["#include \"\"".toList] initial =
        parse_loop (fun _ _ => .length_error) "A".toList false []
          { output := initial.output ++ "#include \"\"".toList ++ "\n".toList,
            alreadyIncluded := initial.alreadyIncluded,
            events := initial.events ++ [.ordinary "#include \"\"".toList] }) :=
  ⟨C13_malformed_include_passed_through _ "A".toList false "#include \"a.h".toList [] initial
    (Or.inl ⟨"a.h".toList, ⟨[], [], [' '], by unfold all_space; decide,
      by unfold all_space; decide, by unfold all_space; decide, by rfl⟩, by decide⟩),
   C13_malformed_include_passed_through _ "A".toList true "#include \"\"".toList [] initial
    (Or.inr ⟨[], ⟨[], [], [' '], by unfold all_space; decide,
      by unfold all_space; decide, by unfold all_space; decide, by rfl⟩⟩)⟩

/-- C14: for a label of fewer than 2^31 bytes, also one of more than 116, the source's
arithmetic (`int` 116 minus a 64-bit unsigned size, unsigned division by 2, narrowing to a
32-bit signed `int`) gives `left_padding = floor((116 - L) / 2)` and
`right_padding = 116 - L - left_padding` as integers: nothing is clamped, so the values are
negative for an over-length label. -/
theorem C14_padding_arithmetic (L : Nat) (h : L < 2 ^ 31) :
    left_padding L = Int.fdiv (116 - (L : Int)) 2 ∧
    (2 * left_padding L ≤ 116 - (L : Int) ∧ 116 - (L : Int) < 2 * left_padding L + 2) ∧
    right_padding L = 116 - (L : Int) - left_padding L ∧
    (116 < L → left_padding L < 0 ∧ right_padding L ≤ 0) := by
  have hp := padding_below L h
  have hf : Int.fdiv (116 - (L : Int)) 2 = (116 - (L : Int)) / 2 :=
    Int.fdiv_eq_ediv _ (by decide)
  refine ⟨hp.1, ?_, hp.2, ?_⟩
  · rw [hp.1, hf]
    omega
  · intro hL
    rw [hp.2, hp.1, hf]
    omega

/-- C14 at the lengths 119 (`left_padding = -2`, `right_padding = -1`) and 5. -/
theorem C14_padding_arithmetic_witness :
    (left_padding 119 = -2 ∧ right_padding 119 = -1) ∧
    (left_padding 5 = 55 ∧ right_padding 5 = 56) ∧
    left_padding 119 = Int.fdiv (116 - ((119 : Nat) : Int)) 2 ∧
    (2 * left_padding 119 ≤ 116 - ((119 : Nat) : Int) ∧
      116 - ((119 : Nat) : Int) < 2 * left_padding 119 + 2) ∧
    right_padding 119 = 116 - ((119 : Nat) : Int) - left_padding 119 ∧
    (116 < 119 → left_padding 119 < 0 ∧ right_padding 119 ≤ 0) :=
  ⟨⟨by rfl, by rfl⟩, ⟨by rfl, by rfl⟩, C14_padding_arithmetic 119 (by decide)⟩

/-- C17: when a call of `parse_file` returns, the set afterwards contains the set before;
every path gained has had a begin banner emitted during the call (a file of that name was
expanded) and is the path of a file with a once-directive line (the file of the call itself,
or the file of that name in the file map), lines taken as classified after the BOM removal.
In particular a path whose file has no once-directive line is not added, included or not. -/
theorem C17_set_grows_by_once_files (fs : Files) (depth : Nat) (inputPath : Str)
    (input : List Str) (st st' : State)
    (h : parse_file fs depth inputPath input st = .done st') :
    st.alreadyIncluded ⊆ st'.alreadyIncluded ∧
    (∀ q ∈ st'.alreadyIncluded, q ∉ st.alreadyIncluded →
      st.events.count (.begin_banner q) + 1 ≤ st'.events.count (.begin_banner q) ∧
      ((q = inputPath ∧ ∃ l ∈ lines_read input, is_once l) ∨
        ∃ l ∈ lines_read (open_lines fs q), is_once l)) ∧
    (∀ q, q ∉ st.alreadyIncluded →
      (q = inputPath → ∀ l ∈ lines_read input, ¬ is_once l) →
      (∀ l ∈ lines_read (open_lines fs q), ¬ is_once l) → q ∉ st'.alreadyIncluded) := by
  have hg := (parse_induct fs (gained_steps fs)).1 depth inputPath input st st' h
  have he := (parse_induct fs (expanded_steps fs)).1 depth inputPath input st st' h
  refine ⟨parse_file_mono fs depth inputPath input st st' h, ?_, ?_⟩
  · intro q hq hn
    refine ⟨?_, ?_⟩
    · rcases he q hq with h1 | h1
      · exact absurd h1 hn
      · exact h1
    · rcases hg q hq with h1 | h1 | h1
      · exact absurd h1 hn
      · exact Or.inl h1
      · exact Or.inr h1
  · intro q hn h1 h2 hq
    rcases hg q hq with h3 | ⟨e, l, hl, ho⟩ | ⟨l, hl, ho⟩
    · exact hn h3
    · exact h1 e l hl ho
    · exact h2 l hl ho

/-- C17 at the once example (`B` starts with a once-directive: it is gained, after its
expansion) and at the re-inclusion example (`B` has no once-directive: it is not gained,
though included twice). -/
theorem C17_set_grows_by_once_files_witness :
    (initial.alreadyIncluded ⊆ state_guard.alreadyIncluded ∧
      initial.events.count (.begin_banner "B".toList) + 1 ≤
        state_guard.events.count (.begin_banner "B".toList) ∧
      (("B".toList = "A".toList ∧
          ∃ l ∈ lines_read (open_lines files_guard "A".toList), is_once l) ∨
        ∃ l ∈ lines_read (open_lines files_guard "B".toList), is_once l)) ∧
    "B".toList ∉ state_twice.alreadyIncluded :=
  ⟨⟨(C17_set_grows_by_once_files files_guard 2 "A".toList (open_lines files_guard "A".toList)
        initial state_guard run_guard).1,
    (C17_set_grows_by_once_files files_guard 2 "A".toList (open_lines files_guard "A".toList)
        initial state_guard run_guard).2.1 "B".toList (by decide) (by decide)⟩,
   (C17_set_grows_by_once_files files_twice 2 "A".toList (open_lines files_twice "A".toList)
        initial state_twice run_twice).2.2 "B".toList (by decide)
      (fun e => absurd e (by decide)) (by unfold is_once; decide)⟩

/-- C18: the events of an expansion that returns are the begin banner of its path, a
sequence `inner` nested like brackets (`Nested`: every begin banner of `p` is followed by a
nested sequence and then by the end banner of `p`), and the end banner of its path; begin
and end banners are equal in number, also for each path; and the text appended to the
output is the text of these events in this order. -/
theorem C18_banners_well_nested (fs : Files) (depth : Nat) (path : Str) (lines : List Str)
    (st st' : State) (h : parse_file fs depth path lines st = .done st') :
    ∃ inner,
      st'.events = st.events ++ (.begin_banner path :: (inner ++ [.end_banner path])) ∧
      Nested inner ∧
      (Event.begin_banner path :: (inner ++ [.end_banner path])).countP Event.is_begin =
        (Event.begin_banner path :: (inner ++ [.end_banner path])).countP Event.is_end ∧
      (∀ q, (Event.begin_banner path :: (inner ++ [.end_banner path])).count (.begin_banner q) =
        (Event.begin_banner path :: (inner ++ [.end_banner path])).count (.end_banner q)) ∧
      st'.output = st.output ++ render (.begin_banner path :: (inner ++ [.end_banner path])) := by
  obtain ⟨inner, e1, hn⟩ := (parse_induct fs (nested_steps fs)).1 depth path lines st st' h
  obtain ⟨evs, e2, ho⟩ := (parse_induct fs (render_steps fs)).1 depth path lines st st' h
  have e : evs = .begin_banner path :: (inner ++ [.end_banner path]) :=
    List.append_cancel_left (e2.symm.trans e1)
  have hall : Nested (.begin_banner path :: (inner ++ .end_banner path :: [])) :=
    Nested.expansion path inner [] hn Nested.nil
  have hc := nested_counts _ hall
  exact ⟨inner, e1, hn, hc.1, hc.2, e ▸ ho⟩

/-- C18 at the inlining example: the events of `A` are its begin banner, the nested
sequence begin-banner(B), `body`, end-banner(B), `tail`, and its end banner. -/
theorem C18_banners_well_nested_witness :
    state_ab.events = initial.events ++ (.begin_banner "A".toList ::
      ([.begin_banner "B".toList, .ordinary "body".toList, .end_banner "B".toList,
        .ordinary "tail".toList] ++ [.end_banner "A".toList])) ∧
    ∃ inner,
      state_ab.events = initial.events ++
        (.begin_banner "A".toList :: (inner ++ [.end_banner "A".toList])) ∧
      Nested inner ∧
      (Event.begin_banner "A".toList :: (inner ++ [.end_banner "A".toList])).countP
          Event.is_begin =
        (Event.begin_banner "A".toList :: (inner ++ [.end_banner "A".toList])).countP
          Event.is_end ∧
      (∀ q, (Event.begin_banner "A".toList :: (inner ++ [.end_banner "A".toList])).count
          (.begin_banner q) =
        (Event.begin_banner "A".toList :: (inner ++ [.end_banner "A".toList])).count
          (.end_banner q)) ∧
      state_ab.output = initial.output ++
        render (.begin_banner "A".toList :: (inner ++ [.end_banner "A".toList])) :=
  ⟨by rfl, C18_banners_well_nested files_ab 2 "A".toList lines_a initial state_ab run_ab⟩

/-- C15 as stated fails, in two ways.  `F = [#include "G"]` reaches an include of itself
through `G = [#pragma once, #include "F"]` and has no once-directive line, but its expansion
from the empty set returns within depth 3: the inner expansion of `F` finds `G` in the set and
skips it.  And `F = [int x;, #include "F"]` includes itself and has no once-directive line,
but `parse_include` keeps its stream open during the nested call: with `k` descriptors free,
the stream of the include at level `k + 1` fails to open, that expansion is empty, and the
expansion of `F` returns within the depth bound `k + 1` (within 1021 when 1020 are free). -/
theorem C15_cycle_returns_counterexample :
    (Includes files_loop "F".toList "G".toList ∧
      Includes files_loop "G".toList "F".toList ∧
      (∀ l ∈ lines_read (open_lines files_loop "F".toList), ¬ is_once l) ∧
      initial.alreadyIncluded = ∅ ∧
      ∀ env : Env, env.files = files_loop → env.is_output "F".toList = false →
        env.is_output "G".toList = false → ∀ steps free, 3 ≤ free →
        parse_include_os env steps 3 free "F".toList initial = .done state_loop) ∧
    (Includes files_self "F".toList "F".toList ∧
      (∀ l ∈ lines_read (open_lines files_self "F".toList), ¬ is_once l) ∧
      ∀ env : Env, env.files = files_self → env.is_output "F".toList = false → ∀ steps,
        (∃ st', parse_include_os env steps 1021 1020 "F".toList initial = .done st') ∧
        ∀ k, ∃ st', parse_include_os env steps (k + 1) k "F".toList initial = .done st') := by
  refine ⟨⟨⟨"#include \"G\"".toList, by decide, ⟨by rfl, by rfl⟩⟩,
    ⟨"#include \"F\"".toList, by decide, ⟨by rfl, by rfl⟩⟩,
    by unfold is_once; decide, by rfl, ?_⟩,
    ⟨"#include \"F\"".toList, by decide, ⟨by rfl, by rfl⟩⟩, by unfold is_once; decide, ?_⟩
  · intro env hfiles hF hG steps free hfree
    exact run_loop_os env hfiles hF hG steps free hfree
  · intro env hfiles hF steps
    have h := fun k => self_include_os_returns env hfiles hF steps k (k + 1) initial
      (Nat.lt_succ_self k) (by simp [initial])
    refine ⟨?_, ?_⟩
    · obtain ⟨st', h1, _⟩ := h 1020
      exact ⟨st', h1⟩
    · intro k
      obtain ⟨st', h1, _⟩ := h k
      exact ⟨st', h1⟩

/-- C15, amended: let `F` belong to a list `cycle` of files, none of them the output file,
each outside the set, each with a local include line of a file of the list that no
once-directive line of its own precedes (an include chain from `F` back to `F`, or `F` alone
when it includes itself).  Then the expansion of `F` nests as deep as streams can be opened:
while `k` descriptors are free, it does not return within any depth bound `n ≤ k`; it exceeds
the bound, or is aborted by `std::length_error`, or is still reading the output file.  When
moreover the paths of the files of the list have at most 116 bytes and the lines before that
include line are ordinary lines, it exceeds every depth bound `n ≤ k`. -/
theorem C15_include_cycle_nests_while_descriptors_last :
    (∀ (env : Env) (steps : Nat) (cycle : List Str) (F : Str) (st : State), F ∈ cycle →
      (∀ p ∈ cycle, p ∉ st.alreadyIncluded ∧ env.is_output p = false ∧
        ∃ pre inc post q, lines_read (open_lines env.files p) = pre ++ inc :: post ∧
          (∀ x ∈ pre, ¬ is_once x) ∧ q ∈ cycle ∧ is_include_of inc q) →
      ∀ n k, n ≤ k →
        parse_include_os env steps n k F st = .depth_exceeded ∨
        parse_include_os env steps n k F st = .length_error ∨
        parse_include_os env steps n k F st = .still_reading) ∧
    (∀ (env : Env) (steps : Nat) (cycle : List Str) (F : Str) (st : State), F ∈ cycle →
      (∀ p ∈ cycle, p ∉ st.alreadyIncluded ∧ env.is_output p = false ∧ p.length ≤ 116 ∧
        ∃ pre inc post q, lines_read (open_lines env.files p) = pre ++ inc :: post ∧
          (∀ x ∈ pre, is_ordinary x) ∧ q ∈ cycle ∧ is_include_of inc q) →
      ∀ n k, n ≤ k → parse_include_os env steps n k F st = .depth_exceeded) := by
  refine ⟨?_, ?_⟩
  · intro env steps cycle F st hF hc n k hn
    have hnot := cycle_os_never_returns env steps cycle
      (fun p hp => ⟨(hc p hp).2.1, (hc p hp).2.2⟩) F hF st (fun c hcm => (hc c hcm).1) n k hn
    cases hr : parse_include_os env steps n k F st with
    | done st' => exact absurd hr (hnot st')
    | length_error => exact Or.inr (Or.inl rfl)
    | depth_exceeded => exact Or.inl rfl
    | still_reading => exact Or.inr (Or.inr rfl)
  · intro env steps cycle F st hF hc n k hk
    exact cycle_os_exceeds env steps cycle
      (fun p hp => ⟨(hc p hp).2.2.1, (hc p hp).2.1, (hc p hp).2.2.2⟩) n k F st hk hF
      (fun c hcm => (hc c hcm).1)

/-- C15, amended, at the cycle `F = [#include "G"]`, `G = [#include "F", #pragma once]`,
whose once-directive comes after the include, and at the file `F = [int x;, #include "F"]`:
both exceed every depth bound that the free descriptors cover. -/
theorem C15_include_cycle_nests_while_descriptors_last_witness :
    (∀ steps n k, n ≤ k →
      parse_include_os (env_plain files_late) steps n k "F".toList initial = .depth_exceeded ∨
      parse_include_os (env_plain files_late) steps n k "F".toList initial = .length_error ∨
      parse_include_os (env_plain files_late) steps n k "F".toList initial = .still_reading) ∧
    (∀ steps n k, n ≤ k →
      parse_include_os (env_plain files_late) steps n k "F".toList initial = .depth_exceeded) ∧
    (∀ steps n k, n ≤ k →
      parse_include_os (env_plain files_self) steps n k "F".toList initial = .depth_exceeded) :=
  ⟨fun steps => C15_include_cycle_nests_while_descriptors_last.1 (env_plain files_late) steps
    ["F".toList, "G".toList] "F".toList initial (by decide)
    (by
      intro p hp
      simp only [List.mem_cons, List.mem_singleton, List.not_mem_nil, or_false] at hp
      rcases hp with rfl | rfl
      · exact ⟨by decide, by rfl, [], "#include \"G\"".toList, [], "G".toList, by rfl,
          by simp, by decide, ⟨by rfl, by rfl⟩⟩
      · exact ⟨by decide, by rfl, [], "#include \"F\"".toList, ["#pragma once".toList],
          "F".toList, by rfl, by simp, by decide, ⟨by rfl, by rfl⟩⟩),
   fun steps => C15_include_cycle_nests_while_descriptors_last.2 (env_plain files_late) steps
    ["F".toList, "G".toList] "F".toList initial (by decide)
    (by
      intro p hp
      simp only [List.mem_cons, List.mem_singleton, List.not_mem_nil, or_false] at hp
      rcases hp with rfl | rfl
      · exact ⟨by decide, by rfl, by decide, [], "#include \"G\"".toList, [], "G".toList,
          by rfl, by simp, by decide, ⟨by rfl, by rfl⟩⟩
      · exact ⟨by decide, by rfl, by decide, [], "#include \"F\"".toList,
          ["#pragma once".toList], "F".toList, by rfl, by simp, by decide, ⟨by rfl, by rfl⟩⟩),
   fun steps => C15_include_cycle_nests_while_descriptors_last.2 (env_plain files_self) steps
    ["F".toList] "F".toList initial (by decide)
    (by
      intro p hp
      simp only [List.mem_singleton] at hp
      subst hp
      refine ⟨by decide, by rfl, by decide, ["int x;".toList], "#include \"F\"".toList, [],
        "F".toList, by rfl, ?_, by decide, ⟨by rfl, by rfl⟩⟩
      intro l hl
      simp only [List.mem_singleton] at hl
      subst hl
      exact ⟨by rfl, by rfl⟩)⟩

/-- C16 as stated fails: the root `Masterfile.hpp` of `files_big` holds 100 lines of 100
bytes and then includes `ArgonMaster.hpp`, the file the output stream writes; the include
graph is acyclic, its longest chain has 2 files.  Whenever fewer than 8192 bytes of the
output are held back in the buffer and two descriptors are free, the include reads back the
lines the run has written, writes each of them again, and never finds the end of the file:
the run is still reading after any number of lines. -/
theorem C16_output_file_counterexample :
    (∀ rest, List.Chain (Includes files_big) input_name rest → rest.length + 1 ≤ 2) ∧
    Includes files_big input_name output_name ∧
    ∀ env : Env, env.files = files_big → env.is_output output_name = true →
      env.is_output input_name = false → (∀ out, out.length < env.visible out + 8192) →
      ∀ steps d free, 2 ≤ free →
        parse_include_os env steps (d + 2) free input_name initial = .still_reading :=
  ⟨chains_big, ⟨include_output, by
      show include_output ∈ lines_read
        (wide_line :: (List.replicate 99 wide_line ++ [include_output]))
      simp [lines_read, lines_from], ⟨by rfl, by rfl⟩⟩,
    fun env hfiles hout hin hlag steps d free hfree =>
      reads_own_output env hfiles hout hin hlag steps d free hfree⟩

/-- C16, amended: when every include chain that starts at the root (the root, a target of
one of its include lines, a target of one of that file's, and so on; a missing file has no
lines) has at most `h` files, none of them the file the output stream writes, the run on the
root with any initial set and any number of free descriptors stays within the depth bound
`h`: it does not exceed it, it is not left reading, and it returns when the paths on these
chains have at most 112 bytes (otherwise a banner may abort it with `std::length_error`). -/
theorem C16_acyclic_run_within_longest_chain (env : Env) (steps h free : Nat) (root : Str)
    (st : State)
    (hchain : ∀ rest, List.Chain (Includes env.files) root rest → rest.length + 1 ≤ h)
    (hout : ∀ rest, List.Chain (Includes env.files) root rest →
      ∀ p ∈ root :: rest, env.is_output p = false) :
    parse_include_os env steps h free root st ≠ .depth_exceeded ∧
    parse_include_os env steps h free root st ≠ .still_reading ∧
    ((∀ rest, List.Chain (Includes env.files) root rest → ∀ p ∈ root :: rest, p.length ≤ 112) →
      ∃ st', parse_include_os env steps h free root st = .done st') :=
  parse_include_os_within env steps h free root st hchain hout

/-- C16, amended, at the re-inclusion example: the longest chain `A`, `B` has 2 files,
neither the output file; the run stays within depth 2, where it returns `state_twice` when two
descriptors are free, and exceeds depth 1. -/
theorem C16_acyclic_run_within_longest_chain_witness :
    (∀ rest, List.Chain (Includes files_twice) "A".toList rest → rest.length + 1 ≤ 2) ∧
    (parse_include_os (env_plain files_twice) 0 2 2 "A".toList initial ≠ .depth_exceeded ∧
      parse_include_os (env_plain files_twice) 0 2 2 "A".toList initial ≠ .still_reading ∧
      ((∀ rest, List.Chain (Includes files_twice) "A".toList rest →
          ∀ p ∈ "A".toList :: rest, p.length ≤ 112) →
        ∃ st', parse_include_os (env_plain files_twice) 0 2 2 "A".toList initial =
          .done st')) ∧
    parse_include_os (env_plain files_twice) 0 2 2 "A".toList initial = .done state_twice ∧
    parse_include_os (env_plain files_twice) 0 1 2 "A".toList initial = .depth_exceeded := by
  have hout : ∀ rest, List.Chain (Includes (env_plain files_twice).files) "A".toList rest →
      ∀ p ∈ "A".toList :: rest, (env_plain files_twice).is_output p = false := by
    intro rest hr p hp
    rcases chain_files_twice rest hr p hp with rfl | rfl
    · rfl
    · rfl
  refine ⟨chains_twice,
    C16_acyclic_run_within_longest_chain (env_plain files_twice) 0 2 2 "A".toList initial
      chains_twice hout, ?_, ?_⟩
  · rw [parse_include_os_fixed (env_plain files_twice) 0 2 2 "A".toList initial (by decide) hout]
    show Result.of (parse_include files_twice 2 "A".toList initial) = _
    rw [run_twice]
    rfl
  · rw [parse_include_os_fixed (env_plain files_twice) 0 1 2 "A".toList initial (by decide) hout]
    rfl

/-- C19: take a run from an empty output that returns, all of whose banner labels have at
most 116 bytes, on a root path and on files whose lines hold no newline (they are lines read
by `std::getline`).  Then no line of the output, read back by `std::getline`, is classified
as a local include or as a once-directive, the first line has no BOM to lose, and expanding
the output again as a root file `root2` (of at most 112 bytes, so that its own banners can be
written) is a passthrough at depth 1 for every file map: the output between the two banners
of `root2`, the set unchanged, no file opened. -/
theorem C19_output_is_flat (fs : Files) (depth : Nat) (root : Str) (lines : List Str)
    (seen : Finset Str) (st' : State)
    (hrun : parse_file fs depth root lines (State.fresh seen) = .done st')
    (hbegin : ∀ p, Event.begin_banner p ∈ st'.events → p.length ≤ 116)
    (hend : ∀ p, Event.end_banner p ∈ st'.events → ("END ".toList ++ p).length ≤ 116)
    (hroot : '\n' ∉ root) (hlines : ∀ l ∈ lines, '\n' ∉ l)
    (hfs : ∀ p ls, fs p = some ls → ∀ l ∈ ls, '\n' ∉ l) :
    (∀ l ∈ get_lines st'.output,
      (is_local_include l).successful = false ∧ (is_pragma_once l).successful = false) ∧
    lines_read (get_lines st'.output) = get_lines st'.output ∧
    ∀ (fs2 : Files) (depth2 : Nat) (root2 : Str) (st2 : State), root2.length ≤ 112 →
      parse_file fs2 (depth2 + 1) root2 (get_lines st'.output) st2 = .done
        { output := st2.output ++ (banner root2 ++ "\n".toList) ++ st'.output ++
            (banner ("END ".toList ++ root2) ++ "\n".toList),
          alreadyIncluded := st2.alreadyIncluded,
          events := st2.events ++ [.begin_banner root2] ++
            (get_lines st'.output).map Event.ordinary ++ [.end_banner root2] } := by
  have hfit : ∀ e ∈ st'.events, e.fits := by
    intro e he
    cases e with
    | begin_banner p => exact hbegin p he
    | end_banner p => exact hend p he
    | ordinary l => exact True.intro
  obtain ⟨hout, hord, hread⟩ := output_flat fs depth root lines seen st' hrun hfit hroot hlines hfs
  refine ⟨hord, hread, ?_⟩
  intro fs2 depth2 root2 st2 hlen
  rw [parse_file_all_ordinary fs2 depth2 root2 (get_lines st'.output) st2 hlen
    (by rw [hread]; exact hord), hread, ← hout]

/-- C19 at the inlining example: the output of `state_ab`, read back and expanded as the
root file `M` with no file to open, passes through. -/
theorem C19_output_is_flat_witness :
    (∀ l ∈ get_lines state_ab.output,
      (is_local_include l).successful = false ∧ (is_pragma_once l).successful = false) ∧
    parse_file (fun _ => none) 1 "M".toList (get_lines state_ab.output) initial = .done
      { output := initial.output ++ (banner "M".toList ++ "\n".toList) ++ state_ab.output ++
          (banner ("END ".toList ++ "M".toList) ++ "\n".toList),
        alreadyIncluded := initial.alreadyIncluded,
        events := initial.events ++ [.begin_banner "M".toList] ++
          (get_lines state_ab.output).map Event.ordinary ++ [.end_banner "M".toList] } :=
  have h := C19_output_is_flat files_ab 2 "A".toList lines_a ∅ state_ab run_ab
    (by
      intro p hp
      simp only [state_ab, List.mem_cons, Event.begin_banner.injEq, List.not_mem_nil,
        or_false, false_or, reduceCtorEq] at hp
      rcases hp with rfl | rfl <;> decide)
    (by
      intro p hp
      simp only [state_ab, List.mem_cons, Event.end_banner.injEq, List.not_mem_nil,
        or_false, false_or, reduceCtorEq] at hp
      rcases hp with rfl | rfl <;> decide)
    (by decide) (by decide)
    (by
      intro p ls hp
      unfold files_ab at hp
      split at hp
      · cases hp
        decide
      · exact Option.noConfusion hp)
  ⟨h.1, h.2.2 (fun _ => none) 0 "M".toList initial (by decide)⟩

end Amalgamate
